import Mathlib

/-!
Verification of the xschem-parser repository (crates/xschem-parser).

The Rust source is shallowly embedded: the input type `I` of the generic
nom parsers is modelled as a list of characters (content of a span; the
zero-copy/offset aspects of spans are not modelled, only their textual
content, which is what every claim here is about).  Parsers become
functions from input to an explicit result type mirroring nom's
`IResult`: `ok` (with remaining input), recoverable `err` (nom
`Err::Error`), committed `fail` (nom `Err::Failure`), plus `panic` for a
Rust panic (the `unwrap` in `finite_double`) and `fuelOut` for the
explicit step budgets that replace Rust's unbounded loops/recursion
(each budget is instantiated with `input.length + 1` by the wrappers,
and sufficiency of the budget is proved where a claim needs it).

Machine doubles (`f64`) are modelled exactly: a parsed numeric literal
becomes the exact rational it denotes, and Rust's
`f64::from_str` overflow-to-infinity behaviour is modelled by the exact
IEEE-754 binary64 overflow threshold 2^1024 - 2^970 (a decimal value
rounds to a finite double iff its magnitude is strictly below this).
Rust's `Display` for finite doubles prints a shortest decimal string
that parses back to the same double and never uses exponent notation;
the model renders the exact rational as a decimal string, which parses
back to the same rational, so the two systems agree on round-trip
behaviour.  `HashMap` is modelled as an association list with
last-wins insertion, which `==` refines.
-/

set_option maxHeartbeats 1000000
set_option maxRecDepth 100000

namespace Xschem

/-- Model of a span's textual content. -/
abbrev Str : Type := List Char

/-- The nom `ErrorKind` variants used by this parser. -/
inductive NomKind where
  | escaped
  | takeWhile1
  | char
  | eof
  | float
  | digit
  | count
  | many
  | multiSpace
  | space
  | oneOf
  | noneOf
  | tagK
  deriving DecidableEq, Repr

/-- The repository's `error::ErrorKind`: an expected character from the
`char` combinator, or a nom primitive kind. -/
inductive EKind where
  | char (c : Char)
  | nom (k : NomKind)
  deriving DecidableEq, Repr

/-- The repository's `error::Error<I>`: failing input, leaf kind, and the
ordered context stack (innermost frame first, as pushed by
`ContextError::add_context`). -/
structure PError where
  input : Str
  kind : EKind
  context : List (String × Str)
  deriving DecidableEq, Repr

/-- The nom tuple error type `(I, ErrorKind)` used for the parsers run
inside `try_skip` in `attributes`. -/
abbrev TErr : Type := Str × NomKind

/-- Result of a nom parser: `ok` mirrors `Ok((rest, val))`, `err` mirrors
`Err::Error`, `fail` mirrors `Err::Failure`, `panic` a Rust panic, and
`fuelOut` exhaustion of an explicit step budget of the embedding. -/
inductive PRes (ε α : Type) where
  | ok (rest : Str) (val : α)
  | err (e : ε)
  | fail (e : ε)
  | panic
  | fuelOut
  deriving DecidableEq, Repr

/-- A parser in the embedding. -/
abbrev P (ε α : Type) : Type := Str → PRes ε α

/-- Error-construction operations of nom's `ParseError`/`ContextError`,
as implemented by the two error types in play. -/
class ErrM (ε : Type) where
  fromKind : Str → NomKind → ε
  fromChar : Str → Char → ε
  addCtx : Str → String → ε → ε
  orE : ε → ε → ε
  appendE : Str → NomKind → ε → ε

/-- The repository error: `from_char` keeps the character, contexts are
pushed, `or` keeps the second error, `append` keeps the existing error. -/
instance : ErrM PError where
  fromKind i k := ⟨i, .nom k, []⟩
  fromChar i c := ⟨i, .char c, []⟩
  addCtx i n e := ⟨e.input, e.kind, e.context ++ [(n, i)]⟩
  orE _ e2 := e2
  appendE _ _ e := e

/-- The nom tuple error: `from_char` degrades to `ErrorKind::Char` and
`add_context` is a no-op (nom's default implementations). -/
instance : ErrM TErr where
  fromKind i k := (i, k)
  fromChar i _ := (i, .char)
  addCtx _ _ e := e
  orE _ e2 := e2
  appendE _ _ e := e

section Combinators

variable {ε α β γ : Type} [ErrM ε]

/-- Map over a parser result (nom `Parser::map` / `Parser::into`). -/
def pmap (f : α → β) (p : P ε α) : P ε β := fun input =>
  match p input with
  | .ok rest v => .ok rest (f v)
  | .err e => .err e
  | .fail e => .fail e
  | .panic => .panic
  | .fuelOut => .fuelOut

/-- Sequencing; nom's tuple/`preceded`/`terminated` plumbing is expressed
through this. -/
def bindP (p : P ε α) (f : α → P ε β) : P ε β := fun input =>
  match p input with
  | .ok rest v => f v rest
  | .err e => .err e
  | .fail e => .fail e
  | .panic => .panic
  | .fuelOut => .fuelOut

/-- nom `character::complete::char`. -/
def charP (c : Char) : P ε Char := fun input =>
  match input with
  | c' :: rest => if c' = c then .ok rest c else .err (ErrM.fromChar input c)
  | [] => .err (ErrM.fromChar input c)

/-- nom `bytes::complete::tag` for a string tag. -/
def tagP (t : Str) : P ε Str := fun input =>
  if t.isPrefixOf input then .ok (input.drop t.length) t
  else .err (ErrM.fromKind input .tagK)

/-- nom `character::complete::one_of`. -/
def oneOfP (cs : List Char) : P ε Char := fun input =>
  match input with
  | c :: rest => if c ∈ cs then .ok rest c else .err (ErrM.fromKind input .oneOf)
  | [] => .err (ErrM.fromKind input .oneOf)

/-- nom `character::complete::none_of`. -/
def noneOfP (cs : List Char) : P ε Char := fun input =>
  match input with
  | c :: rest => if c ∈ cs then .err (ErrM.fromKind input .noneOf) else .ok rest c
  | [] => .err (ErrM.fromKind input .noneOf)

/-- nom `bytes::complete::take_while`. -/
def takeWhileP (f : Char → Bool) : P ε Str := fun input =>
  .ok (input.dropWhile f) (input.takeWhile f)

/-- nom-style one-or-more scan with an error kind for the empty match
(`take_while1`, `digit1`, `multispace1`, `space1`). -/
def takeWhile1K (k : NomKind) (f : Char → Bool) : P ε Str := fun input =>
  if input.takeWhile f = [] then .err (ErrM.fromKind input k)
  else .ok (input.dropWhile f) (input.takeWhile f)

def takeWhile1P (f : Char → Bool) : P ε Str := takeWhile1K .takeWhile1 f

def isWsChar (c : Char) : Bool := c == ' ' || c == '\t' || c == '\r' || c == '\n'

def isSpChar (c : Char) : Bool := c == ' ' || c == '\t'

def isDigitChar (c : Char) : Bool := c.isDigit

/-- nom `multispace0`. -/
def multispace0 : P ε Str := takeWhileP isWsChar

/-- nom `multispace1`. -/
def multispace1 : P ε Str := takeWhile1K .multiSpace isWsChar

/-- nom `space1` (spaces and tabs only). -/
def space1 : P ε Str := takeWhile1K .space isSpChar

/-- nom `digit1`. -/
def digit1 : P ε Str := takeWhile1K .digit isDigitChar

/-- nom `combinator::eof`. -/
def eofP : P ε Str := fun input =>
  match input with
  | [] => .ok [] []
  | _ => .err (ErrM.fromKind input .eof)

/-- nom `combinator::opt`. -/
def optP (p : P ε α) : P ε (Option α) := fun input =>
  match p input with
  | .ok rest v => .ok rest (some v)
  | .err _ => .ok input none
  | .fail e => .fail e
  | .panic => .panic
  | .fuelOut => .fuelOut

/-- nom `combinator::cut`: recoverable errors become failures. -/
def cutP (p : P ε α) : P ε α := fun input =>
  match p input with
  | .ok rest v => .ok rest v
  | .err e => .fail e
  | .fail e => .fail e
  | .panic => .panic
  | .fuelOut => .fuelOut

/-- nom `error::context`: label both errors and failures. -/
def ctxP (name : String) (p : P ε α) : P ε α := fun input =>
  match p input with
  | .ok rest v => .ok rest v
  | .err e => .err (ErrM.addCtx input name e)
  | .fail e => .fail (ErrM.addCtx input name e)
  | .panic => .panic
  | .fuelOut => .fuelOut

/-- nom `sequence::preceded`. -/
def precededP (p : P ε α) (q : P ε β) : P ε β :=
  bindP p (fun _ => q)

/-- nom `sequence::terminated`. -/
def terminatedP (p : P ε α) (q : P ε β) : P ε α :=
  bindP p (fun v => pmap (fun _ => v) q)

/-- nom `sequence::separated_pair`. -/
def separatedPairP (p : P ε α) (sep : P ε β) (q : P ε γ) : P ε (α × γ) :=
  bindP p (fun a => precededP sep (pmap (fun c => (a, c)) q))

/-- nom `branch::alt` for two alternatives: a recoverable error tries the
second branch and the errors combine with `ParseError::or` (which keeps
the second); failures propagate at once. -/
def alt2 (p q : P ε α) : P ε α := fun input =>
  match p input with
  | .err e1 =>
    match q input with
    | .err e2 => .err (ErrM.orE e1 e2)
    | r => r
  | r => r

/-- nom `combinator::recognize`: return the consumed span. -/
def recognizeP (p : P ε α) : P ε Str := fun input =>
  match p input with
  | .ok rest _ => .ok rest (input.take (input.length - rest.length))
  | .err e => .err e
  | .fail e => .fail e
  | .panic => .panic
  | .fuelOut => .fuelOut

/-- Value of a decimal digit string. -/
def natVal (s : Str) : ℕ :=
  s.foldl (fun a c => a * 10 + (c.toNat - '0'.toNat)) 0

/-- nom `character::complete::u64` / `usize`: a maximal run of decimal
digits, an `ErrorKind::Digit` error when it is empty or when the value
overflows the 64-bit bound. -/
def uintP (bound : ℕ) : P ε ℕ := fun input =>
  let ds := input.takeWhile isDigitChar
  if ds = [] then .err (ErrM.fromKind input .digit)
  else if natVal ds ≤ bound then .ok (input.dropWhile isDigitChar) (natVal ds)
  else .err (ErrM.fromKind input .digit)

def u64Bound : ℕ := 2 ^ 64 - 1

def u64P : P ε ℕ := uintP u64Bound

def usizeP : P ε ℕ := uintP u64Bound

end Combinators

/-- Reserved escapable characters in property strings (`ESCAPED_CHARS`). -/
def ESCAPED_CHARS : List Char := ['\\', '{', '}']

/-- Reserved escapable characters in attribute values (`ESCAPED_VALUE_CHARS`). -/
def ESCAPED_VALUE_CHARS : List Char := ['\\', '"']

/-- Escape character in property strings (`ESCAPE_CHAR`). -/
def ESCAPE_CHAR : Char := '\\'

section Escaped

variable {ε β : Type} [ErrM ε]

/-- Loop body of the hand-written `escaped0` combinator of `parse.rs`,
with `input` the original input, `i` the current suffix and `flag` the
`consumed_nothing` guard.  The Rust `while` loop is driven by an explicit
step budget; each iteration either returns, consumes input, or flips the
guard, so `2 * input.length + 2` steps always suffice (proved where
needed). -/
def escLoop (normal : P ε Char) (escp : P ε β) (control : Char) (input : Str) :
    ℕ → Bool → Str → PRes ε Str
  | 0, _, _ => .fuelOut
  | fuel + 1, flag, i =>
    match i with
    | [] => .ok [] input
    | c :: irest =>
      match normal (c :: irest), flag with
      | .ok i2 _, false =>
        if i2 = [] then .ok [] input
        else if i2.length = (c :: irest).length then
          escLoop normal escp control input fuel true (c :: irest)
        else escLoop normal escp control input fuel false i2
      | .fail e, _ => .fail e
      | .panic, _ => .panic
      | .fuelOut, _ => .fuelOut
      | _, _ =>
        if c = control then
          if (c :: irest).length ≤ 1 then .err (ErrM.fromKind input .escaped)
          else
            match escp irest with
            | .ok i2 _ =>
              if i2 = [] then .ok [] input
              else escLoop normal escp control input fuel false i2
            | .err _ => .err (ErrM.fromKind (c :: irest) .escaped)
            | .fail _ => .err (ErrM.fromKind (c :: irest) .escaped)
            | .panic => .panic
            | .fuelOut => .fuelOut
        else .ok (c :: irest) (input.take (input.length - (c :: irest).length))

/-- The `escaped0` combinator of `parse.rs`. -/
def escaped0P (normal : P ε Char) (escp : P ε β) (control : Char) : P ε Str := fun input =>
  escLoop normal escp control input (2 * input.length + 2) false input

/-- The `property_string` parser. -/
def propertyStringP : P ε Str :=
  escaped0P (noneOfP ESCAPED_CHARS) (oneOfP ESCAPED_CHARS) ESCAPE_CHAR

end Escaped

/-- The `is_key_char` predicate (nom `is_alphanum` is ASCII-only). -/
def isKeyChar (c : Char) : Bool := c.isAlphanum || c == '_'

/-- Rust `char::is_ascii_punctuation`. -/
def isAsciiPunct (c : Char) : Bool :=
  let n := c.toNat
  (33 ≤ n && n ≤ 47) || (58 ≤ n && n ≤ 64) || (91 ≤ n && n ≤ 96) || (123 ≤ n && n ≤ 126)

/-- The `is_value_char` predicate. -/
def isValueChar (c : Char) : Bool := c.isAlphanum || isAsciiPunct c

/-- The `key` parser, instantiated at the nom tuple error type, as used
inside `attributes` via `try_skip(key_value)`. -/
def keyP : P TErr Str := ctxP "key" (takeWhile1P (fun c => isKeyChar c))

/-- The escapable alternative of the quoted branch of `value`:
`alt((tag("\\\""), tag("\\"), tag("{"), tag("}")))` where the first tag
is the two-character sequence backslash-quote. -/
def valueEscapable : P TErr Str :=
  alt2 (tagP ['\\', '"']) (alt2 (tagP ['\\']) (alt2 (tagP ['{']) (tagP ['}'])))

/-- The escape-aware scanner of the quoted branch of `value`. -/
def valueStringP : P TErr Str :=
  escaped0P (noneOfP ESCAPED_VALUE_CHARS) valueEscapable ESCAPE_CHAR

/-- The `value` parser (tuple error type). -/
def valueP : P TErr Str :=
  ctxP "value" (alt2
    (precededP (charP '"') (cutP (terminatedP valueStringP (charP '"'))))
    (takeWhile1P (fun c => isValueChar c)))

/-- The `key_value` parser (tuple error type). -/
def keyValueP : P TErr (Str × Str) :=
  ctxP "key_value" (separatedPairP keyP (charP '=') valueP)

/-- The `try_skip` adapter: recoverable `key_value` errors resume at the
error's stored input with no output; failures are converted into the
outer error type through `from_error_kind`, losing any context. -/
def trySkipP {α : Type} (p : P TErr α) : P PError (Option α) := fun input =>
  match p input with
  | .ok rest v => .ok rest (some v)
  | .err (rest, _) => .ok rest none
  | .fail (i, k) => .fail (ErrM.fromKind i k)
  | .panic => .panic
  | .fuelOut => .fuelOut

/-- Attribute maps: `HashMap<I, I>` modelled as an association list with
last-wins insertion (`insert` replaces the value of an existing key). -/
abbrev AttrMap : Type := List (Str × Str)

/-- Rust `HashMap::insert` on the association-list model. -/
def insertA (m : AttrMap) (k v : Str) : AttrMap :=
  if m.any (fun kv => kv.1 = k) then
    m.map (fun kv => if kv.1 = k then (kv.1, v) else kv)
  else m ++ [(k, v)]

/-- One iteration of the `attributes` loop: skip non-key characters, then
optionally a `key_value` pair. -/
def attrStep : P PError (Option (Str × Str)) :=
  precededP (takeWhileP (fun c => !(isKeyChar c))) (trySkipP keyValueP)

/-- The `attributes` loop with an explicit step budget. -/
def attrLoop : ℕ → AttrMap → Str → PRes PError AttrMap
  | 0, _, _ => .fuelOut
  | fuel + 1, attrs, input =>
    if input = [] then .ok input attrs
    else
      match attrStep input with
      | .ok rest (some kv) => attrLoop fuel (insertA attrs kv.1 kv.2) rest
      | .ok rest none => attrLoop fuel attrs rest
      | .err e => .err e
      | .fail e => .fail e
      | .panic => .panic
      | .fuelOut => .fuelOut

/-- The `attributes` parser.  The budget `input.length + 1` is proved
sufficient below (the termination claim). -/
def attributesP : P PError AttrMap := fun input =>
  attrLoop (input.length + 1) [] input

/-- The `brace_enclosed` combinator. -/
def braceEnclosed {ε α : Type} [ErrM ε] (p : P ε α) : P ε α :=
  precededP (charP '{') (cutP (terminatedP p (charP '}')))

/-- The parsed `Property` token: raw property span plus attribute map. -/
structure Property where
  prop : Str
  attrs : AttrMap
  deriving DecidableEq, Repr

/-- The `property` parser: a brace-enclosed `property_string`, re-scanned
through `consumed(attributes)` (which, as in `and_then`, discards the
rest of the inner parse and keeps the consumed prefix of the span). -/
def propertyP : P PError Property := fun input =>
  match braceEnclosed (ctxP "property" propertyStringP) input with
  | .ok rest span =>
    match attributesP span with
    | .ok restA attrs => .ok rest (Property.mk (span.take (span.length - restA.length)) attrs)
    | .err e => .err e
    | .fail e => .fail e
    | .panic => .panic
    | .fuelOut => .fuelOut
  | .err e => .err e
  | .fail e => .fail e
  | .panic => .panic
  | .fuelOut => .fuelOut

/-- The `text` parser. -/
def textP : P PError Str := braceEnclosed (ctxP "text" propertyStringP)

/-- The `reference` parser. -/
def referenceP : P PError Str := braceEnclosed (ctxP "reference" propertyStringP)

section Numbers

variable {ε : Type} [ErrM ε]

/-- nom `number::complete::recognize_float`, structure as in nom:
optional sign, then either digits with an optional fraction or a
fraction alone, then an optional exponent whose digits sit under a
`cut`. -/
def floatBody : P ε Unit :=
  bindP (alt2
    (bindP digit1 fun _ =>
      pmap (fun _ => ()) (optP (bindP (charP '.') fun _ => optP digit1)))
    (bindP (charP '.') fun _ => pmap (fun _ => ()) digit1)) fun _ =>
  pmap (fun _ => ())
    (optP (bindP (alt2 (charP 'e') (charP 'E')) fun _ =>
      bindP (optP (alt2 (charP '+') (charP '-'))) fun _ => cutP digit1))

def recognizeFloatInner : P ε Unit :=
  bindP (optP (alt2 (charP '+') (charP '-'))) fun _ => floatBody

def recognizeFloat : P ε Str := recognizeP recognizeFloatInner

end Numbers

/-- Leading sign of a float literal. -/
def splitSign : Str → Bool × Str
  | c :: r => if c = '+' then (false, r) else if c = '-' then (true, r) else (false, c :: r)
  | [] => (false, [])

/-- An exact decimal: the value `num / 10 ^ exp`.  Every finite double
in a parsed tree is such a decimal; the parser only builds canonical
ones (`exp = 0` or `num` not divisible by 10), on which structural
equality coincides with value equality, exactly as `f64` equality
relates shortest decimal expansions. -/
structure Dec where
  num : ℤ
  exp : ℕ
  deriving DecidableEq, Repr

/-- Value of an exact decimal, for reasoning. -/
def Dec.toQ (d : Dec) : ℚ := (d.num : ℚ) / 10 ^ d.exp

/-- Strip factors of ten (fuelled by the exponent itself). -/
def decStrip : ℕ → ℤ → ℕ → Dec
  | 0, n, e => ⟨n, e⟩
  | _ + 1, n, 0 => ⟨n, 0⟩
  | fuel + 1, n, e + 1 => if n % 10 = 0 then decStrip fuel (n / 10) e else ⟨n, e + 1⟩

/-- Canonical constructor for exact decimals. -/
def mkDec (n : ℤ) (e : ℕ) : Dec := decStrip (e + 1) n e

/-- An exact decimal in lowest decimal terms. -/
def DecCanon (d : Dec) : Prop := d.exp = 0 ∨ d.num % 10 ≠ 0

/-- Overflow test against the exact IEEE-754 binary64 threshold: the
decimal `n / 10 ^ e` rounds (to nearest, ties to even) to a finite
double iff its magnitude is strictly below `2 ^ 1024 - 2 ^ 970`. -/
def decOverflow (n : ℤ) (e : ℕ) : Bool :=
  (2 ^ 1024 - 2 ^ 970) * 10 ^ e ≤ n.natAbs

/-- Model of a Rust `f64` produced by `from_str` on a numeric literal:
either a finite value (kept exact) or an infinity (overflow; `from_str`
returns `Ok(±inf)` rather than an error on overflow). -/
inductive F64 where
  | finite (d : Dec)
  | infinite
  deriving DecidableEq, Repr

/-- Signed overflow-checked conversion of an exact decimal into the
`F64` model. -/
def mkF64 (neg : Bool) (m : ℕ) (e : ℕ) : F64 :=
  if decOverflow (m : ℤ) e then .infinite
  else .finite (mkDec (if neg then -(m : ℤ) else (m : ℤ)) e)

/-- Rust `str::parse::<f64>` on a numeric literal, in the exact model:
`none` on a shape `from_str` rejects; otherwise the exact decimal value
with the overflow-to-infinity behaviour. -/
def rustParseF64 (s0 : Str) : Option F64 :=
  let sn := splitSign s0
  let s1 := sn.2
  let ip := s1.takeWhile isDigitChar
  let s2 := s1.dropWhile isDigitChar
  let fr : Str × Str :=
    match s2 with
    | '.' :: s3 => (s3.takeWhile isDigitChar, s3.dropWhile isDigitChar)
    | _ => ([], s2)
  let fp := fr.1
  let s4 := if s2.head? = some '.' then fr.2 else s2
  if ip = [] ∧ fp = [] then none
  else
    let m : ℕ := natVal ip * 10 ^ fp.length + natVal fp
    match s4 with
    | [] => some (mkF64 sn.1 m fp.length)
    | e :: s5 =>
      if e = 'e' ∨ e = 'E' then
        let esn := splitSign s5
        let ed := esn.2.takeWhile isDigitChar
        let s7 := esn.2.dropWhile isDigitChar
        if ed = [] ∨ s7 ≠ [] then none
        else if esn.1 then some (mkF64 sn.1 m (fp.length + natVal ed))
        else some (mkF64 sn.1 (m * 10 ^ natVal ed) fp.length)
      else none

/-- The `finite_double` parser.  In the `Some(f)` branch the code runs
`f.try_into().unwrap()`; `TryFrom<f64> for FiniteDouble` errors on a
non-finite value, so the unwrap panics there. -/
def finiteDoubleP {ε : Type} [ErrM ε] : P ε Dec := fun input =>
  match recognizeFloat (ε := ε) input with
  | .ok i sp =>
    match rustParseF64 sp with
    | some (.finite q) => .ok i q
    | some .infinite => .panic
    | none => .err (ErrM.fromKind i .float)
  | .err e => .err e
  | .fail e => .fail e
  | .panic => .panic
  | .fuelOut => .fuelOut

/-- A 2-vector of finite doubles (`Vec2`; also `Coordinate` and `Size`). -/
structure Vec2 where
  x : Dec
  y : Dec
  deriving DecidableEq, Repr

/-- The `vec2` parser. -/
def vec2P {ε : Type} [ErrM ε] : P ε Vec2 :=
  pmap (fun p => Vec2.mk p.1 p.2) (separatedPairP finiteDoubleP multispace1 finiteDoubleP)

/-- The `coordinate` parser. -/
def coordinateP {ε : Type} [ErrM ε] : P ε Vec2 := ctxP "coordinate" vec2P

/-- The `size` parser. -/
def sizeVecP {ε : Type} [ErrM ε] : P ε Vec2 := ctxP "size" vec2P

/-- The `layer` parser. -/
def layerP {ε : Type} [ErrM ε] : P ε ℕ := u64P

inductive Rotation where
  | zero | one | two | three
  deriving DecidableEq, Repr

inductive Flip where
  | unflipped | flipped
  deriving DecidableEq, Repr

/-- The `rotation` parser. -/
def rotationP {ε : Type} [ErrM ε] : P ε Rotation :=
  ctxP "rotation" (alt2 (pmap (fun _ => Rotation.zero) (charP '0'))
    (alt2 (pmap (fun _ => Rotation.one) (charP '1'))
      (alt2 (pmap (fun _ => Rotation.two) (charP '2'))
        (pmap (fun _ => Rotation.three) (charP '3')))))

/-- The `flip` parser. -/
def flipP {ε : Type} [ErrM ε] : P ε Flip :=
  ctxP "flip" (alt2 (pmap (fun _ => Flip.unflipped) (charP '0'))
    (pmap (fun _ => Flip.flipped) (charP '1')))

/-- The `Version` token (a tagged `Property`). -/
structure Version where
  vp : Property
  deriving DecidableEq, Repr

/-- The `Arc` token. -/
structure Arc where
  layer : ℕ
  center : Vec2
  radius : Dec
  start_angle : Dec
  sweep_angle : Dec
  property : Property
  deriving DecidableEq, Repr

/-- The `Line` token (`endPt` models the Rust field `end`). -/
structure Line where
  layer : ℕ
  start : Vec2
  endPt : Vec2
  property : Property
  deriving DecidableEq, Repr

/-- The `Rectangle` token. -/
structure Rectangle where
  layer : ℕ
  start : Vec2
  endPt : Vec2
  property : Property
  deriving DecidableEq, Repr

/-- The `Text` token. -/
structure Text where
  text : Str
  position : Vec2
  rotation : Rotation
  flip : Flip
  size : Vec2
  property : Property
  deriving DecidableEq, Repr

/-- The `Wire` token. -/
structure Wire where
  start : Vec2
  endPt : Vec2
  property : Property
  deriving DecidableEq, Repr

/-- The `Polygon` token. -/
structure Polygon where
  layer : ℕ
  points : List Vec2
  property : Property
  deriving DecidableEq, Repr

/-- The `Component` token, generic in the schematic type to break the
recursion through `embedding` (an `Embedding` is a nested schematic). -/
structure ComponentG (σ : Type) where
  reference : Str
  position : Vec2
  rotation : Rotation
  flip : Flip
  property : Property
  embedding : Option σ
  deriving DecidableEq, Repr

/-- The `Schematic` token.  The five `*Property` newtype wrappers of
`token.rs` are transparent for equality and display, so the singleton
slots are modelled as `Option Property` directly. -/
inductive Schematic where
  | mk (version : Version)
      (vhdl_property symbol_property verilog_property spice_property tedax_property :
        Option Property)
      (texts : List Text) (lines : List Line) (rectangles : List Rectangle)
      (polygons : List Polygon) (arcs : List Arc) (wires : List Wire)
      (components : List (ComponentG Schematic))

abbrev Component : Type := ComponentG Schematic

def Schematic.version : Schematic → Version
  | .mk v _ _ _ _ _ _ _ _ _ _ _ _ => v

def Schematic.vhdl_property : Schematic → Option Property
  | .mk _ g _ _ _ _ _ _ _ _ _ _ _ => g

def Schematic.symbol_property : Schematic → Option Property
  | .mk _ _ k _ _ _ _ _ _ _ _ _ _ => k

def Schematic.verilog_property : Schematic → Option Property
  | .mk _ _ _ vl _ _ _ _ _ _ _ _ _ => vl

def Schematic.spice_property : Schematic → Option Property
  | .mk _ _ _ _ sp _ _ _ _ _ _ _ _ => sp

def Schematic.tedax_property : Schematic → Option Property
  | .mk _ _ _ _ _ te _ _ _ _ _ _ _ => te

def Schematic.texts : Schematic → List Text
  | .mk _ _ _ _ _ _ ts _ _ _ _ _ _ => ts

def Schematic.lines : Schematic → List Line
  | .mk _ _ _ _ _ _ _ ls _ _ _ _ _ => ls

def Schematic.rectangles : Schematic → List Rectangle
  | .mk _ _ _ _ _ _ _ _ rs _ _ _ _ => rs

def Schematic.polygons : Schematic → List Polygon
  | .mk _ _ _ _ _ _ _ _ _ ps _ _ _ => ps

def Schematic.arcs : Schematic → List Arc
  | .mk _ _ _ _ _ _ _ _ _ _ ar _ _ => ar

def Schematic.wires : Schematic → List Wire
  | .mk _ _ _ _ _ _ _ _ _ _ _ ws _ => ws

def Schematic.components : Schematic → List Component
  | .mk _ _ _ _ _ _ _ _ _ _ _ _ cs => cs

/-- The `Object` sum type. -/
inductive Object where
  | spiceProp (p : Property)
  | verilogProp (p : Property)
  | vhdlProp (p : Property)
  | tedaxProp (p : Property)
  | symbolProp (p : Property)
  | arc (a : Arc)
  | component (c : Component)
  | line (l : Line)
  | polygon (p : Polygon)
  | rectangle (r : Rectangle)
  | text (t : Text)
  | wire (w : Wire)

/-- Rust `Schematic::new`. -/
def Schematic.new (v : Version) : Schematic :=
  .mk v none none none none none [] [] [] [] [] [] []

/-- Rust `Schematic::add_object`: singleton slots are replaced
(last-wins), object sequences are appended to. -/
def Schematic.add_object : Schematic → Object → Schematic
  | .mk v g k vl sp te ts ls rs ps ar ws cs, o =>
    match o with
    | .vhdlProp p => .mk v (some p) k vl sp te ts ls rs ps ar ws cs
    | .symbolProp p => .mk v g (some p) vl sp te ts ls rs ps ar ws cs
    | .verilogProp p => .mk v g k (some p) sp te ts ls rs ps ar ws cs
    | .spiceProp p => .mk v g k vl (some p) te ts ls rs ps ar ws cs
    | .tedaxProp p => .mk v g k vl sp (some p) ts ls rs ps ar ws cs
    | .arc o => .mk v g k vl sp te ts ls rs ps (ar ++ [o]) ws cs
    | .component o => .mk v g k vl sp te ts ls rs ps ar ws (cs ++ [o])
    | .line o => .mk v g k vl sp te ts (ls ++ [o]) rs ps ar ws cs
    | .polygon o => .mk v g k vl sp te ts ls rs (ps ++ [o]) ar ws cs
    | .rectangle o => .mk v g k vl sp te ts ls (rs ++ [o]) ps ar ws cs
    | .text o => .mk v g k vl sp te (ts ++ [o]) ls rs ps ar ws cs
    | .wire o => .mk v g k vl sp te ts ls rs ps ar (ws ++ [o]) cs

/-- The `object` combinator: tag character, then commit. -/
def objectP {ε α : Type} [ErrM ε] (name : String) (t : Char) (p : P ε α) : P ε α :=
  ctxP name (precededP (charP t) (cutP p))

/-- The `version_object` parser. -/
def versionObjectP : P PError Version :=
  pmap Version.mk (objectP "version" 'v' (precededP multispace1 propertyP))

/-- The `property_object` parser. -/
def propertyObjectP (t : Char) : P PError Property :=
  objectP "global property" t (precededP multispace1 propertyP)

/-- The `arc_object` parser. -/
def arcObjectP : P PError Arc :=
  objectP "arc" 'A' (
    bindP (precededP multispace1 layerP) fun layer =>
    bindP (precededP multispace1 coordinateP) fun center =>
    bindP (precededP multispace1 finiteDoubleP) fun radius =>
    bindP (precededP multispace1 finiteDoubleP) fun sa =>
    bindP (precededP multispace1 finiteDoubleP) fun sw =>
    pmap (fun property => Arc.mk layer center radius sa sw property)
      (precededP multispace1 propertyP))

/-- The `line_object` parser. -/
def lineObjectP : P PError Line :=
  objectP "line" 'L' (
    bindP (precededP multispace1 layerP) fun layer =>
    bindP (precededP multispace1 coordinateP) fun st =>
    bindP (precededP multispace1 coordinateP) fun en =>
    pmap (fun property => Line.mk layer st en property)
      (precededP multispace1 propertyP))

/-- The `rectangle_object` parser. -/
def rectangleObjectP : P PError Rectangle :=
  objectP "rectangle" 'B' (
    bindP (precededP multispace1 layerP) fun layer =>
    bindP (precededP multispace1 coordinateP) fun st =>
    bindP (precededP multispace1 coordinateP) fun en =>
    pmap (fun property => Rectangle.mk layer st en property)
      (precededP multispace1 propertyP))

/-- The `text_object` parser. -/
def textObjectP : P PError Text :=
  objectP "text" 'T' (
    bindP (precededP multispace1 textP) fun tx =>
    bindP (precededP multispace1 coordinateP) fun pos =>
    bindP (precededP multispace1 rotationP) fun rot =>
    bindP (precededP multispace1 flipP) fun fl =>
    bindP (precededP multispace1 sizeVecP) fun sz =>
    pmap (fun property => Text.mk tx pos rot fl sz property)
      (precededP multispace1 propertyP))

/-- The `wire_object` parser. -/
def wireObjectP : P PError Wire :=
  objectP "wire" 'N' (
    bindP (precededP multispace1 coordinateP) fun st =>
    bindP (precededP multispace1 coordinateP) fun en =>
    pmap (fun property => Wire.mk st en property)
      (precededP multispace1 propertyP))

/-- The iteration loop of nom `multi::length_count`: run the element
parser exactly `n` times; a recoverable element error is wrapped with
`append` (identity for both error types here). -/
def lcLoop {ε α : Type} [ErrM ε] (p : P ε α) : ℕ → Str → PRes ε (List α)
  | 0, input => .ok input []
  | n + 1, input =>
    match p input with
    | .ok rest x =>
      match lcLoop p n rest with
      | .ok r xs => .ok r (x :: xs)
      | .err e => .err e
      | .fail e => .fail e
      | .panic => .panic
      | .fuelOut => .fuelOut
    | .err e => .err (ErrM.appendE input .count e)
    | .fail e => .fail e
    | .panic => .panic
    | .fuelOut => .fuelOut

/-- nom `multi::length_count`. -/
def lengthCountP {ε α : Type} [ErrM ε] (cnt : P ε ℕ) (p : P ε α) : P ε (List α) :=
  bindP cnt fun n => lcLoop p n

/-- The `polygon_object` parser: note the element separator is `space1`
(spaces and tabs), not `multispace1`. -/
def polygonObjectP : P PError Polygon :=
  objectP "polygon" 'P' (
    bindP (precededP multispace1 layerP) fun layer =>
    bindP (precededP multispace1 (lengthCountP usizeP (precededP space1 coordinateP)))
      fun pts =>
    pmap (fun property => Polygon.mk layer pts property)
      (precededP multispace1 propertyP))

/-- The `embedding` parser, parameterised by the recursive schematic
parser. -/
def embeddingPW (sub : P PError Schematic) : P PError Schematic :=
  objectP "embedded symbol" '['
    (terminatedP (precededP multispace1 sub) (precededP multispace1 (charP ']')))

/-- The `component_instance` parser, parameterised by the recursive
schematic parser. -/
def componentPW (sub : P PError Schematic) : P PError Component :=
  objectP "component" 'C' (
    bindP (precededP multispace1 referenceP) fun reference =>
    bindP (precededP multispace1 coordinateP) fun position =>
    bindP (precededP multispace1 rotationP) fun rotation =>
    bindP (precededP multispace1 flipP) fun flip =>
    bindP (precededP multispace1 propertyP) fun property =>
    pmap (fun emb => ComponentG.mk reference position rotation flip property emb)
      (optP (precededP multispace1 (embeddingPW sub))))

/-- The `any_object` alternative, in source order. -/
def anyObjectPW (sub : P PError Schematic) : P PError Object :=
  alt2 (pmap Object.vhdlProp (propertyObjectP 'G'))
  (alt2 (pmap Object.symbolProp (propertyObjectP 'K'))
  (alt2 (pmap Object.verilogProp (propertyObjectP 'V'))
  (alt2 (pmap Object.spiceProp (propertyObjectP 'S'))
  (alt2 (pmap Object.tedaxProp (propertyObjectP 'E'))
  (alt2 (pmap Object.arc arcObjectP)
  (alt2 (pmap Object.component (componentPW sub))
  (alt2 (pmap Object.line lineObjectP)
  (alt2 (pmap Object.polygon polygonObjectP)
  (alt2 (pmap Object.rectangle rectangleObjectP)
  (alt2 (pmap Object.text textObjectP)
  (pmap Object.wire wireObjectP)))))))))))

/-- nom `multi::fold_many0` with an explicit step budget; a successful
inner parse that consumes nothing yields the `Many`-kind error, as in
nom, so every surviving iteration strictly consumes. -/
def foldMany0 {ε α σ : Type} [ErrM ε] (p : P ε α) (f : σ → α → σ) :
    ℕ → σ → Str → PRes ε σ
  | 0, _, _ => .fuelOut
  | fuel + 1, acc, input =>
    match p input with
    | .err _ => .ok input acc
    | .ok rest x =>
      if rest.length = input.length then .err (ErrM.fromKind input .many)
      else foldMany0 p f fuel (f acc x) rest
    | .fail e => .fail e
    | .panic => .panic
    | .fuelOut => .fuelOut

/-- The `schematic` parser body, parameterised by the parser used for
embedded schematics: leading whitespace, one version object, then a
fold of whitespace-preceded objects. -/
def schematicPW (sub : P PError Schematic) : P PError Schematic :=
  bindP multispace0 fun _ =>
  bindP versionObjectP fun v => fun i2 =>
  foldMany0 (precededP multispace1 (anyObjectPW sub)) Schematic.add_object
    (i2.length + 1) (Schematic.new v) i2

/-- The `schematic` parser with an embedding-depth budget: each nesting
level of an embedded symbol strictly consumes at least its opening
bracket, so `input.length + 1` levels always suffice. -/
def schematicFuel : ℕ → P PError Schematic
  | 0 => fun _ => .fuelOut
  | fuel + 1 => schematicPW (schematicFuel fuel)

/-- The `schematic` entry point. -/
def schematicP : P PError Schematic := fun input =>
  schematicFuel (input.length + 1) input

/-- Result of `schematic_full` (a plain `Result` after nom `finish`). -/
inductive FRes where
  | ok (s : Schematic)
  | error (e : PError)
  | panic
  | fuelOut

/-- The `schematic_full` entry point: the schematic, trailing
whitespace, then end of input. -/
def schematicFullP (input : Str) : FRes :=
  match terminatedP schematicP (precededP multispace0 eofP) input with
  | .ok _ s => .ok s
  | .err e => .error e
  | .fail e => .error e
  | .panic => .panic
  | .fuelOut => .fuelOut

/-- Character list of a Lean string literal (inputs for concrete runs). -/
def chars (s : String) : Str := s.toList

section ErrSimp

@[simp] theorem TErr_fromKind (i : Str) (k : NomKind) :
    (ErrM.fromKind i k : TErr) = (i, k) := rfl

@[simp] theorem TErr_fromChar (i : Str) (c : Char) :
    (ErrM.fromChar i c : TErr) = (i, NomKind.char) := rfl

@[simp] theorem TErr_addCtx (i : Str) (n : String) (e : TErr) :
    ErrM.addCtx i n e = e := rfl

@[simp] theorem TErr_orE (e1 e2 : TErr) : ErrM.orE e1 e2 = e2 := rfl

@[simp] theorem TErr_appendE (i : Str) (k : NomKind) (e : TErr) :
    ErrM.appendE i k e = e := rfl

@[simp] theorem PError_fromKind (i : Str) (k : NomKind) :
    (ErrM.fromKind i k : PError) = ⟨i, .nom k, []⟩ := rfl

@[simp] theorem PError_fromChar (i : Str) (c : Char) :
    (ErrM.fromChar i c : PError) = ⟨i, .char c, []⟩ := rfl

@[simp] theorem PError_addCtx (i : Str) (n : String) (e : PError) :
    ErrM.addCtx i n e = PError.mk e.input e.kind (e.context ++ [(n, i)]) := rfl

@[simp] theorem PError_orE (e1 e2 : PError) : ErrM.orE e1 e2 = e2 := rfl

@[simp] theorem PError_appendE (i : Str) (k : NomKind) (e : PError) :
    ErrM.appendE i k e = e := rfl

end ErrSimp

section Progress

/-- A parser that never grows its input on success. -/
def Nonexp {ε α : Type} (p : P ε α) : Prop :=
  ∀ inp r v, p inp = .ok r v → r.length ≤ inp.length

theorem nonexp_noneOf {ε : Type} [ErrM ε] (cs : List Char) :
    Nonexp (noneOfP (ε := ε) cs) := by
  intro inp r v h
  cases inp with
  | nil => simp [noneOfP] at h
  | cons c t =>
    simp only [noneOfP] at h
    split at h
    · cases h
    · cases h; simp

theorem nonexp_oneOf {ε : Type} [ErrM ε] (cs : List Char) :
    Nonexp (oneOfP (ε := ε) cs) := by
  intro inp r v h
  cases inp with
  | nil => simp [oneOfP] at h
  | cons c t =>
    simp only [oneOfP] at h
    split at h
    · cases h; simp
    · cases h

theorem nonexp_tag {ε : Type} [ErrM ε] (t : Str) : Nonexp (tagP (ε := ε) t) := by
  intro inp r v h
  simp only [tagP] at h
  split at h
  · cases h; simp
  · cases h

theorem nonexp_alt2 {ε α : Type} [ErrM ε] {p q : P ε α}
    (hp : Nonexp p) (hq : Nonexp q) : Nonexp (alt2 p q) := by
  intro inp r v h
  simp only [alt2] at h
  cases hr : p inp with
  | ok r1 v1 => rw [hr] at h; cases h; exact hp _ _ _ hr
  | err e1 =>
    rw [hr] at h
    cases hr2 : q inp with
    | ok r2 v2 => rw [hr2] at h; cases h; exact hq _ _ _ hr2
    | err e2 => rw [hr2] at h; cases h
    | fail e2 => rw [hr2] at h; cases h
    | panic => rw [hr2] at h; cases h
    | fuelOut => rw [hr2] at h; cases h
  | fail e1 => rw [hr] at h; cases h
  | panic => rw [hr] at h; cases h
  | fuelOut => rw [hr] at h; cases h

theorem nonexp_valueEscapable : Nonexp valueEscapable :=
  nonexp_alt2 (nonexp_tag _) (nonexp_alt2 (nonexp_tag _)
    (nonexp_alt2 (nonexp_tag _) (nonexp_tag _)))

/-- On success the `escaped0` loop returns a suffix no longer than the
suffix it starts from. -/
theorem escLoop_rest_le {ε β : Type} [ErrM ε] {normal : P ε Char} {escp : P ε β}
    {control : Char} {input : Str} (hn : Nonexp normal) (he : Nonexp escp) :
    ∀ fuel flag i rest out,
      escLoop normal escp control input fuel flag i = .ok rest out →
      rest.length ≤ i.length := by
  intro fuel
  induction fuel with
  | zero => intro flag i rest out h; simp [escLoop] at h
  | succ n ih =>
    intro flag i rest out h
    cases i with
    | nil => simp only [escLoop] at h; cases h; simp
    | cons c irest =>
      simp only [escLoop] at h
      cases hnr : normal (c :: irest) with
      | ok i2 v =>
        rw [hnr] at h
        cases flag with
        | false =>
          simp only at h
          split at h
          · cases h; simp
          · split at h
            · exact ih _ _ _ _ h
            · exact le_trans (ih _ _ _ _ h) (hn _ _ _ hnr)
        | true =>
          simp only at h
          split at h
          · split at h
            · cases h
            · cases hes : escp irest with
              | ok i2' v' =>
                rw [hes] at h
                simp only at h
                split at h
                · cases h; simp
                · refine le_trans (ih _ _ _ _ h) ?_
                  have := he _ _ _ hes
                  simp only [List.length_cons]
                  omega
              | err e => rw [hes] at h; simp only at h; cases h
              | fail e => rw [hes] at h; simp only at h; cases h
              | panic => rw [hes] at h; simp only at h; cases h
              | fuelOut => rw [hes] at h; simp only at h; cases h
          · cases h; exact le_refl _
      | err e =>
        rw [hnr] at h
        simp only at h
        split at h
        · split at h
          · cases h
          · cases hes : escp irest with
            | ok i2' v' =>
              rw [hes] at h
              simp only at h
              split at h
              · cases h; simp
              · refine le_trans (ih _ _ _ _ h) ?_
                have := he _ _ _ hes
                simp only [List.length_cons]
                omega
            | err e' => rw [hes] at h; simp only at h; cases h
            | fail e' => rw [hes] at h; simp only at h; cases h
            | panic => rw [hes] at h; simp only at h; cases h
            | fuelOut => rw [hes] at h; simp only at h; cases h
        · cases h; exact le_refl _
      | fail e => rw [hnr] at h; cases h
      | panic => rw [hnr] at h; cases h
      | fuelOut => rw [hnr] at h; cases h

theorem nonexp_escaped0 {ε β : Type} [ErrM ε] {normal : P ε Char} {escp : P ε β}
    {control : Char} (hn : Nonexp normal) (he : Nonexp escp) :
    Nonexp (escaped0P normal escp control) := by
  intro inp r v h
  exact escLoop_rest_le hn he _ _ _ _ _ h

theorem nonexp_valueString : Nonexp valueStringP :=
  nonexp_escaped0 (nonexp_noneOf _) nonexp_valueEscapable

end Progress

section ClaimC2

/-- Claim C2 (code bug): the float recognizer accepts `1e999`, whose
value exceeds the binary64 overflow threshold, so Rust's `from_str`
yields `inf`; `finite_double` then runs `f.try_into().unwrap()`, and
since `TryFrom<f64> for FiniteDouble` rejects non-finite values the
unwrap panics.  The parser therefore aborts instead of returning the
`Float`-kind error the claim (and the code's own safety comment)
describes; the panic propagates to a whole-schematic parse. -/
theorem c2_overflow_literal_panics :
    recognizeFloat (ε := PError) (chars "1e999") = .ok [] (chars "1e999") ∧
    rustParseF64 (chars "1e999") = some .infinite ∧
    finiteDoubleP (ε := PError) (chars "1e999") = .panic ∧
    schematicFullP (chars "v \x7b\x7d\nN 1e999 0 0 0 \x7b\x7d") = .panic := by
  exact ⟨rfl, rfl, rfl, rfl⟩

end ClaimC2

section ResLemmas

set_option linter.unusedSectionVars false

variable {ε α β γ : Type} [ErrM ε]

theorem bindP_ok {p : P ε α} {f : α → P ε β} {inp r : Str} {v : β} :
    bindP p f inp = .ok r v ↔ ∃ r1 a, p inp = .ok r1 a ∧ f a r1 = .ok r v := by
  unfold bindP
  cases h : p inp <;> simp [and_assoc, eq_comm]

theorem bindP_err {p : P ε α} {f : α → P ε β} {inp : Str} {e : ε} :
    bindP p f inp = .err e ↔
      p inp = .err e ∨ ∃ r1 a, p inp = .ok r1 a ∧ f a r1 = .err e := by
  unfold bindP
  cases h : p inp <;> simp [and_assoc, eq_comm]

theorem bindP_fail {p : P ε α} {f : α → P ε β} {inp : Str} {e : ε} :
    bindP p f inp = .fail e ↔
      p inp = .fail e ∨ ∃ r1 a, p inp = .ok r1 a ∧ f a r1 = .fail e := by
  unfold bindP
  cases h : p inp <;> simp [and_assoc, eq_comm]

theorem bindP_panic {p : P ε α} {f : α → P ε β} {inp : Str} :
    bindP p f inp = .panic ↔
      p inp = .panic ∨ ∃ r1 a, p inp = .ok r1 a ∧ f a r1 = .panic := by
  unfold bindP
  cases h : p inp <;> simp [and_assoc, eq_comm]

theorem pmap_ok {p : P ε α} {g : α → β} {inp r : Str} {v : β} :
    pmap g p inp = .ok r v ↔ ∃ a, p inp = .ok r a ∧ v = g a := by
  unfold pmap
  cases h : p inp <;> simp [and_assoc, eq_comm]

theorem pmap_err {p : P ε α} {g : α → β} {inp : Str} {e : ε} :
    pmap g p inp = .err e ↔ p inp = .err e := by
  unfold pmap
  cases h : p inp <;> simp [eq_comm]

theorem pmap_fail {p : P ε α} {g : α → β} {inp : Str} {e : ε} :
    pmap g p inp = .fail e ↔ p inp = .fail e := by
  unfold pmap
  cases h : p inp <;> simp [eq_comm]

theorem pmap_panic {p : P ε α} {g : α → β} {inp : Str} :
    pmap g p inp = .panic ↔ p inp = .panic := by
  unfold pmap
  cases h : p inp <;> simp

theorem cutP_ok {p : P ε α} {inp r : Str} {v : α} :
    cutP p inp = .ok r v ↔ p inp = .ok r v := by
  unfold cutP
  cases h : p inp <;> simp [eq_comm]

theorem cutP_fail {p : P ε α} {inp : Str} {e : ε} :
    cutP p inp = .fail e ↔ p inp = .err e ∨ p inp = .fail e := by
  unfold cutP
  cases h : p inp <;> simp [eq_comm]

theorem cutP_err {p : P ε α} {inp : Str} {e : ε} :
    cutP p inp = .err e ↔ False := by
  unfold cutP
  cases h : p inp <;> simp

theorem cutP_panic {p : P ε α} {inp : Str} :
    cutP p inp = .panic ↔ p inp = .panic := by
  unfold cutP
  cases h : p inp <;> simp

theorem ctxP_ok {p : P ε α} {n : String} {inp r : Str} {v : α} :
    ctxP n p inp = .ok r v ↔ p inp = .ok r v := by
  unfold ctxP
  cases h : p inp <;> simp [eq_comm]

theorem ctxP_err {p : P ε α} {n : String} {inp : Str} {e : ε} :
    ctxP n p inp = .err e ↔ ∃ e0, p inp = .err e0 ∧ e = ErrM.addCtx inp n e0 := by
  unfold ctxP
  cases h : p inp <;> simp [eq_comm]

theorem ctxP_fail {p : P ε α} {n : String} {inp : Str} {e : ε} :
    ctxP n p inp = .fail e ↔ ∃ e0, p inp = .fail e0 ∧ e = ErrM.addCtx inp n e0 := by
  unfold ctxP
  cases h : p inp <;> simp [eq_comm]

theorem ctxP_panic {p : P ε α} {n : String} {inp : Str} :
    ctxP n p inp = .panic ↔ p inp = .panic := by
  unfold ctxP
  cases h : p inp <;> simp

theorem alt2_ok {p q : P ε α} {inp r : Str} {v : α} :
    alt2 p q inp = .ok r v ↔
      p inp = .ok r v ∨ (∃ e1, p inp = .err e1) ∧ q inp = .ok r v := by
  unfold alt2
  cases h : p inp <;> cases h2 : q inp <;> simp [eq_comm]

theorem alt2_err {p q : P ε α} {inp : Str} {e : ε} :
    alt2 p q inp = .err e ↔
      ∃ e1 e2, p inp = .err e1 ∧ q inp = .err e2 ∧ e = ErrM.orE e1 e2 := by
  unfold alt2
  cases h : p inp <;> cases h2 : q inp <;> simp [eq_comm]

theorem alt2_fail {p q : P ε α} {inp : Str} {e : ε} :
    alt2 p q inp = .fail e ↔
      p inp = .fail e ∨ (∃ e1, p inp = .err e1) ∧ q inp = .fail e := by
  unfold alt2
  cases h : p inp <;> cases h2 : q inp <;> simp [eq_comm]

theorem alt2_panic {p q : P ε α} {inp : Str} :
    alt2 p q inp = .panic ↔
      p inp = .panic ∨ (∃ e1, p inp = .err e1) ∧ q inp = .panic := by
  unfold alt2
  cases h : p inp <;> cases h2 : q inp <;> simp

theorem optP_ok {p : P ε α} {inp r : Str} {v : Option α} :
    optP p inp = .ok r v ↔
      (∃ a, p inp = .ok r a ∧ v = some a) ∨ ((∃ e, p inp = .err e) ∧ r = inp ∧ v = none) := by
  unfold optP
  cases h : p inp <;> simp [and_assoc, eq_comm]

theorem optP_fail {p : P ε α} {inp : Str} {e : ε} :
    optP p inp = .fail e ↔ p inp = .fail e := by
  unfold optP
  cases h : p inp <;> simp [eq_comm]

theorem optP_panic {p : P ε α} {inp : Str} :
    optP p inp = .panic ↔ p inp = .panic := by
  unfold optP
  cases h : p inp <;> simp

theorem precededP_ok {p : P ε α} {q : P ε β} {inp r : Str} {v : β} :
    precededP p q inp = .ok r v ↔ ∃ r1 a, p inp = .ok r1 a ∧ q r1 = .ok r v := by
  unfold precededP
  exact bindP_ok

theorem terminatedP_ok {p : P ε α} {q : P ε β} {inp r : Str} {v : α} :
    terminatedP p q inp = .ok r v ↔
      ∃ r1 b, p inp = .ok r1 v ∧ q r1 = .ok r b := by
  unfold terminatedP
  rw [bindP_ok]
  constructor
  · rintro ⟨r1, a, h1, h2⟩
    rw [pmap_ok] at h2
    obtain ⟨b, hb, hv⟩ := h2
    exact ⟨r1, b, hv ▸ h1, hb⟩
  · rintro ⟨r1, b, h1, h2⟩
    exact ⟨r1, v, h1, by rw [pmap_ok]; exact ⟨b, h2, rfl⟩⟩

end ResLemmas

section AttrTermination

theorem length_dropWhile_le (f : Char → Bool) (l : List Char) :
    (l.dropWhile f).length ≤ l.length := by
  induction l with
  | nil => simp
  | cons a l ih =>
    rw [List.dropWhile_cons]
    split
    · exact le_trans ih (by simp)
    · simp

theorem dropWhile_head_false (f : Char → Bool) (l : List Char) (c : Char) (t : List Char)
    (h : l.dropWhile f = c :: t) : f c = false := by
  induction l with
  | nil => simp [List.dropWhile] at h
  | cons a l ih =>
    rw [List.dropWhile_cons] at h
    split at h
    · exact ih h
    · cases h; simp_all

theorem charP_ok_iff {ε : Type} [ErrM ε] {c : Char} {inp r : Str} {v : Char} :
    charP (ε := ε) c inp = .ok r v ↔ inp = c :: r ∧ v = c := by
  cases inp with
  | nil => simp [charP]
  | cons a t =>
    simp only [charP]
    by_cases hac : a = c
    · subst hac
      constructor
      · intro h
        rw [if_pos rfl] at h
        cases h
        exact ⟨rfl, rfl⟩
      · rintro ⟨h1, h2⟩
        cases h1
        rw [if_pos rfl, h2]
    · simp only [if_neg hac]
      constructor
      · intro h; cases h
      · rintro ⟨h1, h2⟩
        cases h1
        exact absurd rfl hac

theorem charP_err_iff {ε : Type} [ErrM ε] {c : Char} {inp : Str} {e : ε} :
    charP (ε := ε) c inp = .err e ↔
      (∀ t, inp ≠ c :: t) ∧ e = ErrM.fromChar inp c := by
  cases inp with
  | nil =>
    simp only [charP]
    constructor
    · intro h; cases h; exact ⟨fun t => by simp, rfl⟩
    · rintro ⟨_, he⟩; rw [he]
  | cons a t =>
    simp only [charP]
    by_cases hac : a = c
    · subst hac
      simp only [if_pos rfl]
      constructor
      · intro h; cases h
      · rintro ⟨h1, _⟩; exact absurd rfl (h1 t)
    · simp only [if_neg hac]
      constructor
      · intro h
        cases h
        refine ⟨fun t' hh => ?_, rfl⟩
        cases hh
        exact hac rfl
      · rintro ⟨_, he⟩; rw [he]

theorem takeWhile1K_ok_iff {ε : Type} [ErrM ε] {k : NomKind} {f : Char → Bool}
    {inp r v : Str} :
    takeWhile1K (ε := ε) k f inp = .ok r v ↔
      inp.takeWhile f ≠ [] ∧ r = inp.dropWhile f ∧ v = inp.takeWhile f := by
  simp only [takeWhile1K]
  split
  · rename_i hnil
    constructor
    · intro h; cases h
    · rintro ⟨h1, _⟩; exact absurd hnil h1
  · rename_i hnil
    constructor
    · intro h; cases h; exact ⟨hnil, rfl, rfl⟩
    · rintro ⟨_, h2, h3⟩; rw [h2, h3]

theorem takeWhile1K_err_iff {ε : Type} [ErrM ε] {k : NomKind} {f : Char → Bool}
    {inp : Str} {e : ε} :
    takeWhile1K (ε := ε) k f inp = .err e ↔
      inp.takeWhile f = [] ∧ e = ErrM.fromKind inp k := by
  simp only [takeWhile1K]
  split
  · rename_i hnil
    constructor
    · intro h; cases h; exact ⟨hnil, rfl⟩
    · rintro ⟨_, he⟩; rw [he]
  · rename_i hnil
    constructor
    · intro h; cases h
    · rintro ⟨h1, _⟩; exact absurd h1 hnil

theorem takeWhileP_ok {ε : Type} [ErrM ε] {f : Char → Bool} {inp : Str} :
    takeWhileP (ε := ε) f inp = .ok (inp.dropWhile f) (inp.takeWhile f) := rfl

theorem nonexp_charP {ε : Type} [ErrM ε] (c : Char) : Nonexp (charP (ε := ε) c) := by
  intro inp r v h
  rw [charP_ok_iff] at h
  rw [h.1]
  simp

theorem nonexp_takeWhile1K {ε : Type} [ErrM ε] (k : NomKind) (f : Char → Bool) :
    Nonexp (takeWhile1K (ε := ε) k f) := by
  intro inp r v h
  rw [takeWhile1K_ok_iff] at h
  rw [h.2.1]
  exact length_dropWhile_le f inp

theorem nonexp_takeWhileP {ε : Type} [ErrM ε] (f : Char → Bool) :
    Nonexp (takeWhileP (ε := ε) f) := by
  intro inp r v h
  cases h
  exact length_dropWhile_le f inp

theorem nonexp_bindP {ε α β : Type} [ErrM ε] {p : P ε α} {f : α → P ε β}
    (hp : Nonexp p) (hf : ∀ a, Nonexp (f a)) : Nonexp (bindP p f) := by
  intro inp r v h
  rw [bindP_ok] at h
  obtain ⟨r1, a, h1, h2⟩ := h
  exact le_trans (hf a _ _ _ h2) (hp _ _ _ h1)

theorem nonexp_pmap {ε α β : Type} [ErrM ε] {p : P ε α} {g : α → β}
    (hp : Nonexp p) : Nonexp (pmap g p) := by
  intro inp r v h
  rw [pmap_ok] at h
  obtain ⟨a, h1, _⟩ := h
  exact hp _ _ _ h1

theorem nonexp_cutP {ε α : Type} [ErrM ε] {p : P ε α} (hp : Nonexp p) :
    Nonexp (cutP p) := by
  intro inp r v h
  rw [cutP_ok] at h
  exact hp _ _ _ h

theorem nonexp_ctxP {ε α : Type} [ErrM ε] {p : P ε α} {n : String} (hp : Nonexp p) :
    Nonexp (ctxP n p) := by
  intro inp r v h
  rw [ctxP_ok] at h
  exact hp _ _ _ h

theorem nonexp_precededP {ε α β : Type} [ErrM ε] {p : P ε α} {q : P ε β}
    (hp : Nonexp p) (hq : Nonexp q) : Nonexp (precededP p q) :=
  nonexp_bindP hp (fun _ => hq)

theorem nonexp_terminatedP {ε α β : Type} [ErrM ε] {p : P ε α} {q : P ε β}
    (hp : Nonexp p) (hq : Nonexp q) : Nonexp (terminatedP p q) :=
  nonexp_bindP hp (fun _ => nonexp_pmap hq)

theorem nonexp_valueP : Nonexp valueP :=
  nonexp_ctxP (nonexp_alt2
    (nonexp_precededP (nonexp_charP _)
      (nonexp_cutP (nonexp_terminatedP nonexp_valueString (nonexp_charP _))))
    (nonexp_takeWhile1K _ _))

/-- A recoverable `value` error is reported at the value's own start. -/
theorem valueP_err_pos {inp r : Str} {k : NomKind}
    (h : valueP inp = .err (r, k)) : r = inp := by
  unfold valueP at h
  rw [ctxP_err] at h
  obtain ⟨e0, h0, he⟩ := h
  simp only [TErr_addCtx] at he
  subst he
  rw [alt2_err] at h0
  obtain ⟨e1, e2, h1, h2, he2⟩ := h0
  simp only [TErr_orE] at he2
  subst he2
  rw [takeWhile1P, takeWhile1K_err_iff] at h2
  simp only [TErr_fromKind] at h2
  exact congrArg Prod.fst h2.2

/-- The `key` parser on input starting with a key character. -/
theorem keyP_ok_cons (c : Char) (t : Str) (hk : isKeyChar c = true) :
    keyP (c :: t) = .ok (t.dropWhile (fun x => isKeyChar x))
      (c :: t.takeWhile (fun x => isKeyChar x)) := by
  unfold keyP
  rw [ctxP_ok, takeWhile1P, takeWhile1K_ok_iff]
  simp [List.takeWhile_cons, List.dropWhile_cons, hk]

/-- When `key_value` starts at a key character, both a success and a
recoverable error land strictly inside the remaining input. -/
theorem keyValueP_pos (c : Char) (t : Str) (hk : isKeyChar c = true) :
    (∀ r v, keyValueP (c :: t) = .ok r v → r.length ≤ t.length) ∧
    (∀ r k, keyValueP (c :: t) = .err (r, k) → r.length ≤ t.length) := by
  have hkey := keyP_ok_cons c t hk
  have hd : (t.dropWhile (fun x => isKeyChar x)).length ≤ t.length :=
    length_dropWhile_le _ t
  constructor
  · intro r v h
    unfold keyValueP separatedPairP at h
    rw [ctxP_ok, bindP_ok] at h
    obtain ⟨r1, a, h1, h2⟩ := h
    rw [hkey] at h1
    cases h1
    rw [precededP_ok] at h2
    obtain ⟨r2, b, h3, h4⟩ := h2
    rw [charP_ok_iff] at h3
    rw [pmap_ok] at h4
    obtain ⟨w, h5, _⟩ := h4
    have hv := nonexp_valueP _ _ _ h5
    have hlen : r2.length + 1 = (t.dropWhile (fun x => isKeyChar x)).length := by
      rw [h3.1]; simp
    omega
  · intro r k h
    unfold keyValueP separatedPairP at h
    rw [ctxP_err] at h
    obtain ⟨e0, h0, he⟩ := h
    simp only [TErr_addCtx] at he
    subst he
    rw [bindP_err] at h0
    rcases h0 with h0 | ⟨r1, a, h1, h2⟩
    · rw [hkey] at h0; cases h0
    · rw [hkey] at h1
      cases h1
      unfold precededP at h2
      rw [bindP_err] at h2
      rcases h2 with h2 | ⟨r2, b, h3, h4⟩
      · rw [charP_err_iff] at h2
        obtain ⟨_, he2⟩ := h2
        simp only [TErr_fromChar] at he2
        injection he2 with hr hk2
        subst hr
        exact hd
      · rw [charP_ok_iff] at h3
        rw [pmap_err] at h4
        have hr : r = r2 := valueP_err_pos h4
        subst hr
        have hlen : r.length + 1 = (t.dropWhile (fun x => isKeyChar x)).length := by
          rw [h3.1]; simp
        omega

theorem keyValueP_nil : keyValueP [] = .err ([], NomKind.takeWhile1) := rfl

/-- Each iteration of the `attributes` loop that returns normally
strictly shrinks a non-empty input: the skip of non-key characters
together with the consumed key guarantee progress even when the
`key_value` parse fails recoverably. -/
theorem attrStep_progress (inp : Str) (hne : inp ≠ []) (r : Str)
    (v : Option (Str × Str)) (h : attrStep inp = .ok r v) : r.length < inp.length := by
  unfold attrStep at h
  rw [precededP_ok] at h
  obtain ⟨r1, a, h1, h2⟩ := h
  cases h1
  cases hr1 : List.dropWhile (fun c => !(isKeyChar c)) inp with
  | nil =>
    rw [hr1] at h2
    unfold trySkipP at h2
    rw [keyValueP_nil] at h2
    simp only at h2
    cases h2
    cases inp with
    | nil => exact absurd rfl hne
    | cons c t => simp
  | cons c t =>
    have hkc : isKeyChar c = true := by
      have := dropWhile_head_false _ _ _ _ hr1
      simpa using this
    have hlen : (c :: t).length ≤ inp.length := by
      rw [← hr1]; exact length_dropWhile_le _ inp
    rw [hr1] at h2
    unfold trySkipP at h2
    cases hkv : keyValueP (c :: t) with
    | ok rest kv =>
      rw [hkv] at h2
      simp only at h2
      cases h2
      have := (keyValueP_pos c t hkc).1 _ _ hkv
      simp only [List.length_cons] at hlen
      omega
    | err e =>
      rw [hkv] at h2
      obtain ⟨re, ke⟩ := e
      simp only at h2
      cases h2
      have := (keyValueP_pos c t hkc).2 _ _ hkv
      simp only [List.length_cons] at hlen
      omega
    | fail e => rw [hkv] at h2; obtain ⟨fe, fk⟩ := e; simp only at h2; cases h2
    | panic => rw [hkv] at h2; simp only at h2; cases h2
    | fuelOut => rw [hkv] at h2; simp only at h2; cases h2

/-- A parser that never exhausts a step budget. -/
def NoFuel {ε α : Type} (p : P ε α) : Prop := ∀ inp, p inp ≠ .fuelOut

theorem noFuel_charP {ε : Type} [ErrM ε] (c : Char) : NoFuel (charP (ε := ε) c) := by
  intro inp
  cases inp with
  | nil => simp [charP]
  | cons a t =>
    simp only [charP]
    split <;> simp

theorem noFuel_takeWhile1K {ε : Type} [ErrM ε] (k : NomKind) (f : Char → Bool) :
    NoFuel (takeWhile1K (ε := ε) k f) := by
  intro inp
  simp only [takeWhile1K]
  split <;> simp

theorem noFuel_takeWhileP {ε : Type} [ErrM ε] (f : Char → Bool) :
    NoFuel (takeWhileP (ε := ε) f) := by
  intro inp
  simp [takeWhileP]

theorem noFuel_tagP {ε : Type} [ErrM ε] (t : Str) : NoFuel (tagP (ε := ε) t) := by
  intro inp
  simp only [tagP]
  split <;> simp

theorem noFuel_noneOfP {ε : Type} [ErrM ε] (cs : List Char) :
    NoFuel (noneOfP (ε := ε) cs) := by
  intro inp
  cases inp with
  | nil => simp [noneOfP]
  | cons a t =>
    simp only [noneOfP]
    split <;> simp

theorem noFuel_oneOfP {ε : Type} [ErrM ε] (cs : List Char) :
    NoFuel (oneOfP (ε := ε) cs) := by
  intro inp
  cases inp with
  | nil => simp [oneOfP]
  | cons a t =>
    simp only [oneOfP]
    split <;> simp

theorem noFuel_bindP {ε α β : Type} [ErrM ε] {p : P ε α} {f : α → P ε β}
    (hp : NoFuel p) (hf : ∀ a, NoFuel (f a)) : NoFuel (bindP p f) := by
  intro inp h
  rw [bindP] at h
  cases hh : p inp with
  | ok r a => rw [hh] at h; exact hf a r h
  | err e => rw [hh] at h; cases h
  | fail e => rw [hh] at h; cases h
  | panic => rw [hh] at h; cases h
  | fuelOut => exact hp inp hh

theorem noFuel_pmap {ε α β : Type} [ErrM ε] {p : P ε α} {g : α → β} (hp : NoFuel p) :
    NoFuel (pmap g p) := by
  intro inp h
  rw [pmap] at h
  cases hh : p inp with
  | ok r a => rw [hh] at h; cases h
  | err e => rw [hh] at h; cases h
  | fail e => rw [hh] at h; cases h
  | panic => rw [hh] at h; cases h
  | fuelOut => exact hp inp hh

theorem noFuel_cutP {ε α : Type} [ErrM ε] {p : P ε α} (hp : NoFuel p) :
    NoFuel (cutP p) := by
  intro inp h
  rw [cutP] at h
  cases hh : p inp with
  | ok r a => rw [hh] at h; cases h
  | err e => rw [hh] at h; cases h
  | fail e => rw [hh] at h; cases h
  | panic => rw [hh] at h; cases h
  | fuelOut => exact hp inp hh

theorem noFuel_ctxP {ε α : Type} [ErrM ε] {p : P ε α} {n : String} (hp : NoFuel p) :
    NoFuel (ctxP n p) := by
  intro inp h
  rw [ctxP] at h
  cases hh : p inp with
  | ok r a => rw [hh] at h; cases h
  | err e => rw [hh] at h; cases h
  | fail e => rw [hh] at h; cases h
  | panic => rw [hh] at h; cases h
  | fuelOut => exact hp inp hh

theorem noFuel_alt2 {ε α : Type} [ErrM ε] {p q : P ε α}
    (hp : NoFuel p) (hq : NoFuel q) : NoFuel (alt2 p q) := by
  intro inp h
  rw [alt2] at h
  cases hh : p inp with
  | ok r a => rw [hh] at h; cases h
  | err e =>
    rw [hh] at h
    cases hh2 : q inp with
    | ok r a => rw [hh2] at h; cases h
    | err e2 => rw [hh2] at h; cases h
    | fail e2 => rw [hh2] at h; cases h
    | panic => rw [hh2] at h; cases h
    | fuelOut => exact hq inp hh2
  | fail e => rw [hh] at h; cases h
  | panic => rw [hh] at h; cases h
  | fuelOut => exact hp inp hh

theorem noFuel_precededP {ε α β : Type} [ErrM ε] {p : P ε α} {q : P ε β}
    (hp : NoFuel p) (hq : NoFuel q) : NoFuel (precededP p q) :=
  noFuel_bindP hp (fun _ => hq)

theorem noFuel_terminatedP {ε α β : Type} [ErrM ε] {p : P ε α} {q : P ε β}
    (hp : NoFuel p) (hq : NoFuel q) : NoFuel (terminatedP p q) :=
  noFuel_bindP hp (fun _ => noFuel_pmap hq)

/-- The `escaped0` loop finishes within its budget `2 * length + 2`:
each surviving round either consumes input or flips the progress guard. -/
theorem escLoop_no_fuelOut {ε β : Type} [ErrM ε] {normal : P ε Char} {escp : P ε β}
    {control : Char} {input : Str} (hn : Nonexp normal) (he : Nonexp escp)
    (hfn : NoFuel normal) (hfe : NoFuel escp) :
    ∀ fuel flag i,
      (flag = true ∧ 2 * i.length + 1 ≤ fuel) ∨ (flag = false ∧ 2 * i.length + 2 ≤ fuel) →
      escLoop normal escp control input fuel flag i ≠ .fuelOut := by
  intro fuel
  induction fuel with
  | zero =>
    intro flag i hb
    rcases hb with ⟨_, hb⟩ | ⟨_, hb⟩ <;> omega
  | succ n ih =>
    intro flag i hb h
    cases i with
    | nil => simp [escLoop] at h
    | cons c irest =>
      simp only [escLoop] at h
      cases hnr : normal (c :: irest) with
      | ok i2 v =>
        rw [hnr] at h
        cases flag with
        | false =>
          simp only at h
          replace hb : 2 * (c :: irest).length + 2 ≤ n + 1 := by
            rcases hb with ⟨hf, _⟩ | ⟨_, hb⟩
            · cases hf
            · exact hb
          split at h
          · cases h
          · split at h
            · refine ih true (c :: irest) (Or.inl ⟨rfl, ?_⟩) h
              omega
            · rename_i hnn hstall
              refine ih false i2 (Or.inr ⟨rfl, ?_⟩) h
              have h2 := hn _ _ _ hnr
              simp only [List.length_cons] at h2 hb hstall ⊢
              omega
        | true =>
          simp only at h
          replace hb : 2 * (c :: irest).length + 1 ≤ n + 1 := by
            rcases hb with ⟨_, hb⟩ | ⟨hf, _⟩
            · exact hb
            · cases hf
          split at h
          · split at h
            · cases h
            · cases hes : escp irest with
              | ok i2' v' =>
                rw [hes] at h
                simp only at h
                split at h
                · cases h
                · refine ih false i2' (Or.inr ⟨rfl, ?_⟩) h
                  have h2 := he _ _ _ hes
                  simp only [List.length_cons] at hb
                  omega
              | err e' => rw [hes] at h; revert h; simp
              | fail e' => rw [hes] at h; revert h; simp
              | panic => rw [hes] at h; revert h; simp
              | fuelOut => exact hfe irest hes
          · cases h
      | err e =>
        rw [hnr] at h
        simp only at h
        replace hb : 2 * (c :: irest).length + 1 ≤ n + 1 := by
          rcases hb with ⟨_, hb⟩ | ⟨_, hb⟩ <;> omega
        split at h
        · split at h
          · cases h
          · cases hes : escp irest with
            | ok i2' v' =>
              rw [hes] at h
              simp only at h
              split at h
              · cases h
              · refine ih false i2' (Or.inr ⟨rfl, ?_⟩) h
                have h2 := he _ _ _ hes
                simp only [List.length_cons] at hb
                omega
            | err e' => rw [hes] at h; revert h; simp
            | fail e' => rw [hes] at h; revert h; simp
            | panic => rw [hes] at h; revert h; simp
            | fuelOut => exact hfe irest hes
        · cases h
      | fail e => rw [hnr] at h; revert h; simp
      | panic => rw [hnr] at h; revert h; simp
      | fuelOut => exact hfn _ hnr

theorem noFuel_escaped0 {ε β : Type} [ErrM ε] {normal : P ε Char} {escp : P ε β}
    {control : Char} (hn : Nonexp normal) (he : Nonexp escp)
    (hfn : NoFuel normal) (hfe : NoFuel escp) :
    NoFuel (escaped0P normal escp control) := by
  intro inp
  exact escLoop_no_fuelOut hn he hfn hfe _ false inp (Or.inr ⟨rfl, by omega⟩)

theorem noFuel_valueString : NoFuel valueStringP :=
  noFuel_escaped0 (nonexp_noneOf _) nonexp_valueEscapable (noFuel_noneOfP _)
    (noFuel_alt2 (noFuel_tagP _) (noFuel_alt2 (noFuel_tagP _)
      (noFuel_alt2 (noFuel_tagP _) (noFuel_tagP _))))

theorem noFuel_valueP : NoFuel valueP :=
  noFuel_ctxP (noFuel_alt2
    (noFuel_precededP (noFuel_charP _)
      (noFuel_cutP (noFuel_terminatedP noFuel_valueString (noFuel_charP _))))
    (noFuel_takeWhile1K _ _))

theorem noFuel_keyValueP : NoFuel keyValueP :=
  noFuel_ctxP (noFuel_bindP (noFuel_ctxP (noFuel_takeWhile1K _ _))
    (fun _ => noFuel_precededP (noFuel_charP _) (noFuel_pmap noFuel_valueP)))

theorem noFuel_attrStep : NoFuel attrStep := by
  intro inp
  unfold attrStep precededP bindP
  simp only [takeWhileP]
  unfold trySkipP
  cases h : keyValueP (List.dropWhile (fun c => !(isKeyChar c)) inp) with
  | ok r kv => simp
  | err e => obtain ⟨re, ke⟩ := e; simp
  | fail e => obtain ⟨re, ke⟩ := e; simp
  | panic => simp
  | fuelOut => exact absurd h (noFuel_keyValueP _)

/-- The `attributes` loop finishes within `input.length + 1` rounds. -/
theorem attrLoop_no_fuelOut :
    ∀ fuel acc input, input.length < fuel → attrLoop fuel acc input ≠ .fuelOut := by
  intro fuel
  induction fuel with
  | zero => intro acc input h; omega
  | succ n ih =>
    intro acc input hlen
    unfold attrLoop
    split
    · simp
    · rename_i hne
      cases hstep : attrStep input with
      | ok rest v =>
        have hprog := attrStep_progress input hne rest v hstep
        cases v with
        | some kv => exact ih _ _ (by omega)
        | none => exact ih _ _ (by omega)
      | err e => simp
      | fail e => simp
      | panic => simp
      | fuelOut => exact absurd hstep (noFuel_attrStep input)

end AttrTermination

/-- Claim C10 (confirmed): the `attributes` function terminates on every
finite input.  Formally: the loop, run with the step budget
`input.length + 1`, never reports budget exhaustion (first conjunct),
because each iteration from a non-empty input that returns normally
strictly decreases the remaining length — the skip of non-key characters
together with `key_value` consuming at least the one-character key
guarantees progress even when the `key_value` parse fails recoverably
(second conjunct). -/
theorem c10_attributes_terminates (input : Str) :
    attributesP input ≠ .fuelOut ∧
    (∀ rest v, input ≠ [] → attrStep input = .ok rest v →
      rest.length < input.length) := by
  constructor
  · exact attrLoop_no_fuelOut _ _ _ (by omega)
  · intro rest v hne h
    exact attrStep_progress input hne rest v h

/-- Witness C10: the termination theorem applied at the concrete input
`t k=v`, whose first loop iteration stops after the unmatched key `t`. -/
theorem c10_attributes_terminates_witness :
    attributesP (chars "t k=v") ≠ .fuelOut ∧
    (chars " k=v").length < (chars "t k=v").length :=
  ⟨(c10_attributes_terminates (chars "t k=v")).1,
   (c10_attributes_terminates (chars "t k=v")).2 (chars " k=v") none
     (by decide) (by decide)⟩

section Scanner

/-- Splitting a `takeWhile`/`dropWhile` at a stop character. -/
theorem takeWhile_append_of_stop (f : Char → Bool) (l r : List Char)
    (hl : ∀ c ∈ l, f c = true) (hr : ∀ c t, r = c :: t → f c = false) :
    (l ++ r).takeWhile f = l ∧ (l ++ r).dropWhile f = r := by
  induction l with
  | nil =>
    simp only [List.nil_append]
    cases r with
    | nil => simp
    | cons c t =>
      rw [List.takeWhile_cons, List.dropWhile_cons]
      rw [hr c t rfl]
      simp
  | cons a l ih =>
    have ha : f a = true := hl a (by simp)
    have ihh := ih (fun c hc => hl c (by simp [hc]))
    simp only [List.cons_append, List.takeWhile_cons, List.dropWhile_cons, ha]
    simp [ihh.1, ihh.2]

/-- Well-formed bodies of a quoted attribute value, as the value scanner
accepts them when a closing quote follows: runs of characters outside
the value-escape set, interleaved with the escape units the escapable
alternative of `value` actually accepts after a backslash — the
three-character unit backslash-backslash-quote, backslash-backslash
(only when the next scanned character is not a quote), and
backslash-brace. -/
inductive ValueWF : Str → Prop where
  | nil : ValueWF []
  | normal (c : Char) (t : Str) (h1 : c ≠ '\\') (h2 : c ≠ '\"') (ht : ValueWF t) :
      ValueWF (c :: t)
  | escBsQuote (t : Str) (ht : ValueWF t) : ValueWF ('\\' :: '\\' :: '\"' :: t)
  | escBs (t : Str) (hne : t ≠ []) (hq : t.head? ≠ some '\"') (ht : ValueWF t) :
      ValueWF ('\\' :: '\\' :: t)
  | escBrace (c : Char) (t : Str) (hc : c = '\x7b' ∨ c = '\x7d') (ht : ValueWF t) :
      ValueWF ('\\' :: c :: t)

/-- Well-formed property-string bodies: runs of characters outside the
property-escape set interleaved with backslash escapes of that set. -/
inductive PropWF : Str → Prop where
  | nil : PropWF []
  | normal (c : Char) (t : Str) (h1 : c ≠ '\\') (h2 : c ≠ '\x7b') (h3 : c ≠ '\x7d')
      (ht : PropWF t) : PropWF (c :: t)
  | esc (c : Char) (t : Str) (hc : c = '\\' ∨ c = '\x7b' ∨ c = '\x7d') (ht : PropWF t) :
      PropWF ('\\' :: c :: t)

end Scanner

section ScannerSteps

variable {ε β : Type} [ErrM ε]

theorem noneOfP_ok_of {cs : List Char} {c : Char} {t : Str} (h : c ∉ cs) :
    noneOfP (ε := ε) cs (c :: t) = .ok t c := by
  simp [noneOfP, h]

theorem noneOfP_err_of {cs : List Char} {c : Char} {t : Str} (h : c ∈ cs) :
    noneOfP (ε := ε) cs (c :: t) = .err (ErrM.fromKind (c :: t) .noneOf) := by
  simp [noneOfP, h]

theorem oneOfP_ok_of {cs : List Char} {c : Char} {t : Str} (h : c ∈ cs) :
    oneOfP (ε := ε) cs (c :: t) = .ok t c := by
  simp [oneOfP, h]

/-- One `escaped0` round stopping at a rejected non-control character. -/
theorem escLoop_step_stop {normal : P ε Char} {escp : P ε β} {control : Char}
    {input : Str} {c : Char} {t : Str} {e : ε}
    (hnorm : normal (c :: t) = .err e) (hc : c ≠ control) (n : ℕ) (flag : Bool) :
    escLoop normal escp control input (n + 1) flag (c :: t) =
      .ok (c :: t) (input.take (input.length - (c :: t).length)) := by
  simp only [escLoop, hnorm]
  cases flag <;> simp only [if_neg hc]

/-- One `escaped0` round consuming a normal character (not to the end). -/
theorem escLoop_step_normal {normal : P ε Char} {escp : P ε β} {control : Char}
    {input : Str} {c : Char} {t i2 : Str} {v : Char}
    (hnorm : normal (c :: t) = .ok i2 v) (hne : i2 ≠ [])
    (hlen : i2.length ≠ (c :: t).length) (n : ℕ) :
    escLoop normal escp control input (n + 1) false (c :: t) =
      escLoop normal escp control input n false i2 := by
  simp only [escLoop, hnorm]
  simp only [if_neg hne, if_neg hlen]

/-- One `escaped0` round consuming the final normal character. -/
theorem escLoop_step_normal_end {normal : P ε Char} {escp : P ε β} {control : Char}
    {input : Str} {c : Char} {t : Str} {v : Char}
    (hnorm : normal (c :: t) = .ok [] v) (n : ℕ) :
    escLoop normal escp control input (n + 1) false (c :: t) = .ok [] input := by
  simp only [escLoop, hnorm]
  simp

/-- One `escaped0` round through a successful escape (not to the end). -/
theorem escLoop_step_escape {normal : P ε Char} {escp : P ε β} {control : Char}
    {input : Str} {t i2 : Str} {e : ε} {v : β}
    (hnorm : normal (control :: t) = .err e) (hte : t ≠ [])
    (hes : escp t = .ok i2 v) (hne : i2 ≠ []) (n : ℕ) (flag : Bool) :
    escLoop normal escp control input (n + 1) flag (control :: t) =
      escLoop normal escp control input n false i2 := by
  have hlen : ¬((control :: t).length ≤ 1) := by
    cases t with
    | nil => exact absurd rfl hte
    | cons a b => simp
  simp only [escLoop, hnorm]
  cases flag <;>
    · rw [if_true, if_neg hlen, hes]
      dsimp only
      rw [if_neg hne]

/-- One `escaped0` round through a successful escape reaching the end. -/
theorem escLoop_step_escape_end {normal : P ε Char} {escp : P ε β} {control : Char}
    {input : Str} {t : Str} {e : ε} {v : β}
    (hnorm : normal (control :: t) = .err e) (hte : t ≠ [])
    (hes : escp t = .ok [] v) (n : ℕ) (flag : Bool) :
    escLoop normal escp control input (n + 1) flag (control :: t) = .ok [] input := by
  have hlen : ¬((control :: t).length ≤ 1) := by
    cases t with
    | nil => exact absurd rfl hte
    | cons a b => simp
  simp only [escLoop, hnorm]
  cases flag <;>
    · rw [if_true, if_neg hlen, hes]
      dsimp only
      rw [if_pos (show ([] : Str) = [] from rfl)]

theorem valueEscapable_bsq (X : Str) :
    valueEscapable ('\\' :: '"' :: X) = .ok X ['\\', '"'] := by
  simp [valueEscapable, alt2, tagP, List.isPrefixOf]

theorem valueEscapable_bs (hd : Char) (X : Str) (hhd : hd ≠ '"') :
    valueEscapable ('\\' :: hd :: X) = .ok (hd :: X) ['\\'] := by
  have h1 : ('"' == hd) = false := beq_eq_false_iff_ne.mpr (Ne.symm hhd)
  simp [valueEscapable, alt2, tagP, List.isPrefixOf, h1]

theorem valueEscapable_brace (c : Char) (X : Str) (hc : c = '\x7b' ∨ c = '\x7d') :
    valueEscapable (c :: X) = .ok X [c] := by
  rcases hc with hc | hc <;> subst hc <;>
    simp [valueEscapable, alt2, tagP, List.isPrefixOf]

theorem noneOfV_bs (t : Str) :
    noneOfP (ε := TErr) ESCAPED_VALUE_CHARS ('\\' :: t) =
      .err (ErrM.fromKind ('\\' :: t) .noneOf) :=
  noneOfP_err_of (by simp [ESCAPED_VALUE_CHARS])

/-- The value scanner accepts a well-formed body: it stops exactly at a
following closing quote (first part), and consumes everything when the
body runs to the end of the input (second part, the unterminated case). -/
theorem escLoop_value_wf {s : Str} (hwf : ValueWF s) :
    ∀ fuel input, 2 * s.length + 2 ≤ fuel →
      (∀ rest, escLoop (noneOfP ESCAPED_VALUE_CHARS) valueEscapable '\\' input fuel
          false (s ++ '"' :: rest) =
        .ok ('"' :: rest) (input.take (input.length - ('"' :: rest).length))) ∧
      escLoop (noneOfP ESCAPED_VALUE_CHARS) valueEscapable '\\' input fuel false s =
        .ok [] input := by
  induction hwf with
  | nil =>
    intro fuel input hfuel
    cases fuel with
    | zero => omega
    | succ n =>
      constructor
      · intro rest
        exact escLoop_step_stop (noneOfP_err_of (by simp [ESCAPED_VALUE_CHARS]))
          (by decide) n false
      · simp [escLoop]
  | normal c t h1 h2 ht ih =>
    intro fuel input hfuel
    cases fuel with
    | zero => omega
    | succ n =>
      have hnotin : c ∉ ESCAPED_VALUE_CHARS := by
        simp [ESCAPED_VALUE_CHARS]
        exact ⟨h1, h2⟩
      have ihn := ih n input (by simp only [List.length_cons] at hfuel; omega)
      constructor
      · intro rest
        rw [List.cons_append]
        rw [escLoop_step_normal (noneOfP_ok_of hnotin) (by simp) (by simp) n]
        exact ihn.1 rest
      · cases ht2 : t with
        | nil =>
          subst ht2
          exact escLoop_step_normal_end (noneOfP_ok_of hnotin) n
        | cons a b =>
          rw [← ht2]
          rw [escLoop_step_normal (noneOfP_ok_of hnotin) (by rw [ht2]; simp)
            (by simp) n]
          exact ihn.2
  | escBsQuote t ht ih =>
    intro fuel input hfuel
    cases fuel with
    | zero => omega
    | succ n =>
      have ihn := ih n input (by simp only [List.length_cons] at hfuel; omega)
      constructor
      · intro rest
        rw [show ('\\' :: '\\' :: '"' :: t) ++ '"' :: rest =
          '\\' :: ('\\' :: '"' :: (t ++ '"' :: rest)) by simp]
        rw [escLoop_step_escape (noneOfV_bs _) (by simp)
          (valueEscapable_bsq (t ++ '"' :: rest)) (by simp) n false]
        exact ihn.1 rest
      · cases ht2 : t with
        | nil =>
          subst ht2
          exact escLoop_step_escape_end (noneOfV_bs _) (by simp)
            (valueEscapable_bsq []) n false
        | cons a b =>
          rw [← ht2]
          rw [escLoop_step_escape (noneOfV_bs _) (by simp)
            (valueEscapable_bsq t) (by rw [ht2]; simp) n false]
          exact ihn.2
  | escBs t hne hq ht ih =>
    intro fuel input hfuel
    obtain ⟨hd, tl, rfl⟩ : ∃ hd tl, t = hd :: tl := by
      cases t with
      | nil => exact absurd rfl hne
      | cons a b => exact ⟨a, b, rfl⟩
    have hhd : hd ≠ '"' := by
      intro hcon
      apply hq
      rw [hcon]
      rfl
    cases fuel with
    | zero => omega
    | succ n =>
      have ihn := ih n input (by simp only [List.length_cons] at hfuel ⊢; omega)
      constructor
      · intro rest
        rw [show ('\\' :: '\\' :: hd :: tl) ++ '"' :: rest =
          '\\' :: ('\\' :: hd :: (tl ++ '"' :: rest)) by simp]
        rw [escLoop_step_escape (noneOfV_bs _) (by simp)
          (valueEscapable_bs hd (tl ++ '"' :: rest) hhd) (by simp) n false]
        exact ihn.1 rest
      · rw [escLoop_step_escape (noneOfV_bs _) (by simp)
          (valueEscapable_bs hd tl hhd) (by simp) n false]
        exact ihn.2
  | escBrace c t hc ht ih =>
    intro fuel input hfuel
    cases fuel with
    | zero => omega
    | succ n =>
      have ihn := ih n input (by simp only [List.length_cons] at hfuel; omega)
      constructor
      · intro rest
        rw [show ('\\' :: c :: t) ++ '"' :: rest =
          '\\' :: (c :: (t ++ '"' :: rest)) by simp]
        rw [escLoop_step_escape (noneOfV_bs _) (by simp)
          (valueEscapable_brace c (t ++ '"' :: rest) hc) (by simp) n false]
        exact ihn.1 rest
      · cases ht2 : t with
        | nil =>
          subst ht2
          exact escLoop_step_escape_end (noneOfV_bs _) (by simp)
            (valueEscapable_brace c [] hc) n false
        | cons a b =>
          rw [← ht2]
          rw [escLoop_step_escape (noneOfV_bs _) (by simp)
            (valueEscapable_brace c t hc) (by rw [ht2]; simp) n false]
          exact ihn.2

end ScannerSteps


section ClaimC3

/-- The scanner of the quoted value form accepts a well-formed body and
stops at the closing quote, returning the body as the consumed span. -/
theorem valueStringP_wf (s rest : Str) (hwf : ValueWF s) :
    valueStringP (s ++ '"' :: rest) = .ok ('"' :: rest) s := by
  have hscan := (escLoop_value_wf hwf (2 * (s ++ '"' :: rest).length + 2)
      (s ++ '"' :: rest) (by simp only [List.length_append, List.length_cons]; omega)).1 rest
  show escLoop (noneOfP ESCAPED_VALUE_CHARS) valueEscapable '\\' (s ++ '"' :: rest)
      (2 * (s ++ '"' :: rest).length + 2) false (s ++ '"' :: rest) =
    .ok ('"' :: rest) s
  rw [hscan]
  congr 1
  simp only [List.length_append, List.length_cons]
  rw [show s.length + (rest.length + 1) - (rest.length + 1) = s.length by omega]
  exact List.take_left s ('"' :: rest)

/-- C3 (corrected): after the opening quote, the quoted form of `value`
accepts runs of characters outside the value-escape set interleaved with
the escape units its escapable alternative actually accepts — the
three-character unit backslash-backslash-quote, backslash-backslash when
not followed by a quote, and backslash-brace — and then requires the
closing quote.  The two-character sequence backslash-quote claimed in the
spec is NOT accepted (see the counterexample): the escape alternative
`alt((tag("\\\""), tag("\\"), tag("{"), tag("}")))` runs after the
backslash and none of its tags matches a lone `"`. -/
theorem c3_quoted_value_accepts_wf_bodies (s rest : Str) (hwf : ValueWF s) :
    valueP ('"' :: (s ++ '"' :: rest)) = .ok rest s := by
  have hvs := valueStringP_wf s rest hwf
  simp only [valueP, ctxP, alt2, precededP, bindP, terminatedP, pmap, cutP, charP, if_true, hvs]

/-- Witness: a quoted value with a backslash-backslash escape in the body. -/
theorem c3_quoted_value_accepts_wf_bodies_witness :
    valueP ('"' :: (chars "a\\\\b" ++ '"' :: chars "r")) = .ok (chars "r") (chars "a\\\\b") :=
  c3_quoted_value_accepts_wf_bodies (chars "a\\\\b") (chars "r")
    (ValueWF.normal 'a' _ (by decide) (by decide)
      (ValueWF.escBs ['b'] (by decide) (by decide)
        (ValueWF.normal 'b' [] (by decide) (by decide) ValueWF.nil)))

/-- Counterexample to the literal claim: the two-character escape sequence
backslash-quote inside a quoted body is rejected — both `value` and
`key_value` hard-fail on it with the `Escaped`-kind error. -/
theorem c3_backslash_quote_rejected :
    valueP (chars "\"\\\"x\"") = .fail (chars "\\\"x\"", NomKind.escaped) ∧
    keyValueP (chars "k=\"\\\"x\"") = .fail (chars "\\\"x\"", NomKind.escaped) :=
  ⟨rfl, rfl⟩

end ClaimC3

section ClaimC5

/-- A well-formed unterminated quoted body is consumed entirely by the
value scanner. -/
theorem valueStringP_wf_end (s : Str) (hwf : ValueWF s) : valueStringP s = .ok [] s :=
  (escLoop_value_wf hwf (2 * s.length + 2) s (le_refl _)).2

/-- C5 (corrected): a key, `=`, an opening quote and no closing quote
before the end of the body make `attributes` hard-fail (`Err::Failure`,
not a skipped pair), as claimed; but the resulting error carries an EMPTY
context stack — the "value" frame is discarded because `key_value` runs
at the tuple error type inside `try_skip`, whose default `add_context` is
a no-op, and `try_skip` rebuilds the outer error via `from_error_kind`. -/
theorem c5_unterminated_quote_hard_fails_without_value_frame (ks s : Str)
    (hne : ks ≠ []) (hk : ∀ c ∈ ks, isKeyChar c = true) (hwf : ValueWF s) :
    attributesP (ks ++ '=' :: '"' :: s) = .fail ⟨[], .nom .char, []⟩ ∧
    "value" ∉ (PError.mk [] (.nom .char) []).context.map Prod.fst := by
  refine ⟨?_, by simp⟩
  obtain ⟨k0, kt, rfl⟩ : ∃ k0 kt, ks = k0 :: kt := by
    cases ks with
    | nil => exact absurd rfl hne
    | cons k0 kt => exact ⟨k0, kt, rfl⟩
  have hk0 : isKeyChar k0 = true := hk k0 (by simp)
  have hsp := takeWhile_append_of_stop (fun c => isKeyChar c) (k0 :: kt) ('=' :: '"' :: s)
    hk (fun c t hct => by cases hct; decide)
  have hkey : keyP ((k0 :: kt) ++ '=' :: '"' :: s) = .ok ('=' :: '"' :: s) (k0 :: kt) := by
    simp only [keyP, ctxP, takeWhile1P, takeWhile1K, hsp.1, hsp.2]
    simp
  have hval : valueP ('"' :: s) = .fail ([], NomKind.char) := by
    have hvs := valueStringP_wf_end s hwf
    simp only [valueP, ctxP, alt2, precededP, bindP, terminatedP, pmap, cutP, charP, if_true, hvs]
    rfl
  have hkv : keyValueP ((k0 :: kt) ++ '=' :: '"' :: s) = .fail ([], NomKind.char) := by
    simp only [keyValueP, ctxP, separatedPairP, precededP, bindP, pmap, hkey, charP, if_true, hval]
    rfl
  have hskip : takeWhileP (ε := PError) (fun c => !(isKeyChar c))
      ((k0 :: kt) ++ '=' :: '"' :: s) = .ok ((k0 :: kt) ++ '=' :: '"' :: s) [] := by
    simp only [takeWhileP, List.cons_append, List.takeWhile_cons, List.dropWhile_cons, hk0]
    simp
  have hstep : attrStep ((k0 :: kt) ++ '=' :: '"' :: s) = .fail ⟨[], .nom .char, []⟩ := by
    simp only [attrStep, precededP, bindP, hskip, trySkipP, hkv]
    rfl
  have hne2 : (k0 :: kt) ++ '=' :: '"' :: s ≠ [] := by simp
  simp only [attributesP, attrLoop, if_neg hne2, hstep]

/-- Witness for the unterminated-quote failure at a concrete input. -/
theorem c5_unterminated_quote_witness :
    attributesP (chars "a" ++ '=' :: '"' :: chars "b") = .fail ⟨[], .nom .char, []⟩ ∧
    "value" ∉ (PError.mk [] (.nom .char) []).context.map Prod.fst :=
  c5_unterminated_quote_hard_fails_without_value_frame (chars "a") (chars "b")
    (by decide) (by decide)
    (ValueWF.normal 'b' [] (by decide) (by decide) ValueWF.nil)

/-- Counterexample to the context part of the literal claim: a full parse
of a schematic whose property body holds an unterminated quoted value
fails hard, but the only context frame is "version" — no "value" frame
appears anywhere in the error. -/
theorem c5_value_frame_absent_counterexample :
    schematicFullP (chars "v \x7ba=\"b\x7d") =
      .error ⟨[], .nom .char, [("version", chars "v \x7ba=\"b\x7d")]⟩ ∧
    "value" ∉ [("version", chars "v \x7ba=\"b\x7d")].map Prod.fst :=
  ⟨rfl, by decide⟩

end ClaimC5

section ClaimC6

/-- C6 (corrected): a polygon's declared point count may be zero, in which
case `length_count` runs the coordinate parser zero times and the parsed
`Polygon` has an EMPTY point sequence — the claimed lower bound of one
point does not hold.  In general `length_count` with a zero count
succeeds immediately with the empty list. -/
theorem c6_zero_count_polygon_allowed {ε α : Type} [ErrM ε] (cnt : P ε ℕ) (q : P ε α)
    (inp r : Str) (h : cnt inp = .ok r 0) :
    lengthCountP cnt q inp = .ok r [] := by
  simp only [lengthCountP, bindP, h, lcLoop]

/-- Witness: the points parser of `polygon_object` on a zero count. -/
theorem c6_zero_count_polygon_allowed_witness :
    lengthCountP (usizeP (ε := PError)) (precededP space1 coordinateP)
      (chars "0 \x7b\x7d") = .ok (chars " \x7b\x7d") [] :=
  c6_zero_count_polygon_allowed usizeP (precededP space1 coordinateP)
    (chars "0 \x7b\x7d") (chars " \x7b\x7d") rfl

/-- Counterexample to the literal claim: a full schematic parse of
`P 3 0 \x7b\x7d` succeeds and produces a polygon whose point sequence is
empty (length 0, not at least 1). -/
theorem c6_empty_polygon_counterexample :
    schematicFullP (chars "v \x7b\x7d\nP 3 0 \x7b\x7d") =
      .ok (.mk ⟨⟨[], []⟩⟩ none none none none none [] [] []
        [⟨3, [], ⟨[], []⟩⟩] [] [] []) ∧
    (Polygon.mk 3 [] ⟨[], []⟩).points = [] :=
  ⟨rfl, rfl⟩

end ClaimC6

section ClaimC9

/-- C9 (corrected): when `schematic` itself succeeds and leaves a rest,
`schematic_full` accepts the rest exactly when it is all whitespace, and
otherwise fails with the `Eof`-kind error at the first non-whitespace
character.  But trailing garbage that begins with a known tag letter is
consumed by the object fold, which COMMITS (`cut`) and hard-fails with
that object's inner error instead — so the returned error is not always
`Eof`-kind (see the counterexample). -/
theorem c9_trailing_input (input rest : Str) (S : Schematic)
    (h : schematicP input = .ok rest S) :
    (rest.dropWhile isWsChar = [] → schematicFullP input = .ok S) ∧
    (rest.dropWhile isWsChar ≠ [] →
      schematicFullP input = .error ⟨rest.dropWhile isWsChar, .nom .eof, []⟩) := by
  constructor
  · intro hws
    simp only [schematicFullP, terminatedP, bindP, h, pmap, precededP, multispace0,
      takeWhileP, eofP, hws]
  · intro hws
    obtain ⟨c, t, hct⟩ : ∃ c t, rest.dropWhile isWsChar = c :: t := by
      cases hcase : rest.dropWhile isWsChar with
      | nil => exact absurd hcase hws
      | cons c t => exact ⟨c, t, rfl⟩
    simp only [schematicFullP, terminatedP, bindP, h, pmap, precededP, multispace0,
      takeWhileP, eofP, hct]
    rfl

/-- Witness: trailing whitespace after the last object is accepted. -/
theorem c9_trailing_input_witness :
    schematicFullP (chars "v \x7b\x7d  \n ") =
      .ok (.mk ⟨⟨[], []⟩⟩ none none none none none [] [] [] [] [] [] []) :=
  (c9_trailing_input (chars "v \x7b\x7d  \n ") (chars "  \n ")
    (.mk ⟨⟨[], []⟩⟩ none none none none none [] [] [] [] [] [] []) rfl).1 rfl

/-- Counterexample to the eof-kind part of the literal claim: after a
parsed wire, the trailing non-whitespace text `T x` makes the parse fail,
but with the committed text-object error — expected character `\x7b` with
a "text" context frame — whose kind is not `Eof` (not even a nom kind). -/
theorem c9_non_eof_trailing_error_counterexample :
    schematicFullP (chars "v \x7b\x7d N 0 0 1 1 \x7b\x7d T x") =
      .error ⟨['x'], .char '\x7b', [("text", chars "T x")]⟩ ∧
    EKind.char '\x7b' ≠ EKind.nom NomKind.eof :=
  ⟨rfl, by decide⟩

end ClaimC9

section ClaimC7

/-- The `length_count` loop returns exactly as many elements as its count
argument demands. -/
theorem lcLoop_ok_length {ε α : Type} [ErrM ε] {p : P ε α} :
    ∀ {n : ℕ} {inp r : Str} {xs : List α}, lcLoop p n inp = .ok r xs → xs.length = n := by
  intro n
  induction n with
  | zero =>
    intro inp r xs h
    simp only [lcLoop] at h
    cases h
    rfl
  | succ n ih =>
    intro inp r xs h
    simp only [lcLoop] at h
    cases hp : p inp <;> rw [hp] at h <;> simp only at h
    case ok rest x =>
      cases hl : lcLoop p n rest <;> rw [hl] at h <;> simp only at h
      case ok r2 xs2 =>
        cases h
        simp only [List.length_cons, ih hl]
      all_goals cases h
    all_goals cases h

/-- Success inversion for the nom numeric parsers: the value is the
numeric value of the maximal leading digit run. -/
theorem uintP_ok_iff {ε : Type} [ErrM ε] {bound : ℕ} {inp r : Str} {n : ℕ} :
    uintP (ε := ε) bound inp = .ok r n ↔
      inp.takeWhile isDigitChar ≠ [] ∧ natVal (inp.takeWhile isDigitChar) ≤ bound ∧
      n = natVal (inp.takeWhile isDigitChar) ∧ r = inp.dropWhile isDigitChar := by
  simp only [uintP]
  split
  · rename_i hds
    constructor
    · intro h; cases h
    · rintro ⟨h1, _⟩; exact absurd hds h1
  · rename_i hds
    split
    · rename_i hb
      constructor
      · intro h; cases h; exact ⟨hds, hb, rfl, rfl⟩
      · rintro ⟨_, _, h3, h4⟩; rw [h3, h4]
    · rename_i hb
      constructor
      · intro h; cases h
      · rintro ⟨_, h2, _⟩; exact absurd h2 hb

/-- C7 (confirmed): a successfully parsed polygon carries exactly as many
points as the decimal count declared in its input text: the input
decomposes after the `P` tag into a whitespace run, the layer digit run,
a whitespace run, and a residue whose maximal leading digit run is the
declared point count — whose numeric value equals the length of the
parsed point sequence. -/
theorem c7_polygon_count_matches_input (input rest : Str) (poly : Polygon)
    (h : polygonObjectP input = .ok rest poly) :
    ∃ w1 ld w2 mid,
      input = 'P' :: (w1 ++ ld ++ w2 ++ mid) ∧
      (∀ c ∈ w1, isWsChar c = true) ∧ w1 ≠ [] ∧
      (∀ c ∈ ld, isDigitChar c = true) ∧ ld ≠ [] ∧
      (∀ c ∈ w2, isWsChar c = true) ∧ w2 ≠ [] ∧
      mid.takeWhile isDigitChar ≠ [] ∧
      poly.points.length = natVal (mid.takeWhile isDigitChar) := by
  rw [polygonObjectP, objectP, ctxP_ok, precededP_ok] at h
  obtain ⟨r1, a, hchar, hbody⟩ := h
  rw [charP_ok_iff] at hchar
  obtain ⟨hinp, -⟩ := hchar
  rw [cutP_ok, bindP_ok] at hbody
  obtain ⟨r2, layer, hlayer, hrest1⟩ := hbody
  rw [precededP_ok] at hlayer
  obtain ⟨r1a, w1v, hms1, hlay⟩ := hlayer
  rw [multispace1, takeWhile1K_ok_iff] at hms1
  obtain ⟨hw1ne, hr1a, -⟩ := hms1
  rw [layerP, u64P, uintP_ok_iff] at hlay
  obtain ⟨hldne, -, -, hr2⟩ := hlay
  rw [bindP_ok] at hrest1
  obtain ⟨r3, pts, hcount, hrest2⟩ := hrest1
  rw [precededP_ok] at hcount
  obtain ⟨mid, w2v, hms2, hlc⟩ := hcount
  rw [multispace1, takeWhile1K_ok_iff] at hms2
  obtain ⟨hw2ne, hmid, -⟩ := hms2
  rw [lengthCountP, bindP_ok] at hlc
  obtain ⟨m, n, hcnt, hloop⟩ := hlc
  rw [usizeP, uintP_ok_iff] at hcnt
  obtain ⟨hdsne, -, hn, -⟩ := hcnt
  have hlen := lcLoop_ok_length hloop
  rw [pmap_ok] at hrest2
  obtain ⟨pr, -, hpoly⟩ := hrest2
  refine ⟨r1.takeWhile isWsChar, r1a.takeWhile isDigitChar, r2.takeWhile isWsChar, mid,
    ?_, ?_, hw1ne, ?_, hldne, ?_, hw2ne, hdsne, ?_⟩
  · rw [hinp]
    congr 1
    rw [List.append_assoc, List.append_assoc]
    rw [hmid, List.takeWhile_append_dropWhile, hr2, List.takeWhile_append_dropWhile,
      hr1a, List.takeWhile_append_dropWhile]
  · exact fun c hc => List.mem_takeWhile_imp hc
  · exact fun c hc => List.mem_takeWhile_imp hc
  · exact fun c hc => List.mem_takeWhile_imp hc
  · rw [hpoly]
    show pts.length = _
    rw [hlen, hn]

/-- Witness: a polygon declaring two points parses with two points. -/
theorem c7_polygon_count_matches_input_witness :
    ∃ w1 ld w2 mid,
      chars "P 0 2 1 2 3\t4 \x7b\x7d" = 'P' :: (w1 ++ ld ++ w2 ++ mid) ∧
      (∀ c ∈ w1, isWsChar c = true) ∧ w1 ≠ [] ∧
      (∀ c ∈ ld, isDigitChar c = true) ∧ ld ≠ [] ∧
      (∀ c ∈ w2, isWsChar c = true) ∧ w2 ≠ [] ∧
      mid.takeWhile isDigitChar ≠ [] ∧
      (Polygon.mk 0 [⟨⟨1, 0⟩, ⟨2, 0⟩⟩, ⟨⟨3, 0⟩, ⟨4, 0⟩⟩] ⟨[], []⟩).points.length =
        natVal (mid.takeWhile isDigitChar) :=
  c7_polygon_count_matches_input (chars "P 0 2 1 2 3\t4 \x7b\x7d") []
    (Polygon.mk 0 [⟨⟨1, 0⟩, ⟨2, 0⟩⟩, ⟨⟨3, 0⟩, ⟨4, 0⟩⟩] ⟨[], []⟩) rfl

end ClaimC7

section ClaimC8

/-- Projection of the vhdl (`G`) singleton tag. -/
def Object.vhdlProp? : Object → Option Property
  | .vhdlProp p => some p
  | _ => none

/-- Projection of the symbol (`K`) singleton tag. -/
def Object.symbolProp? : Object → Option Property
  | .symbolProp p => some p
  | _ => none

/-- Projection of the verilog (`V`) singleton tag. -/
def Object.verilogProp? : Object → Option Property
  | .verilogProp p => some p
  | _ => none

/-- Projection of the spice (`S`) singleton tag. -/
def Object.spiceProp? : Object → Option Property
  | .spiceProp p => some p
  | _ => none

/-- Projection of the tedax (`E`) singleton tag. -/
def Object.tedaxProp? : Object → Option Property
  | .tedaxProp p => some p
  | _ => none

theorem getLast?_cons_or {α : Type} (p : α) (l : List α) (z : Option α) :
    ((p :: l).getLast?).or z = (l.getLast?).or (some p) := by
  cases l with
  | nil => simp
  | cons q t =>
    rw [List.getLast?_cons_cons]
    obtain ⟨a, ha⟩ := Option.isSome_iff_exists.mp
      (List.getLast?_isSome.mpr (by simp) : ((q :: t).getLast?).isSome)
    rw [ha]
    rfl

/-- Folding `add_object`: the vhdl slot holds the last `G` occurrence,
else the starting slot. -/
theorem foldl_vhdl_slot (xs : List Object) :
    ∀ s : Schematic, (xs.foldl Schematic.add_object s).vhdl_property =
      ((xs.filterMap Object.vhdlProp?).getLast?).or s.vhdl_property := by
  induction xs with
  | nil => intro s; simp
  | cons x xs ih =>
    intro s
    obtain ⟨v, g, k, vl, sp, te, ts, ls, rs, ps, ar, ws, cs⟩ := s
    cases x <;>
      simp only [List.foldl_cons, List.filterMap_cons, Object.vhdlProp?,
        Schematic.add_object] <;>
      rw [ih] <;>
      simp only [Schematic.vhdl_property, getLast?_cons_or]

/-- Folding `add_object`: the symbol slot holds the last `K` occurrence,
else the starting slot. -/
theorem foldl_symbol_slot (xs : List Object) :
    ∀ s : Schematic, (xs.foldl Schematic.add_object s).symbol_property =
      ((xs.filterMap Object.symbolProp?).getLast?).or s.symbol_property := by
  induction xs with
  | nil => intro s; simp
  | cons x xs ih =>
    intro s
    obtain ⟨v, g, k, vl, sp, te, ts, ls, rs, ps, ar, ws, cs⟩ := s
    cases x <;>
      simp only [List.foldl_cons, List.filterMap_cons, Object.symbolProp?,
        Schematic.add_object] <;>
      rw [ih] <;>
      simp only [Schematic.symbol_property, getLast?_cons_or]

/-- Folding `add_object`: the verilog slot holds the last `V` occurrence,
else the starting slot. -/
theorem foldl_verilog_slot (xs : List Object) :
    ∀ s : Schematic, (xs.foldl Schematic.add_object s).verilog_property =
      ((xs.filterMap Object.verilogProp?).getLast?).or s.verilog_property := by
  induction xs with
  | nil => intro s; simp
  | cons x xs ih =>
    intro s
    obtain ⟨v, g, k, vl, sp, te, ts, ls, rs, ps, ar, ws, cs⟩ := s
    cases x <;>
      simp only [List.foldl_cons, List.filterMap_cons, Object.verilogProp?,
        Schematic.add_object] <;>
      rw [ih] <;>
      simp only [Schematic.verilog_property, getLast?_cons_or]

/-- Folding `add_object`: the spice slot holds the last `S` occurrence,
else the starting slot. -/
theorem foldl_spice_slot (xs : List Object) :
    ∀ s : Schematic, (xs.foldl Schematic.add_object s).spice_property =
      ((xs.filterMap Object.spiceProp?).getLast?).or s.spice_property := by
  induction xs with
  | nil => intro s; simp
  | cons x xs ih =>
    intro s
    obtain ⟨v, g, k, vl, sp, te, ts, ls, rs, ps, ar, ws, cs⟩ := s
    cases x <;>
      simp only [List.foldl_cons, List.filterMap_cons, Object.spiceProp?,
        Schematic.add_object] <;>
      rw [ih] <;>
      simp only [Schematic.spice_property, getLast?_cons_or]

/-- Folding `add_object`: the tedax slot holds the last `E` occurrence,
else the starting slot. -/
theorem foldl_tedax_slot (xs : List Object) :
    ∀ s : Schematic, (xs.foldl Schematic.add_object s).tedax_property =
      ((xs.filterMap Object.tedaxProp?).getLast?).or s.tedax_property := by
  induction xs with
  | nil => intro s; simp
  | cons x xs ih =>
    intro s
    obtain ⟨v, g, k, vl, sp, te, ts, ls, rs, ps, ar, ws, cs⟩ := s
    cases x <;>
      simp only [List.foldl_cons, List.filterMap_cons, Object.tedaxProp?,
        Schematic.add_object] <;>
      rw [ih] <;>
      simp only [Schematic.tedax_property, getLast?_cons_or]

/-- A successful `fold_many0` run is a left fold of some element list
over the initial accumulator, in parse order. -/
theorem foldMany0_ok_foldl {ε α σ : Type} [ErrM ε] {p : P ε α} {f : σ → α → σ} :
    ∀ {fuel : ℕ} {acc : σ} {input r : Str} {res : σ},
      foldMany0 p f fuel acc input = .ok r res → ∃ xs : List α, res = xs.foldl f acc := by
  intro fuel
  induction fuel with
  | zero =>
    intro acc input r res h
    simp only [foldMany0] at h
    cases h
  | succ n ih =>
    intro acc input r res h
    simp only [foldMany0] at h
    cases hp : p input <;> rw [hp] at h <;> simp only at h
    case ok rest x =>
      by_cases hl : rest.length = input.length
      · rw [if_pos hl] at h
        cases h
      · rw [if_neg hl] at h
        obtain ⟨xs, hxs⟩ := ih h
        exact ⟨x :: xs, by simp [hxs]⟩
    case err e =>
      cases h
      exact ⟨[], rfl⟩
    all_goals cases h

/-- A successful `fold_many0` run is the left fold of the element list
that the collecting variant of the same loop (same element parser, same
step budget, same zero-consumption guard) extracts from the same input,
in parse order. -/
theorem foldMany0_ok_collect {ε α σ : Type} [ErrM ε] {p : P ε α} {f : σ → α → σ} :
    ∀ {fuel : ℕ} {acc : σ} {input r : Str} {res : σ},
      foldMany0 p f fuel acc input = .ok r res →
      ∃ xs : List α,
        (∀ acc2 : List α, foldMany0 p (fun l x => l ++ [x]) fuel acc2 input =
          .ok r (acc2 ++ xs)) ∧
        res = xs.foldl f acc := by
  intro fuel
  induction fuel with
  | zero =>
    intro acc input r res h
    simp only [foldMany0] at h
    cases h
  | succ n ih =>
    intro acc input r res h
    simp only [foldMany0] at h
    cases hp : p input <;> rw [hp] at h
    · rename_i rest x
      have h2 : (if rest.length = input.length
          then (PRes.err (ErrM.fromKind input .many) : PRes ε σ)
          else foldMany0 p f n (f acc x) rest) = .ok r res := h
      by_cases hl : rest.length = input.length
      · rw [if_pos hl] at h2
        cases h2
      · rw [if_neg hl] at h2
        obtain ⟨xs, hcol, hres⟩ := ih h2
        refine ⟨x :: xs, ?_, by simp [hres]⟩
        intro acc2
        simp only [foldMany0, hp]
        rw [if_neg hl]
        have hstep := hcol (acc2 ++ [x])
        rw [List.append_assoc] at hstep
        exact hstep
    · injection h with h1 h2
      subst h1
      subst h2
      refine ⟨[], ?_, by simp⟩
      intro acc2
      simp only [foldMany0, hp]
      simp
    · cases h
    · cases h
    · cases h

/-- C8 (confirmed): a successful `schematic` parse decomposes as the
version object on the whitespace-stripped input followed by the object
fold on the residue `i2`; the collecting variant of that very fold
(same element parser, same budget, same stop behaviour) extracts from
`i2` the source-order object sequence `xs`, the parsed schematic is the
left fold of `xs` over a fresh schematic, and each of the five
singleton property slots equals `getLast?` of that tag's occurrences in
`xs` — the last occurrence in source order, absent (`none`) when the
tag never occurs. -/
theorem c8_singleton_slots_last_wins (input rest : Str) (S : Schematic)
    (h : schematicP input = .ok rest S) :
    ∃ (i2 : Str) (v : Version) (xs : List Object),
      versionObjectP (input.dropWhile isWsChar) = .ok i2 v ∧
      foldMany0 (precededP multispace1 (anyObjectPW (schematicFuel input.length)))
        (fun l x => l ++ [x]) (i2.length + 1) [] i2 = .ok rest xs ∧
      S = xs.foldl Schematic.add_object (Schematic.new v) ∧
      S.vhdl_property = (xs.filterMap Object.vhdlProp?).getLast? ∧
      S.symbol_property = (xs.filterMap Object.symbolProp?).getLast? ∧
      S.verilog_property = (xs.filterMap Object.verilogProp?).getLast? ∧
      S.spice_property = (xs.filterMap Object.spiceProp?).getLast? ∧
      S.tedax_property = (xs.filterMap Object.tedaxProp?).getLast? := by
  rw [schematicP] at h
  simp only [schematicFuel] at h
  rw [schematicPW, bindP_ok] at h
  obtain ⟨r1, w, hms, h2⟩ := h
  rw [bindP_ok] at h2
  obtain ⟨r2, v, hver, hfold⟩ := h2
  have hr1 : r1 = input.dropWhile isWsChar := by
    simp only [multispace0, takeWhileP] at hms
    injection hms with ha hb
    exact ha.symm
  subst hr1
  obtain ⟨xs, hcol, hres⟩ := foldMany0_ok_collect hfold
  refine ⟨r2, v, xs, hver, by simpa using hcol [], hres, ?_, ?_, ?_, ?_, ?_⟩
  · rw [hres, foldl_vhdl_slot, show (Schematic.new v).vhdl_property = none from rfl,
      Option.or_none]
  · rw [hres, foldl_symbol_slot, show (Schematic.new v).symbol_property = none from rfl,
      Option.or_none]
  · rw [hres, foldl_verilog_slot, show (Schematic.new v).verilog_property = none from rfl,
      Option.or_none]
  · rw [hres, foldl_spice_slot, show (Schematic.new v).spice_property = none from rfl,
      Option.or_none]
  · rw [hres, foldl_tedax_slot, show (Schematic.new v).tedax_property = none from rfl,
      Option.or_none]

/-- Concrete parsed schematic of an input with two `S` occurrences and
one `G` occurrence. -/
def c8WitnessS : Schematic :=
  .mk ⟨⟨[], []⟩⟩ (some ⟨chars "x=y", [(chars "x", chars "y")]⟩) none none
    (some ⟨chars "b=2", [(chars "b", chars "2")]⟩) none [] [] [] [] [] [] []

/-- Witness: after parsing two `S` objects and one `G` object, the
collecting fold pins the source-order sequence, the spice slot holds the
second `S` property and the vhdl slot the `G` property. -/
theorem c8_singleton_slots_last_wins_witness :
    ∃ (i2 : Str) (v : Version) (xs : List Object),
      versionObjectP ((chars "v \x7b\x7d S \x7ba=1\x7d G \x7bx=y\x7d S \x7bb=2\x7d").dropWhile
        isWsChar) = .ok i2 v ∧
      foldMany0 (precededP multispace1 (anyObjectPW
          (schematicFuel (chars "v \x7b\x7d S \x7ba=1\x7d G \x7bx=y\x7d S \x7bb=2\x7d").length)))
        (fun l x => l ++ [x]) (i2.length + 1) [] i2 = .ok [] xs ∧
      c8WitnessS = xs.foldl Schematic.add_object (Schematic.new v) ∧
      c8WitnessS.vhdl_property = (xs.filterMap Object.vhdlProp?).getLast? ∧
      c8WitnessS.symbol_property = (xs.filterMap Object.symbolProp?).getLast? ∧
      c8WitnessS.verilog_property = (xs.filterMap Object.verilogProp?).getLast? ∧
      c8WitnessS.spice_property = (xs.filterMap Object.spiceProp?).getLast? ∧
      c8WitnessS.tedax_property = (xs.filterMap Object.tedaxProp?).getLast? :=
  c8_singleton_slots_last_wins
    (chars "v \x7b\x7d S \x7ba=1\x7d G \x7bx=y\x7d S \x7bb=2\x7d") [] c8WitnessS rfl

end ClaimC8

section ClaimC4

/-- C4 (corrected): the general inter-field separator parser
(`multispace1`) does accept any run of one or more ASCII whitespace
characters, newlines included; but the polygon point separators —
between the declared count and the first point and between consecutive
points — use `space1`, which accepts only spaces and tabs and REJECTS a
newline, making the polygon parse hard-fail with the `Space`-kind error. -/
theorem c4_whitespace_separators :
    (∀ w rest : Str, w ≠ [] → (∀ c ∈ w, isWsChar c = true) →
        (∀ c t, rest = c :: t → isWsChar c = false) →
        multispace1 (ε := PError) (w ++ rest) = .ok rest w) ∧
    (∀ rest : Str, space1 (ε := PError) ('\n' :: rest) =
        .err ⟨'\n' :: rest, .nom .space, []⟩) ∧
    (∀ rest : Str, polygonObjectP ('P' :: ' ' :: '0' :: ' ' :: '1' :: '\n' :: rest) =
        .fail ⟨'\n' :: rest, .nom .space,
          [("polygon", 'P' :: ' ' :: '0' :: ' ' :: '1' :: '\n' :: rest)]⟩) := by
  have hms : ∀ w rest : Str, w ≠ [] → (∀ c ∈ w, isWsChar c = true) →
      (∀ c t, rest = c :: t → isWsChar c = false) →
      multispace1 (ε := PError) (w ++ rest) = .ok rest w := by
    intro w rest hne hw hr
    have hsp := takeWhile_append_of_stop isWsChar w rest hw hr
    simp only [multispace1, takeWhile1K, hsp.1, hsp.2, if_neg hne]
  have hspl : ∀ rest : Str, space1 (ε := PError) ('\n' :: rest) =
      .err ⟨'\n' :: rest, .nom .space, []⟩ := by
    intro rest
    have h0 : List.takeWhile isSpChar ('\n' :: rest) = [] := by
      rw [List.takeWhile_cons_of_neg]
      simp [isSpChar]
    simp only [space1, takeWhile1K, h0, if_pos rfl]
    rfl
  refine ⟨hms, hspl, ?_⟩
  intro rest
  have hchar : charP (ε := PError) 'P' ('P' :: ' ' :: '0' :: ' ' :: '1' :: '\n' :: rest) =
      .ok (' ' :: '0' :: ' ' :: '1' :: '\n' :: rest) 'P' := by
    simp [charP]
  have hms1 : multispace1 (ε := PError) (' ' :: '0' :: ' ' :: '1' :: '\n' :: rest) =
      .ok ('0' :: ' ' :: '1' :: '\n' :: rest) [' '] :=
    hms [' '] ('0' :: ' ' :: '1' :: '\n' :: rest) (by decide) (by decide)
      (fun c t hct => by cases hct; decide)
  have hlayer : layerP (ε := PError) ('0' :: ' ' :: '1' :: '\n' :: rest) =
      .ok (' ' :: '1' :: '\n' :: rest) 0 := by
    have hsp := takeWhile_append_of_stop isDigitChar ['0'] (' ' :: '1' :: '\n' :: rest)
      (by decide) (fun c t hct => by cases hct; decide)
    simp only [layerP, u64P, uintP]
    rw [show ('0' :: ' ' :: '1' :: '\n' :: rest) = ['0'] ++ (' ' :: '1' :: '\n' :: rest)
      from rfl, hsp.1, hsp.2]
    rw [if_neg (by decide : ¬(['0'] : Str) = []),
      if_pos (by decide : natVal ['0'] ≤ u64Bound)]
    rfl
  have hms2 : multispace1 (ε := PError) (' ' :: '1' :: '\n' :: rest) =
      .ok ('1' :: '\n' :: rest) [' '] :=
    hms [' '] ('1' :: '\n' :: rest) (by decide) (by decide)
      (fun c t hct => by cases hct; decide)
  have hcnt : usizeP (ε := PError) ('1' :: '\n' :: rest) = .ok ('\n' :: rest) 1 := by
    have hsp := takeWhile_append_of_stop isDigitChar ['1'] ('\n' :: rest)
      (by decide) (fun c t hct => by cases hct; decide)
    simp only [usizeP, uintP]
    rw [show ('1' :: '\n' :: rest) = ['1'] ++ ('\n' :: rest) from rfl, hsp.1, hsp.2]
    rw [if_neg (by decide : ¬(['1'] : Str) = []),
      if_pos (by decide : natVal ['1'] ≤ u64Bound)]
    rfl
  have hq : precededP space1 (coordinateP (ε := PError)) ('\n' :: rest) =
      .err ⟨'\n' :: rest, .nom .space, []⟩ := by
    simp only [precededP, bindP, hspl]
  have hlc : lcLoop (precededP space1 (coordinateP (ε := PError))) 1 ('\n' :: rest) =
      .err ⟨'\n' :: rest, .nom .space, []⟩ := by
    rw [show (1 : ℕ) = 0 + 1 from rfl]
    simp only [lcLoop, hq]
    rfl
  have hlcount : lengthCountP (usizeP (ε := PError)) (precededP space1 coordinateP)
      ('1' :: '\n' :: rest) = .err ⟨'\n' :: rest, .nom .space, []⟩ := by
    simp only [lengthCountP, bindP, hcnt, hlc]
  simp only [polygonObjectP, objectP, ctxP, precededP, bindP, hchar, cutP, hms1,
    hlayer, hms2, hlcount]
  rfl

/-- Witness: a mixed space-newline-tab run is a valid separator for
`multispace1`; `space1` rejects a newline; the polygon with a newline
before its first point hard-fails. -/
theorem c4_whitespace_separators_witness :
    multispace1 (ε := PError) (chars " \n\t" ++ chars "x") =
      .ok (chars "x") (chars " \n\t") ∧
    space1 (ε := PError) ('\n' :: chars "0") = .err ⟨'\n' :: chars "0", .nom .space, []⟩ ∧
    polygonObjectP ('P' :: ' ' :: '0' :: ' ' :: '1' :: '\n' :: chars "0 0 \x7b\x7d") =
      .fail ⟨'\n' :: chars "0 0 \x7b\x7d", .nom .space,
        [("polygon", 'P' :: ' ' :: '0' :: ' ' :: '1' :: '\n' :: chars "0 0 \x7b\x7d")]⟩ :=
  ⟨c4_whitespace_separators.1 (chars " \n\t") (chars "x") (by decide) (by decide)
      (fun c t hct => by cases hct; decide),
    c4_whitespace_separators.2.1 (chars "0"),
    c4_whitespace_separators.2.2 (chars "0 0 \x7b\x7d")⟩

/-- Counterexample to the literal claim: a newline between a polygon
declared count and its first point is rejected with the `Space`-kind
failure, while the same polygon with space and tab point separators
parses; so not every inter-field separator admits a newline. -/
theorem c4_newline_point_separator_rejected :
    polygonObjectP (chars "P 0 1\n0 0 \x7b\x7d") =
      .fail ⟨chars "\n0 0 \x7b\x7d", .nom .space,
        [("polygon", chars "P 0 1\n0 0 \x7b\x7d")]⟩ ∧
    polygonObjectP (chars "P 0 2 1 2 3\t4 \x7b\x7d") =
      .ok [] ⟨0, [⟨⟨1, 0⟩, ⟨2, 0⟩⟩, ⟨⟨3, 0⟩, ⟨4, 0⟩⟩], ⟨[], []⟩⟩ :=
  ⟨rfl, rfl⟩

end ClaimC4

section Digits

/-- Decimal digit character of a value below ten. -/
def digChar : ℕ → Char
  | 0 => '0' | 1 => '1' | 2 => '2' | 3 => '3' | 4 => '4'
  | 5 => '5' | 6 => '6' | 7 => '7' | 8 => '8' | _ => '9'

/-- Fuelled decimal rendering of a natural number. -/
def natDigitsF : ℕ → ℕ → Str
  | 0, _ => []
  | fuel + 1, n => if n < 10 then [digChar n] else natDigitsF fuel (n / 10) ++ [digChar (n % 10)]

/-- Decimal rendering of a natural number (Rust `u64`/integer display). -/
def natDigits (n : ℕ) : Str := natDigitsF (n + 1) n

theorem digChar_isDigit (d : ℕ) (h : d < 10) : isDigitChar (digChar d) = true := by
  interval_cases d <;> decide

theorem digChar_val (d : ℕ) (h : d < 10) : (digChar d).toNat - '0'.toNat = d := by
  interval_cases d <;> decide

theorem natDigitsF_ne_nil (fuel n : ℕ) (h : 0 < fuel) : natDigitsF fuel n ≠ [] := by
  cases fuel with
  | zero => omega
  | succ m =>
    simp only [natDigitsF]
    split
    · simp
    · simp

theorem natDigits_ne_nil (n : ℕ) : natDigits n ≠ [] :=
  natDigitsF_ne_nil (n + 1) n (by omega)

theorem natDigitsF_digits (fuel : ℕ) :
    ∀ n, ∀ c ∈ natDigitsF fuel n, isDigitChar c = true := by
  induction fuel with
  | zero => intro n c hc; simp [natDigitsF] at hc
  | succ m ih =>
    intro n c hc
    simp only [natDigitsF] at hc
    split at hc
    · rename_i h10
      simp only [List.mem_singleton] at hc
      rw [hc]
      exact digChar_isDigit n h10
    · rename_i h10
      rw [List.mem_append] at hc
      rcases hc with hc | hc
      · exact ih (n / 10) c hc
      · simp only [List.mem_singleton] at hc
        rw [hc]
        exact digChar_isDigit (n % 10) (Nat.mod_lt n (by omega))

theorem natDigits_digits (n : ℕ) : ∀ c ∈ natDigits n, isDigitChar c = true :=
  natDigitsF_digits (n + 1) n

/-- `natVal` from an arbitrary accumulator. -/
theorem natVal_append (l r : Str) :
    natVal (l ++ r) = r.foldl (fun a c => a * 10 + (c.toNat - '0'.toNat)) (natVal l) := by
  simp [natVal, List.foldl_append]

theorem natVal_singleton_acc (a : ℕ) (c : Char) :
    [c].foldl (fun a c => a * 10 + (c.toNat - '0'.toNat)) a = a * 10 + (c.toNat - '0'.toNat) :=
  rfl

theorem natVal_natDigitsF (fuel : ℕ) :
    ∀ n, n < 10 ^ fuel → natVal (natDigitsF fuel n) = n := by
  induction fuel with
  | zero => intro n h; interval_cases n; rfl
  | succ m ih =>
    intro n h
    simp only [natDigitsF]
    split
    · rename_i h10
      show natVal [digChar n] = n
      have hv : natVal [digChar n] = (digChar n).toNat - '0'.toNat := by
        simp [natVal]
      rw [hv, digChar_val n h10]
    · rename_i h10
      rw [natVal_append, natVal_singleton_acc]
      have hdiv : n / 10 < 10 ^ m := by
        rw [pow_succ'] at h
        exact Nat.div_lt_of_lt_mul h
      rw [ih (n / 10) hdiv, digChar_val (n % 10) (Nat.mod_lt n (by omega))]
      omega

theorem natVal_natDigits (n : ℕ) : natVal (natDigits n) = n := by
  have h1 : n < 10 ^ n := Nat.lt_pow_self (by omega) n
  have h2 : 10 ^ n ≤ 10 ^ (n + 1) := Nat.pow_le_pow_right (by omega) (by omega)
  exact natVal_natDigitsF (n + 1) n (lt_of_lt_of_le h1 h2)

theorem natDigitsF_length_le (fuel : ℕ) :
    ∀ n k, n < 10 ^ k → 1 ≤ k → (natDigitsF fuel n).length ≤ k := by
  induction fuel with
  | zero => intro n k _ _; simp [natDigitsF]
  | succ m ih =>
    intro n k h hk
    simp only [natDigitsF]
    split
    · simpa using hk
    · rename_i h10
      rw [List.length_append, List.length_singleton]
      have hk2 : 2 ≤ k := by
        by_contra hcon
        have : k = 1 := by omega
        subst this
        simp at h
        omega
      have hdiv : n / 10 < 10 ^ (k - 1) := by
        apply Nat.div_lt_of_lt_mul
        have : 10 * 10 ^ (k - 1) = 10 ^ k := by
          rw [← pow_succ']
          congr 1
          omega
        omega
      have := ih (n / 10) (k - 1) hdiv (by omega)
      omega

theorem natDigits_length_le (n k : ℕ) (h : n < 10 ^ k) (hk : 1 ≤ k) :
    (natDigits n).length ≤ k :=
  natDigitsF_length_le (n + 1) n k h hk

/-- Leading zeros do not change `natVal`. -/
theorem natVal_replicate_zero_append (k : ℕ) (ds : Str) :
    natVal (List.replicate k '0' ++ ds) = natVal ds := by
  induction k with
  | zero => simp
  | succ m ih =>
    rw [List.replicate_succ, List.cons_append]
    show natVal ('0' :: (List.replicate m '0' ++ ds)) = natVal ds
    simp only [natVal, List.foldl_cons]
    simpa [natVal] using ih

theorem replicate_zero_digits (k : ℕ) : ∀ c ∈ List.replicate k '0', isDigitChar c = true := by
  intro c hc
  rw [List.mem_replicate] at hc
  rw [hc.2]
  decide

end Digits

section DecLemmas

/-- Canonical-form and overflow invariants of finite doubles in the
exact-decimal model. -/
def DecWF (d : Dec) : Prop := DecCanon d ∧ decOverflow d.num d.exp = false

theorem decStrip_canon : ∀ fuel (n : ℤ) (e : ℕ), e < fuel → DecCanon (decStrip fuel n e) := by
  intro fuel
  induction fuel with
  | zero => intro n e h; omega
  | succ m ih =>
    intro n e h
    cases e with
    | zero => exact Or.inl rfl
    | succ e2 =>
      simp only [decStrip]
      split
      · exact ih (n / 10) e2 (by omega)
      · rename_i hmod
        exact Or.inr hmod

theorem mkDec_canon (n : ℤ) (e : ℕ) : DecCanon (mkDec n e) :=
  decStrip_canon (e + 1) n e (by omega)

theorem decOverflow_div10 (n : ℤ) (e : ℕ) (h : n % 10 = 0) :
    decOverflow (n / 10) e = decOverflow n (e + 1) := by
  have hdvd : (10 : ℤ) ∣ n := Int.dvd_of_emod_eq_zero h
  have hn : n / 10 * 10 = n := Int.ediv_mul_cancel hdvd
  have habs : n.natAbs = (n / 10).natAbs * 10 := by
    conv_lhs => rw [← hn]
    rw [Int.natAbs_mul]
    simp
  simp only [decOverflow, decide_eq_decide]
  rw [habs, pow_succ]
  constructor
  · intro hle
    calc (2 ^ 1024 - 2 ^ 970) * (10 ^ e * 10)
        = (2 ^ 1024 - 2 ^ 970) * 10 ^ e * 10 := by ring
      _ ≤ (n / 10).natAbs * 10 := by omega
  · intro hle
    have : (2 ^ 1024 - 2 ^ 970) * 10 ^ e * 10 ≤ (n / 10).natAbs * 10 := by
      calc (2 ^ 1024 - 2 ^ 970) * 10 ^ e * 10
          = (2 ^ 1024 - 2 ^ 970) * (10 ^ e * 10) := by ring
        _ ≤ (n / 10).natAbs * 10 := hle
    omega

theorem decOverflow_decStrip : ∀ fuel (n : ℤ) (e : ℕ), e < fuel →
    decOverflow (decStrip fuel n e).num (decStrip fuel n e).exp = decOverflow n e := by
  intro fuel
  induction fuel with
  | zero => intro n e h; omega
  | succ m ih =>
    intro n e h
    cases e with
    | zero => rfl
    | succ e2 =>
      simp only [decStrip]
      split
      · rename_i hmod
        rw [ih (n / 10) e2 (by omega)]
        exact decOverflow_div10 n e2 hmod
      · rfl

theorem decOverflow_mkDec (n : ℤ) (e : ℕ) :
    decOverflow (mkDec n e).num (mkDec n e).exp = decOverflow n e :=
  decOverflow_decStrip (e + 1) n e (by omega)

theorem mkDec_of_canon (n : ℤ) (e : ℕ) (h : e = 0 ∨ n % 10 ≠ 0) : mkDec n e = ⟨n, e⟩ := by
  cases e with
  | zero => rfl
  | succ e2 =>
    have hmod : n % 10 ≠ 0 := by
      rcases h with h | h
      · cases h
      · exact h
    simp only [mkDec, decStrip, if_neg hmod]

theorem mkF64_finite_wf (neg : Bool) (m e : ℕ) (q : Dec)
    (h : mkF64 neg m e = .finite q) : DecWF q := by
  unfold mkF64 at h
  split at h
  · cases h
  · rename_i hov
    injection h with h2
    subst h2
    refine ⟨mkDec_canon _ _, ?_⟩
    rw [decOverflow_mkDec]
    have habs : (if neg then -(m : ℤ) else (m : ℤ)).natAbs = ((m : ℤ)).natAbs := by
      cases neg <;> simp
    simp only [decOverflow] at hov ⊢
    rw [habs]
    simpa using hov

theorem rustParseF64_finite_wf (s : Str) (q : Dec)
    (h : rustParseF64 s = some (.finite q)) : DecWF q := by
  simp only [rustParseF64] at h
  split at h
  · cases h
  · split at h
    · injection h with h2
      exact mkF64_finite_wf _ _ _ _ h2
    · split at h
      · split at h
        · cases h
        · split at h
          · injection h with h2
            exact mkF64_finite_wf _ _ _ _ h2
          · injection h with h2
            exact mkF64_finite_wf _ _ _ _ h2
      · cases h

/-- The decimal rendering of an exact decimal (Rust `f64` display in the
exact model: integer digits, and a fractional part when the exponent is
positive, zero-padded to the exponent's width). -/
def renderDec (d : Dec) : Str :=
  (if d.num < 0 then ['-'] else []) ++
  (if d.exp = 0 then natDigits d.num.natAbs
   else
     natDigits (d.num.natAbs / 10 ^ d.exp) ++
       '.' :: (List.replicate (d.exp - (natDigits (d.num.natAbs % 10 ^ d.exp)).length) '0' ++
         natDigits (d.num.natAbs % 10 ^ d.exp)))

/-- Residues that cannot extend a recognised float literal. -/
def FloatStop (r : Str) : Prop :=
  ∀ c t, r = c :: t → isDigitChar c = false ∧ c ≠ '.' ∧ c ≠ 'e' ∧ c ≠ 'E'

theorem charP_err_stop {ε : Type} [ErrM ε] {c : Char} {r : Str} (h : ∀ t, r ≠ c :: t) :
    charP (ε := ε) c r = .err (ErrM.fromChar r c) := charP_err_iff.mpr ⟨h, rfl⟩

theorem digit_excludes (c : Char) (h : isDigitChar c = true) :
    c ≠ '+' ∧ c ≠ '-' ∧ c ≠ '.' ∧ c ≠ 'e' ∧ c ≠ 'E' := by
  refine ⟨?_, ?_, ?_, ?_, ?_⟩ <;> (intro hc; subst hc; revert h; decide)

end DecLemmas



section FloatRender

variable {ε : Type} [ErrM ε]

theorem sign_opt_none {c : Char} {t : Str} (h1 : c ≠ '+') (h2 : c ≠ '-') :
    optP (alt2 (charP '+') (charP '-')) (ε := ε) (c :: t) = .ok (c :: t) none := by
  have e1 := charP_err_stop (ε := ε) (c := '+') (r := c :: t)
    (fun t' hh => by injection hh with hc ht; exact h1 hc)
  have e2 := charP_err_stop (ε := ε) (c := '-') (r := c :: t)
    (fun t' hh => by injection hh with hc ht; exact h2 hc)
  simp only [optP, alt2, e1, e2]

theorem sign_opt_neg (t : Str) :
    optP (alt2 (charP '+') (charP '-')) (ε := ε) ('-' :: t) = .ok t (some '-') := by
  have e1 := charP_err_stop (ε := ε) (c := '+') (r := '-' :: t)
    (fun t' hh => by injection hh with hc ht; exact absurd hc (by decide))
  have e2 : charP (ε := ε) '-' ('-' :: t) = .ok t '-' := by simp [charP]
  simp only [optP, alt2, e1, e2]

theorem digit1_run {ds rest : Str} (hne : ds ≠ []) (hd : ∀ c ∈ ds, isDigitChar c = true)
    (hr : ∀ c t, rest = c :: t → isDigitChar c = false) :
    digit1 (ε := ε) (ds ++ rest) = .ok rest ds := by
  have hsp := takeWhile_append_of_stop isDigitChar ds rest hd hr
  simp only [digit1, takeWhile1K, hsp.1, hsp.2, if_neg hne]

theorem exp_opt_none {rest : Str} (hstop : FloatStop rest) :
    optP (bindP (alt2 (charP 'e') (charP 'E')) fun _ =>
      bindP (optP (alt2 (charP '+') (charP '-'))) fun _ => cutP digit1) (ε := ε) rest =
      .ok rest none := by
  have e1 := charP_err_stop (ε := ε) (c := 'e') (r := rest)
    (fun t' hh => (hstop 'e' t' hh).2.2.1 rfl)
  have e2 := charP_err_stop (ε := ε) (c := 'E') (r := rest)
    (fun t' hh => (hstop 'E' t' hh).2.2.2 rfl)
  simp only [optP, bindP, alt2, e1, e2]

theorem dot_opt_none {rest : Str} (hstop : FloatStop rest) :
    optP (bindP (charP '.') fun _ => optP (digit1 (ε := ε))) rest = .ok rest none := by
  have e1 := charP_err_stop (ε := ε) (c := '.') (r := rest)
    (fun t' hh => (hstop '.' t' hh).2.1 rfl)
  simp only [optP, bindP, e1]

theorem floatBody_undotted {ds rest : Str} (hne : ds ≠ [])
    (hd : ∀ c ∈ ds, isDigitChar c = true) (hstop : FloatStop rest) :
    floatBody (ε := ε) (ds ++ rest) = .ok rest () := by
  have hdig := digit1_run (ε := ε) hne hd (fun c t hct => (hstop c t hct).1)
  have hdot := dot_opt_none (ε := ε) hstop
  have hexp := exp_opt_none (ε := ε) hstop
  simp only [floatBody, bindP, alt2, hdig, pmap, hdot, hexp]

theorem floatBody_dotted {ds fs rest : Str} (hne : ds ≠ []) (hfne : fs ≠ [])
    (hd : ∀ c ∈ ds, isDigitChar c = true) (hf : ∀ c ∈ fs, isDigitChar c = true)
    (hstop : FloatStop rest) :
    floatBody (ε := ε) (ds ++ '.' :: (fs ++ rest)) = .ok rest () := by
  have hdig : digit1 (ε := ε) (ds ++ '.' :: (fs ++ rest)) = .ok ('.' :: (fs ++ rest)) ds :=
    digit1_run hne hd (fun c t hct => by injection hct with hc ht; subst hc; decide)
  have hfs := digit1_run (ε := ε) hfne hf (fun c t hct => (hstop c t hct).1)
  have hcdot : charP (ε := ε) '.' ('.' :: (fs ++ rest)) = .ok (fs ++ rest) '.' := by
    simp [charP]
  have hexp := exp_opt_none (ε := ε) hstop
  have hdotsome : optP (bindP (charP '.') fun _ => optP (digit1 (ε := ε)))
      ('.' :: (fs ++ rest)) = .ok rest (some (some fs)) := by
    simp only [optP, bindP, hcdot, hfs]
  simp only [floatBody, bindP, alt2, hdig, pmap, hdotsome, hexp]

theorem take_append_sub (L r : Str) : (L ++ r).take ((L ++ r).length - r.length) = L := by
  simp only [List.length_append]
  rw [show L.length + r.length - r.length = L.length by omega]
  exact List.take_left L r

theorem recognizeFloat_lit {L rest : Str}
    (h : recognizeFloatInner (ε := ε) (L ++ rest) = .ok rest ()) :
    recognizeFloat (ε := ε) (L ++ rest) = .ok rest L := by
  simp only [recognizeFloat, recognizeP, h, take_append_sub]

theorem recognizeFloatInner_digit_head {L rest : Str} {d0 : Char} {dt : Str}
    (hL : L = d0 :: dt) (hd0 : isDigitChar d0 = true)
    (hbody : floatBody (ε := ε) (L ++ rest) = .ok rest ()) :
    recognizeFloatInner (ε := ε) (L ++ rest) = .ok rest () := by
  subst hL
  have hex := digit_excludes d0 hd0
  have hsig := sign_opt_none (ε := ε) (t := dt ++ rest) hex.1 hex.2.1
  rw [List.cons_append] at hbody ⊢
  simp only [recognizeFloatInner, bindP, hsig, hbody]

theorem recognizeFloatInner_neg {L rest : Str}
    (hbody : floatBody (ε := ε) (L ++ rest) = .ok rest ()) :
    recognizeFloatInner (ε := ε) (('-' :: L) ++ rest) = .ok rest () := by
  have hsig := sign_opt_neg (ε := ε) (L ++ rest)
  rw [List.cons_append]
  simp only [recognizeFloatInner, bindP, hsig, hbody]

end FloatRender

section ParseRenderedFloat

theorem takeWhile_all (f : Char → Bool) (l : Str) (h : ∀ c ∈ l, f c = true) :
    l.takeWhile f = l ∧ l.dropWhile f = [] := by
  have := takeWhile_append_of_stop f l [] h (fun c t hct => by cases hct)
  simpa using this

theorem splitSign_other (c : Char) (t : Str) (h1 : c ≠ '+') (h2 : c ≠ '-') :
    splitSign (c :: t) = (false, c :: t) := by
  simp only [splitSign]
  rw [if_neg h1, if_neg h2]

theorem splitSign_neg (t : Str) : splitSign ('-' :: t) = (true, t) := by
  simp [splitSign]

theorem rustParseF64_undotted_core (s : Str) (neg : Bool) (ds : Str)
    (hsplit : splitSign s = (neg, ds)) (hne : ds ≠ [])
    (hd : ∀ c ∈ ds, isDigitChar c = true) :
    rustParseF64 s = some (mkF64 neg (natVal ds) 0) := by
  have hall := takeWhile_all isDigitChar ds hd
  simp only [rustParseF64, hsplit, hall.1, hall.2]
  rw [if_neg (by simp [hne])]
  simp [natVal]

theorem rustParseF64_dotted_core (s : Str) (neg : Bool) (ds fs : Str)
    (hsplit : splitSign s = (neg, ds ++ '.' :: fs)) (hne : ds ≠ []) (hfne : fs ≠ [])
    (hd : ∀ c ∈ ds, isDigitChar c = true) (hf : ∀ c ∈ fs, isDigitChar c = true) :
    rustParseF64 s = some (mkF64 neg (natVal ds * 10 ^ fs.length + natVal fs) fs.length) := by
  have hsp := takeWhile_append_of_stop isDigitChar ds ('.' :: fs) hd
    (fun c t hct => by injection hct with hc ht; subst hc; decide)
  have hall := takeWhile_all isDigitChar fs hf
  simp only [rustParseF64, hsplit, hsp.1, hsp.2, hall.1, hall.2]
  rw [if_neg (by simp [hne])]
  simp

/-- The fractional digits of `renderDec` (zero-padded remainder). -/
theorem renderDec_frac_facts (a E : ℕ) (hE : 1 ≤ E) :
    (List.replicate (E - (natDigits (a % 10 ^ E)).length) '0' ++ natDigits (a % 10 ^ E)) ≠ [] ∧
    (∀ c ∈ List.replicate (E - (natDigits (a % 10 ^ E)).length) '0' ++ natDigits (a % 10 ^ E),
      isDigitChar c = true) ∧
    (List.replicate (E - (natDigits (a % 10 ^ E)).length) '0' ++
      natDigits (a % 10 ^ E)).length = E ∧
    natVal (List.replicate (E - (natDigits (a % 10 ^ E)).length) '0' ++
      natDigits (a % 10 ^ E)) = a % 10 ^ E := by
  have hlt : a % 10 ^ E < 10 ^ E := Nat.mod_lt a (by positivity)
  have hlen := natDigits_length_le (a % 10 ^ E) E hlt hE
  refine ⟨?_, ?_, ?_, ?_⟩
  · simp [natDigits_ne_nil]
  · intro c hc
    rw [List.mem_append] at hc
    rcases hc with hc | hc
    · exact replicate_zero_digits _ c hc
    · exact natDigits_digits _ c hc
  · rw [List.length_append, List.length_replicate]
    omega
  · rw [natVal_replicate_zero_append, natVal_natDigits]

theorem mkF64_abs_eq (d : Dec) (hwf : DecWF d) (neg : Bool)
    (hsign : (neg = true ∧ -(d.num.natAbs : ℤ) = d.num) ∨
      (neg = false ∧ (d.num.natAbs : ℤ) = d.num)) :
    mkF64 neg d.num.natAbs d.exp = .finite d := by
  unfold mkF64
  rw [if_neg (by
    simp only [decOverflow, Int.natAbs_ofNat]
    have h2 := hwf.2
    simp only [decOverflow] at h2
    simp only [Bool.not_eq_true]
    exact h2)]
  congr 1
  have hsign2 : (if neg = true then -(d.num.natAbs : ℤ) else (d.num.natAbs : ℤ)) = d.num := by
    rcases hsign with ⟨hb, hv⟩ | ⟨hb, hv⟩ <;> subst hb <;> simpa using hv
  rw [hsign2]
  rcases hwf.1 with hc | hc
  · rw [mkDec_of_canon _ _ (Or.inl hc)]
  · rw [mkDec_of_canon _ _ (Or.inr hc)]

theorem rustParseF64_render (d : Dec) (hwf : DecWF d) :
    rustParseF64 (renderDec d) = some (.finite d) := by
  by_cases hexp : d.exp = 0
  · by_cases hneg : d.num < 0
    · have hform : renderDec d = '-' :: natDigits d.num.natAbs := by
        simp [renderDec, hexp, hneg]
      rw [hform]
      rw [rustParseF64_undotted_core _ true (natDigits d.num.natAbs)
        (splitSign_neg _) (natDigits_ne_nil _) (natDigits_digits _)]
      rw [natVal_natDigits]
      rw [show (0 : ℕ) = d.exp from hexp.symm]
      rw [mkF64_abs_eq d hwf true (Or.inl ⟨rfl, by omega⟩)]
    · have hform : renderDec d = natDigits d.num.natAbs := by
        simp [renderDec, hexp, hneg]
      obtain ⟨e0, et, hnd⟩ : ∃ e0 et, natDigits d.num.natAbs = e0 :: et := by
        cases hh : natDigits d.num.natAbs with
        | nil => exact absurd hh (natDigits_ne_nil _)
        | cons a b => exact ⟨a, b, rfl⟩
      have he0 : isDigitChar e0 = true := by
        apply natDigits_digits d.num.natAbs
        rw [hnd]; simp
      have hex := digit_excludes e0 he0
      rw [hform]
      rw [rustParseF64_undotted_core _ false (natDigits d.num.natAbs)
        (by rw [hnd]; exact splitSign_other e0 et hex.1 hex.2.1)
        (natDigits_ne_nil _) (natDigits_digits _)]
      rw [natVal_natDigits]
      rw [show (0 : ℕ) = d.exp from hexp.symm]
      rw [mkF64_abs_eq d hwf false (Or.inr ⟨rfl, by omega⟩)]
  · have hE : 1 ≤ d.exp := by omega
    obtain ⟨hfne, hfdig, hflen, hfval⟩ := renderDec_frac_facts d.num.natAbs d.exp hE
    have hmain : ∀ (neg : Bool) (s : Str),
        splitSign s = (neg, natDigits (d.num.natAbs / 10 ^ d.exp) ++ '.' ::
          (List.replicate (d.exp - (natDigits (d.num.natAbs % 10 ^ d.exp)).length) '0' ++
            natDigits (d.num.natAbs % 10 ^ d.exp))) →
        ((neg = true ∧ -(d.num.natAbs : ℤ) = d.num) ∨
          (neg = false ∧ (d.num.natAbs : ℤ) = d.num)) →
        rustParseF64 s = some (.finite d) := by
      intro neg s hsplit hsign
      rw [rustParseF64_dotted_core s neg _ _ hsplit (natDigits_ne_nil _) hfne
        (natDigits_digits _) hfdig]
      rw [hflen, hfval, natVal_natDigits, Nat.div_add_mod']
      rw [mkF64_abs_eq d hwf neg hsign]
    by_cases hneg : d.num < 0
    · have hform : renderDec d = '-' :: (natDigits (d.num.natAbs / 10 ^ d.exp) ++ '.' ::
          (List.replicate (d.exp - (natDigits (d.num.natAbs % 10 ^ d.exp)).length) '0' ++
            natDigits (d.num.natAbs % 10 ^ d.exp))) := by
        simp [renderDec, hexp, hneg]
      rw [hform]
      exact hmain true _ (splitSign_neg _) (Or.inl ⟨rfl, by omega⟩)
    · obtain ⟨e0, et, hnd⟩ : ∃ e0 et,
          natDigits (d.num.natAbs / 10 ^ d.exp) = e0 :: et := by
        cases hh : natDigits (d.num.natAbs / 10 ^ d.exp) with
        | nil => exact absurd hh (natDigits_ne_nil _)
        | cons a b => exact ⟨a, b, rfl⟩
      have he0 : isDigitChar e0 = true := by
        apply natDigits_digits
        rw [hnd]; simp
      have hex := digit_excludes e0 he0
      have hform : renderDec d = natDigits (d.num.natAbs / 10 ^ d.exp) ++ '.' ::
          (List.replicate (d.exp - (natDigits (d.num.natAbs % 10 ^ d.exp)).length) '0' ++
            natDigits (d.num.natAbs % 10 ^ d.exp)) := by
        simp [renderDec, hexp, hneg]
      rw [hform]
      apply hmain false _ ?_ (Or.inr ⟨rfl, by omega⟩)
      rw [hnd, List.cons_append]
      exact splitSign_other e0 _ hex.1 hex.2.1

end ParseRenderedFloat

section FiniteDoubleRender

variable {ε : Type} [ErrM ε]

theorem recognizeFloatInner_render (d : Dec) (rest : Str) (hstop : FloatStop rest) :
    recognizeFloatInner (ε := ε) (renderDec d ++ rest) = .ok rest () := by
  by_cases hexp : d.exp = 0
  · have hbody : floatBody (ε := ε) (natDigits d.num.natAbs ++ rest) = .ok rest () :=
      floatBody_undotted (natDigits_ne_nil _) (natDigits_digits _) hstop
    obtain ⟨e0, et, hnd⟩ : ∃ e0 et, natDigits d.num.natAbs = e0 :: et := by
      cases hh : natDigits d.num.natAbs with
      | nil => exact absurd hh (natDigits_ne_nil _)
      | cons a b => exact ⟨a, b, rfl⟩
    have he0 : isDigitChar e0 = true := by
      apply natDigits_digits d.num.natAbs
      rw [hnd]; simp
    by_cases hneg : d.num < 0
    · have hform : renderDec d = '-' :: natDigits d.num.natAbs := by
        simp [renderDec, hexp, hneg]
      rw [hform]
      exact recognizeFloatInner_neg hbody
    · have hform : renderDec d = natDigits d.num.natAbs := by
        simp [renderDec, hexp, hneg]
      rw [hform]
      exact recognizeFloatInner_digit_head hnd he0 hbody
  · have hE : 1 ≤ d.exp := by omega
    obtain ⟨hfne, hfdig, hflen, hfval⟩ := renderDec_frac_facts d.num.natAbs d.exp hE
    have hbody : floatBody (ε := ε) ((natDigits (d.num.natAbs / 10 ^ d.exp) ++ '.' ::
        (List.replicate (d.exp - (natDigits (d.num.natAbs % 10 ^ d.exp)).length) '0' ++
          natDigits (d.num.natAbs % 10 ^ d.exp))) ++ rest) = .ok rest () := by
      rw [List.append_assoc, List.cons_append]  -- reshape to ds ++ '.' :: (fs ++ rest)
      exact floatBody_dotted (natDigits_ne_nil _) hfne (natDigits_digits _) hfdig hstop
    obtain ⟨e0, et, hnd⟩ : ∃ e0 et,
        natDigits (d.num.natAbs / 10 ^ d.exp) = e0 :: et := by
      cases hh : natDigits (d.num.natAbs / 10 ^ d.exp) with
      | nil => exact absurd hh (natDigits_ne_nil _)
      | cons a b => exact ⟨a, b, rfl⟩
    have he0 : isDigitChar e0 = true := by
      apply natDigits_digits
      rw [hnd]; simp
    by_cases hneg : d.num < 0
    · have hform : renderDec d = '-' :: (natDigits (d.num.natAbs / 10 ^ d.exp) ++ '.' ::
          (List.replicate (d.exp - (natDigits (d.num.natAbs % 10 ^ d.exp)).length) '0' ++
            natDigits (d.num.natAbs % 10 ^ d.exp))) := by
        simp [renderDec, hexp, hneg]
      rw [hform]
      exact recognizeFloatInner_neg hbody
    · have hform : renderDec d = natDigits (d.num.natAbs / 10 ^ d.exp) ++ '.' ::
          (List.replicate (d.exp - (natDigits (d.num.natAbs % 10 ^ d.exp)).length) '0' ++
            natDigits (d.num.natAbs % 10 ^ d.exp)) := by
        simp [renderDec, hexp, hneg]
      rw [hform]
      exact recognizeFloatInner_digit_head (by rw [hnd, List.cons_append]) (he0) hbody

/-- Parsing back a rendered finite double yields the same exact decimal. -/
theorem finiteDoubleP_render (d : Dec) (hwf : DecWF d) (rest : Str) (hstop : FloatStop rest) :
    finiteDoubleP (ε := ε) (renderDec d ++ rest) = .ok rest d := by
  have hrec := recognizeFloat_lit (recognizeFloatInner_render (ε := ε) d rest hstop)
  have hparse := rustParseF64_render d hwf
  simp only [finiteDoubleP, hrec, hparse]

end FiniteDoubleRender

section SmallRenders

variable {ε : Type} [ErrM ε]

theorem charP_cons_eq (c : Char) (t : Str) : charP (ε := ε) c (c :: t) = .ok t c := by
  simp [charP]

theorem charP_cons_ne {a c : Char} (t : Str) (h : a ≠ c) :
    charP (ε := ε) c (a :: t) = .err (ErrM.fromChar (a :: t) c) :=
  charP_err_stop (fun t' hh => by injection hh with h1 h2; exact h h1)

theorem uintP_render (bound n : ℕ) (hn : n ≤ bound) (rest : Str)
    (hr : ∀ c t, rest = c :: t → isDigitChar c = false) :
    uintP (ε := ε) bound (natDigits n ++ rest) = .ok rest n := by
  have hsp := takeWhile_append_of_stop isDigitChar (natDigits n) rest (natDigits_digits n) hr
  simp only [uintP, hsp.1, hsp.2, natVal_natDigits]
  rw [if_neg (natDigits_ne_nil n), if_pos hn]

/-- Display of a `Rotation`. -/
def renderRot : Rotation → Char
  | .zero => '0' | .one => '1' | .two => '2' | .three => '3'

/-- Display of a `Flip`. -/
def renderFlip : Flip → Char
  | .unflipped => '0' | .flipped => '1'

theorem rotationP_render (r : Rotation) (rest : Str) :
    rotationP (ε := ε) (renderRot r :: rest) = .ok rest r := by
  cases r
  · simp only [rotationP, renderRot, ctxP, alt2, pmap, charP_cons_eq]
  · simp only [rotationP, renderRot, ctxP, alt2, pmap,
      charP_cons_ne rest (by decide : ('1' : Char) ≠ '0'), charP_cons_eq]
  · simp only [rotationP, renderRot, ctxP, alt2, pmap,
      charP_cons_ne rest (by decide : ('2' : Char) ≠ '0'),
      charP_cons_ne rest (by decide : ('2' : Char) ≠ '1'), charP_cons_eq]
  · simp only [rotationP, renderRot, ctxP, alt2, pmap,
      charP_cons_ne rest (by decide : ('3' : Char) ≠ '0'),
      charP_cons_ne rest (by decide : ('3' : Char) ≠ '1'),
      charP_cons_ne rest (by decide : ('3' : Char) ≠ '2'), charP_cons_eq]

theorem flipP_render (fl : Flip) (rest : Str) :
    flipP (ε := ε) (renderFlip fl :: rest) = .ok rest fl := by
  cases fl
  · simp only [flipP, renderFlip, ctxP, alt2, pmap, charP_cons_eq]
  · simp only [flipP, renderFlip, ctxP, alt2, pmap,
      charP_cons_ne rest (by decide : ('1' : Char) ≠ '0'), charP_cons_eq]

end SmallRenders

section PropScan

variable {ε : Type} [ErrM ε]

theorem noneOfE_bs (t : Str) :
    noneOfP (ε := ε) ESCAPED_CHARS ('\\' :: t) =
      .err (ErrM.fromKind ('\\' :: t) .noneOf) :=
  noneOfP_err_of (by simp [ESCAPED_CHARS])

/-- The property scanner accepts a well-formed body: it stops exactly at
a following closing brace (first part), and consumes everything when the
body runs to the end of the input (second part). -/
theorem escLoop_propstr_wf {s : Str} (hwf : PropWF s) :
    ∀ fuel input, 2 * s.length + 2 ≤ fuel →
      (∀ rest, escLoop (noneOfP (ε := ε) ESCAPED_CHARS) (oneOfP ESCAPED_CHARS) '\\' input
          fuel false (s ++ '\x7d' :: rest) =
        .ok ('\x7d' :: rest) (input.take (input.length - ('\x7d' :: rest).length))) ∧
      escLoop (noneOfP (ε := ε) ESCAPED_CHARS) (oneOfP ESCAPED_CHARS) '\\' input fuel
          false s =
        .ok [] input := by
  induction hwf with
  | nil =>
    intro fuel input hfuel
    cases fuel with
    | zero => omega
    | succ n =>
      constructor
      · intro rest
        exact escLoop_step_stop (noneOfP_err_of (by simp [ESCAPED_CHARS]))
          (by decide) n false
      · simp [escLoop]
  | normal c t h1 h2 h3 ht ih =>
    intro fuel input hfuel
    cases fuel with
    | zero => omega
    | succ n =>
      have hnotin : c ∉ ESCAPED_CHARS := by
        simp [ESCAPED_CHARS]
        exact ⟨h1, h2, h3⟩
      have ihn := ih n input (by simp only [List.length_cons] at hfuel; omega)
      constructor
      · intro rest
        rw [List.cons_append]
        rw [escLoop_step_normal (noneOfP_ok_of hnotin) (by simp) (by simp) n]
        exact ihn.1 rest
      · cases ht2 : t with
        | nil =>
          subst ht2
          exact escLoop_step_normal_end (noneOfP_ok_of hnotin) n
        | cons a b =>
          rw [← ht2]
          rw [escLoop_step_normal (noneOfP_ok_of hnotin) (by rw [ht2]; simp)
            (by simp) n]
          exact ihn.2
  | esc c t hc ht ih =>
    intro fuel input hfuel
    have hcmem : c ∈ ESCAPED_CHARS := by
      simp only [ESCAPED_CHARS]
      rcases hc with hc | hc | hc <;> simp [hc]
    cases fuel with
    | zero => omega
    | succ n =>
      have ihn := ih n input (by simp only [List.length_cons] at hfuel; omega)
      constructor
      · intro rest
        rw [show ('\\' :: c :: t) ++ '\x7d' :: rest =
          '\\' :: (c :: (t ++ '\x7d' :: rest)) by simp]
        rw [escLoop_step_escape (noneOfE_bs _) (by simp)
          (oneOfP_ok_of hcmem) (by simp) n false]
        exact ihn.1 rest
      · cases ht2 : t with
        | nil =>
          subst ht2
          exact escLoop_step_escape_end (noneOfE_bs _) (by simp)
            (oneOfP_ok_of hcmem) n false
        | cons a b =>
          rw [← ht2]
          rw [escLoop_step_escape (noneOfE_bs _) (by simp)
            (oneOfP_ok_of hcmem) (by rw [ht2]; simp) n false]
          exact ihn.2

/-- The `property_string` scanner on a well-formed body followed by the
closing brace. -/
theorem propertyStringP_wf (s rest : Str) (hwf : PropWF s) :
    propertyStringP (ε := ε) (s ++ '\x7d' :: rest) = .ok ('\x7d' :: rest) s := by
  have hscan := (escLoop_propstr_wf (ε := ε) hwf (2 * (s ++ '\x7d' :: rest).length + 2)
      (s ++ '\x7d' :: rest) (by simp only [List.length_append, List.length_cons]; omega)).1 rest
  show escLoop (noneOfP ESCAPED_CHARS) (oneOfP ESCAPED_CHARS) '\\' (s ++ '\x7d' :: rest)
      (2 * (s ++ '\x7d' :: rest).length + 2) false (s ++ '\x7d' :: rest) =
    .ok ('\x7d' :: rest) s
  rw [hscan]
  congr 1
  simp only [List.length_append, List.length_cons]
  rw [show s.length + (rest.length + 1) - (rest.length + 1) = s.length by omega]
  exact List.take_left s ('\x7d' :: rest)

theorem braceEnclosed_propstr_render (nm : String) (s rest : Str) (hwf : PropWF s) :
    braceEnclosed (ctxP nm (propertyStringP (ε := ε))) ('\x7b' :: (s ++ '\x7d' :: rest)) =
      .ok rest s := by
  have hps := propertyStringP_wf (ε := ε) s rest hwf
  simp only [braceEnclosed, precededP, bindP, cutP, terminatedP, ctxP, pmap,
    charP_cons_eq, hps]

/-- Well-formed parsed properties: scannable body whose attribute re-scan
rebuilds exactly the stored map. -/
def PropertyWF (p : Property) : Prop :=
  PropWF p.prop ∧ attributesP p.prop = .ok [] p.attrs

theorem propertyP_render (p : Property) (hwf : PropertyWF p) (rest : Str) :
    propertyP ('\x7b' :: (p.prop ++ '\x7d' :: rest)) = .ok rest p := by
  have hbe := braceEnclosed_propstr_render (ε := PError) "property" p.prop rest hwf.1
  simp only [propertyP, hbe, hwf.2]
  simp

theorem textP_render (s rest : Str) (hwf : PropWF s) :
    textP ('\x7b' :: (s ++ '\x7d' :: rest)) = .ok rest s :=
  braceEnclosed_propstr_render "text" s rest hwf

theorem referenceP_render (s rest : Str) (hwf : PropWF s) :
    referenceP ('\x7b' :: (s ++ '\x7d' :: rest)) = .ok rest s :=
  braceEnclosed_propstr_render "reference" s rest hwf

end PropScan

section Vec2Render

variable {ε : Type} [ErrM ε]

def Vec2WF (v : Vec2) : Prop := DecWF v.x ∧ DecWF v.y

/-- Display of a `Vec2` ("x y"). -/
def renderVec2 (v : Vec2) : Str := renderDec v.x ++ ' ' :: renderDec v.y

theorem digit_not_ws (c : Char) (h : isDigitChar c = true) : isWsChar c = false := by
  by_contra hcon
  rw [Bool.not_eq_false] at hcon
  simp only [isWsChar, Bool.or_eq_true, beq_iff_eq] at hcon
  rcases hcon with ((hc | hc) | hc) | hc <;> subst hc <;> revert h <;> decide

theorem multispace1_run (w rest : Str) (hne : w ≠ []) (hw : ∀ c ∈ w, isWsChar c = true)
    (hr : ∀ c t, rest = c :: t → isWsChar c = false) :
    multispace1 (ε := ε) (w ++ rest) = .ok rest w := by
  have hsp := takeWhile_append_of_stop isWsChar w rest hw hr
  simp only [multispace1, takeWhile1K, hsp.1, hsp.2, if_neg hne]

theorem space1_run (w rest : Str) (hne : w ≠ []) (hw : ∀ c ∈ w, isSpChar c = true)
    (hr : ∀ c t, rest = c :: t → isSpChar c = false) :
    space1 (ε := ε) (w ++ rest) = .ok rest w := by
  have hsp := takeWhile_append_of_stop isSpChar w rest hw hr
  simp only [space1, takeWhile1K, hsp.1, hsp.2, if_neg hne]

/-- The head character of a rendered decimal: a minus sign or a digit. -/
theorem renderDec_head (d : Dec) :
    ∃ c t, renderDec d = c :: t ∧ (c = '-' ∨ isDigitChar c = true) := by
  by_cases hneg : d.num < 0
  · have hform : ∃ t, renderDec d = '-' :: t := by
      simp only [renderDec, if_pos hneg, List.cons_append, List.nil_append]
      exact ⟨_, rfl⟩
    obtain ⟨t, ht⟩ := hform
    exact ⟨'-', t, ht, Or.inl rfl⟩
  · have hnil : (if d.num < 0 then ['-'] else []) = [] := if_neg hneg
    by_cases hexp : d.exp = 0
    · obtain ⟨e0, et, hnd⟩ : ∃ e0 et, natDigits d.num.natAbs = e0 :: et := by
        cases hh : natDigits d.num.natAbs with
        | nil => exact absurd hh (natDigits_ne_nil _)
        | cons a b => exact ⟨a, b, rfl⟩
      have hform : ∃ t, renderDec d = e0 :: t := by
        simp only [renderDec, hnil, List.nil_append, if_pos hexp, hnd]
        exact ⟨_, rfl⟩
      obtain ⟨t, ht⟩ := hform
      refine ⟨e0, t, ht, Or.inr ?_⟩
      apply natDigits_digits d.num.natAbs
      rw [hnd]; simp
    · obtain ⟨e0, et, hnd⟩ : ∃ e0 et,
          natDigits (d.num.natAbs / 10 ^ d.exp) = e0 :: et := by
        cases hh : natDigits (d.num.natAbs / 10 ^ d.exp) with
        | nil => exact absurd hh (natDigits_ne_nil _)
        | cons a b => exact ⟨a, b, rfl⟩
      have hform : ∃ t, renderDec d = e0 :: t := by
        simp only [renderDec, hnil, List.nil_append, if_neg hexp, hnd, List.cons_append]
        exact ⟨_, rfl⟩
      obtain ⟨t, ht⟩ := hform
      refine ⟨e0, t, ht, Or.inr ?_⟩
      apply natDigits_digits
      rw [hnd]; simp

theorem renderDec_head_not_ws (d : Dec) (rest : Str) :
    ∀ c t, renderDec d ++ rest = c :: t → isWsChar c = false := by
  obtain ⟨c0, t0, hform, hc0⟩ := renderDec_head d
  intro c t hct
  rw [hform, List.cons_append] at hct
  injection hct with h1 h2
  subst h1
  rcases hc0 with hc | hc
  · subst hc; decide
  · exact digit_not_ws c0 hc

theorem floatStop_space (X : Str) : FloatStop (' ' :: X) := by
  intro c t hct
  injection hct with h1 h2
  subst h1
  refine ⟨by decide, by decide, by decide, by decide⟩

theorem vec2P_render (v : Vec2) (hwf : Vec2WF v) (rest : Str) (hstop : FloatStop rest) :
    vec2P (ε := ε) (renderVec2 v ++ rest) = .ok rest v := by
  have hx : finiteDoubleP (ε := ε) (renderDec v.x ++ (' ' :: (renderDec v.y ++ rest))) =
      .ok (' ' :: (renderDec v.y ++ rest)) v.x :=
    finiteDoubleP_render v.x hwf.1 _ (floatStop_space _)
  have hms : multispace1 (ε := ε) (' ' :: (renderDec v.y ++ rest)) =
      .ok (renderDec v.y ++ rest) [' '] :=
    multispace1_run [' '] _ (by decide) (by decide) (renderDec_head_not_ws v.y rest)
  have hy : finiteDoubleP (ε := ε) (renderDec v.y ++ rest) = .ok rest v.y :=
    finiteDoubleP_render v.y hwf.2 _ hstop
  rw [show renderVec2 v ++ rest = renderDec v.x ++ (' ' :: (renderDec v.y ++ rest)) by
    simp [renderVec2]]
  simp only [vec2P, separatedPairP, precededP, bindP, pmap, hx, hms, hy]

theorem coordinateP_render (v : Vec2) (hwf : Vec2WF v) (rest : Str) (hstop : FloatStop rest) :
    coordinateP (ε := ε) (renderVec2 v ++ rest) = .ok rest v := by
  simp only [coordinateP, ctxP, vec2P_render v hwf rest hstop]

theorem sizeVecP_render (v : Vec2) (hwf : Vec2WF v) (rest : Str) (hstop : FloatStop rest) :
    sizeVecP (ε := ε) (renderVec2 v ++ rest) = .ok rest v := by
  simp only [sizeVecP, ctxP, vec2P_render v hwf rest hstop]

end Vec2Render

section RenderDefs

/-- Display of a `Property` (`\x7b...\x7d`). -/
def renderProp (p : Property) : Str := '\x7b' :: (p.prop ++ ['\x7d'])

/-- Display of an `Arc`. -/
def renderArc (a : Arc) : Str :=
  'A' :: ' ' :: (natDigits a.layer ++ ' ' :: (renderVec2 a.center ++ ' ' ::
    (renderDec a.radius ++ ' ' :: (renderDec a.start_angle ++ ' ' ::
      (renderDec a.sweep_angle ++ ' ' :: renderProp a.property)))))

/-- Display of a `Line`. -/
def renderLine (l : Line) : Str :=
  'L' :: ' ' :: (natDigits l.layer ++ ' ' :: (renderVec2 l.start ++ ' ' ::
    (renderVec2 l.endPt ++ ' ' :: renderProp l.property)))

/-- Display of a `Rectangle`. -/
def renderRect (r : Rectangle) : Str :=
  'B' :: ' ' :: (natDigits r.layer ++ ' ' :: (renderVec2 r.start ++ ' ' ::
    (renderVec2 r.endPt ++ ' ' :: renderProp r.property)))

/-- Display of a `Text`. -/
def renderText (t : Text) : Str :=
  'T' :: ' ' :: ('\x7b' :: (t.text ++ '\x7d' :: ' ' :: (renderVec2 t.position ++ ' ' ::
    renderRot t.rotation :: ' ' :: renderFlip t.flip :: ' ' ::
      (renderVec2 t.size ++ ' ' :: renderProp t.property))))

/-- Display of a `Wire`. -/
def renderWire (w : Wire) : Str :=
  'N' :: ' ' :: (renderVec2 w.start ++ ' ' :: (renderVec2 w.endPt ++ ' ' ::
    renderProp w.property))

/-- Display of a `Coordinates` list (space-separated). -/
def renderPoints : List Vec2 → Str
  | [] => []
  | [v] => renderVec2 v
  | v :: vs => renderVec2 v ++ ' ' :: renderPoints vs

/-- Display of a `Polygon` (the count is the length of the points). -/
def renderPoly (p : Polygon) : Str :=
  'P' :: ' ' :: (natDigits p.layer ++ ' ' :: (natDigits p.points.length ++ ' ' ::
    (renderPoints p.points ++ ' ' :: renderProp p.property)))

/-- Display of an `Embedding` slot, parameterised by the schematic
renderer. -/
def renderEmbW (sub : Schematic → Str) : Option Schematic → Str
  | none => []
  | some e => '\n' :: '[' :: '\n' :: (sub e ++ '\n' :: [']'])

/-- Display of a `Component`, parameterised by the schematic renderer
used for the embedding. -/
def renderCompW (sub : Schematic → Str) (c : Component) : Str :=
  'C' :: ' ' :: ('\x7b' :: (c.reference ++ '\x7d' :: ' ' :: (renderVec2 c.position ++ ' ' ::
    renderRot c.rotation :: ' ' :: renderFlip c.flip :: ' ' ::
      (renderProp c.property ++ renderEmbW sub c.embedding))))

/-- Display of an `Object`. -/
def renderObjW (sub : Schematic → Str) : Object → Str
  | .vhdlProp p => 'G' :: ' ' :: renderProp p
  | .symbolProp p => 'K' :: ' ' :: renderProp p
  | .verilogProp p => 'V' :: ' ' :: renderProp p
  | .spiceProp p => 'S' :: ' ' :: renderProp p
  | .tedaxProp p => 'E' :: ' ' :: renderProp p
  | .arc a => renderArc a
  | .component c => renderCompW sub c
  | .line l => renderLine l
  | .polygon p => renderPoly p
  | .rectangle r => renderRect r
  | .text t => renderText t
  | .wire w => renderWire w

/-- The objects of a schematic in `Display` order: the five singleton
slots, then texts, lines, rectangles, polygons, arcs, wires, components. -/
def objList : Schematic → List Object
  | .mk _ g k vl sp te ts ls rs ps ar ws cs =>
    g.toList.map Object.vhdlProp ++ k.toList.map Object.symbolProp ++
    vl.toList.map Object.verilogProp ++ sp.toList.map Object.spiceProp ++
    te.toList.map Object.tedaxProp ++ ts.map Object.text ++ ls.map Object.line ++
    rs.map Object.rectangle ++ ps.map Object.polygon ++ ar.map Object.arc ++
    ws.map Object.wire ++ cs.map Object.component

/-- Newline-prefixed rendering of an object list (as in `Schematic`'s
`Display`: every object after the version is preceded by a newline). -/
def renderObjListW (sub : Schematic → Str) : List Object → Str
  | [] => []
  | o :: rest => '\n' :: (renderObjW sub o ++ renderObjListW sub rest)

/-- One level of `Schematic` display. -/
def renderSW (sub : Schematic → Str) (s : Schematic) : Str :=
  ('v' :: ' ' :: renderProp s.version.vp) ++ renderObjListW sub (objList s)

/-- Fuelled `Schematic` display (fuel bounds the embedding depth). -/
def renderSF : ℕ → Schematic → Str
  | 0, _ => []
  | fuel + 1, s => renderSW (renderSF fuel) s

mutual
/-- Structural size of a schematic, decreasing into embeddings. -/
def schSize : Schematic → ℕ
  | .mk _ _ _ _ _ _ _ _ _ _ _ _ cs => 1 + compsSize cs

def compsSize : List Component → ℕ
  | [] => 0
  | c :: rest => compSize c + compsSize rest

def compSize : Component → ℕ
  | ⟨_, _, _, _, _, none⟩ => 1
  | ⟨_, _, _, _, _, some e⟩ => 1 + schSize e
end

/-- `Schematic` display: `schSize` strictly drops at each embedding, so
it is always enough fuel. -/
def renderS (s : Schematic) : Str := renderSF (schSize s) s

/-- Direct embedding relation between schematics. -/
def EmbeddedIn (e s : Schematic) : Prop := ∃ c ∈ s.components, c.embedding = some e

theorem schSize_pos (s : Schematic) : 1 ≤ schSize s := by
  cases s
  simp [schSize]

theorem compSize_le_compsSize {c : Component} {cs : List Component} (hc : c ∈ cs) :
    compSize c ≤ compsSize cs := by
  induction cs with
  | nil => cases hc
  | cons c2 rest ih =>
    rcases List.mem_cons.mp hc with hc2 | hc2
    · subst hc2
      simp [compsSize]
    · have := ih hc2
      simp only [compsSize]
      omega

theorem embedded_schSize_lt {e s : Schematic} (h : EmbeddedIn e s) :
    schSize e < schSize s := by
  obtain ⟨c, hc, hemb⟩ := h
  cases s with
  | mk v g k vl sp te ts ls rs ps ar ws cs =>
    simp only [Schematic.components] at hc
    have h1 : compSize c ≤ compsSize cs := compSize_le_compsSize hc
    have h2 : schSize e < compSize c := by
      cases c with
      | mk ref pos rot fl prop emb =>
        simp only [ComponentG.embedding] at hemb
        subst hemb
        simp [compSize]
    have h3 : schSize (Schematic.mk v g k vl sp te ts ls rs ps ar ws cs) =
        1 + compsSize cs := by
      simp [schSize]
    omega

theorem component_mem_objList {c : Component} {s : Schematic}
    (h : Object.component c ∈ objList s) : c ∈ s.components := by
  cases s with
  | mk v g k vl sp te ts ls rs ps ar ws cs =>
    simp only [objList, List.mem_append, List.mem_map] at h
    simp only [Schematic.components]
    rcases h with ((((((((((h | h) | h) | h) | h) | h) | h) | h) | h) | h) | h) | h <;>
      first
        | (obtain ⟨x, hx, heq⟩ := h; cases heq; exact hx)
        | (obtain ⟨x, hx, heq⟩ := h; cases heq)

theorem renderObjListW_congr (sub1 sub2 : Schematic → Str) (os : List Object)
    (h : ∀ o ∈ os, renderObjW sub1 o = renderObjW sub2 o) :
    renderObjListW sub1 os = renderObjListW sub2 os := by
  induction os with
  | nil => rfl
  | cons o rest ih =>
    simp only [renderObjListW]
    rw [h o (by simp), ih (fun o2 ho2 => h o2 (by simp [ho2]))]

theorem renderSW_congr (sub1 sub2 : Schematic → Str) (s : Schematic)
    (h : ∀ e, EmbeddedIn e s → sub1 e = sub2 e) :
    renderSW sub1 s = renderSW sub2 s := by
  unfold renderSW
  congr 1
  apply renderObjListW_congr
  intro o ho
  cases o with
  | component c =>
    have hc := component_mem_objList ho
    simp only [renderObjW, renderCompW]
    cases hemb : c.embedding with
    | none => rfl
    | some e =>
      have he : EmbeddedIn e s := ⟨c, hc, hemb⟩
      simp only [renderEmbW, h e he]
  | _ => rfl

theorem renderSF_eq_renderS : ∀ f (s : Schematic), schSize s ≤ f → renderSF f s = renderS s := by
  intro f
  induction f using Nat.strong_induction_on with
  | _ f ih =>
    intro s hs
    have h1 := schSize_pos s
    cases hf : f with
    | zero => omega
    | succ f2 =>
      subst hf
      cases hsz : schSize s with
      | zero => omega
      | succ m =>
        show renderSW (renderSF f2) s = renderS s
        unfold renderS
        rw [hsz]
        show renderSW (renderSF f2) s = renderSW (renderSF m) s
        apply renderSW_congr
        intro e he
        have hlt : schSize e < schSize s := embedded_schSize_lt he
        rw [ih f2 (by omega) e (by omega), ih m (by omega) e (by omega)]

end RenderDefs

section ObjectWF

/-- Well-formedness of parsed tokens: every number is a canonical
non-overflowing decimal, every count fits `u64`, and every raw span is
scannable back. -/
def TextWF (t : Text) : Prop :=
  PropWF t.text ∧ Vec2WF t.position ∧ Vec2WF t.size ∧ PropertyWF t.property

def LineWF (l : Line) : Prop :=
  l.layer ≤ u64Bound ∧ Vec2WF l.start ∧ Vec2WF l.endPt ∧ PropertyWF l.property

def RectangleWF (r : Rectangle) : Prop :=
  r.layer ≤ u64Bound ∧ Vec2WF r.start ∧ Vec2WF r.endPt ∧ PropertyWF r.property

def ArcWF (a : Arc) : Prop :=
  a.layer ≤ u64Bound ∧ Vec2WF a.center ∧ DecWF a.radius ∧ DecWF a.start_angle ∧
    DecWF a.sweep_angle ∧ PropertyWF a.property

def WireWF (w : Wire) : Prop :=
  Vec2WF w.start ∧ Vec2WF w.endPt ∧ PropertyWF w.property

def PolygonWF (p : Polygon) : Prop :=
  p.layer ≤ u64Bound ∧ p.points.length ≤ u64Bound ∧ (∀ v ∈ p.points, Vec2WF v) ∧
    PropertyWF p.property

/-- Well-formed schematics (recursively through embeddings). -/
inductive SchWF : Schematic → Prop where
  | mk (v : Version) (g k vl sp te : Option Property) (ts : List Text) (ls : List Line)
      (rs : List Rectangle) (ps : List Polygon) (ar : List Arc) (ws : List Wire)
      (cs : List Component)
      (hv : PropertyWF v.vp)
      (hg : ∀ p ∈ g, PropertyWF p) (hk : ∀ p ∈ k, PropertyWF p)
      (hvl : ∀ p ∈ vl, PropertyWF p) (hsp : ∀ p ∈ sp, PropertyWF p)
      (hte : ∀ p ∈ te, PropertyWF p)
      (hts : ∀ t ∈ ts, TextWF t) (hls : ∀ l ∈ ls, LineWF l)
      (hrs : ∀ r ∈ rs, RectangleWF r) (hps : ∀ p ∈ ps, PolygonWF p)
      (har : ∀ a ∈ ar, ArcWF a) (hws : ∀ w ∈ ws, WireWF w)
      (hcs : ∀ c ∈ cs, PropWF c.reference ∧ Vec2WF c.position ∧ PropertyWF c.property)
      (hemb : ∀ c ∈ cs, ∀ e ∈ c.embedding, SchWF e) :
      SchWF (.mk v g k vl sp te ts ls rs ps ar ws cs)

end ObjectWF

section HeadFacts

variable {ε : Type} [ErrM ε]

theorem renderProp_append (p : Property) (rest : Str) :
    renderProp p ++ rest = '\x7b' :: (p.prop ++ '\x7d' :: rest) := by
  simp [renderProp]

theorem digit_not_sp (c : Char) (h : isDigitChar c = true) : isSpChar c = false := by
  by_contra hcon
  rw [Bool.not_eq_false] at hcon
  simp only [isSpChar, Bool.or_eq_true, beq_iff_eq] at hcon
  rcases hcon with hc | hc <;> subst hc <;> revert h <;> decide

theorem renderVec2_append (v : Vec2) (X : Str) :
    renderVec2 v ++ X = renderDec v.x ++ (' ' :: (renderDec v.y ++ X)) := by
  simp [renderVec2]

theorem renderVec2_head_not_ws (v : Vec2) (X : Str) :
    ∀ c t, renderVec2 v ++ X = c :: t → isWsChar c = false := by
  intro c t h
  rw [renderVec2_append] at h
  exact renderDec_head_not_ws v.x _ c t h

theorem renderDec_head_not_sp (d : Dec) (X : Str) :
    ∀ c t, renderDec d ++ X = c :: t → isSpChar c = false := by
  obtain ⟨c0, t0, hform, hc0⟩ := renderDec_head d
  intro c t hct
  rw [hform, List.cons_append] at hct
  injection hct with h1 h2
  subst h1
  rcases hc0 with hc | hc
  · subst hc; decide
  · exact digit_not_sp c0 hc

theorem renderVec2_head_not_sp (v : Vec2) (X : Str) :
    ∀ c t, renderVec2 v ++ X = c :: t → isSpChar c = false := by
  intro c t h
  rw [renderVec2_append] at h
  exact renderDec_head_not_sp v.x _ c t h

theorem natDigits_head_not_ws (n : ℕ) (X : Str) :
    ∀ c t, natDigits n ++ X = c :: t → isWsChar c = false := by
  obtain ⟨e0, et, hnd⟩ : ∃ e0 et, natDigits n = e0 :: et := by
    cases hh : natDigits n with
    | nil => exact absurd hh (natDigits_ne_nil _)
    | cons a b => exact ⟨a, b, rfl⟩
  intro c t h
  rw [hnd, List.cons_append] at h
  injection h with h1 h2
  subst h1
  apply digit_not_ws
  apply natDigits_digits n
  rw [hnd]; simp

theorem renderProp_head_not_ws (p : Property) (X : Str) :
    ∀ c t, renderProp p ++ X = c :: t → isWsChar c = false := by
  intro c t h
  rw [renderProp_append] at h
  injection h with h1 h2
  subst h1
  decide

theorem brace_head_not_ws (s X : Str) :
    ∀ c t, '\x7b' :: (s ++ X) = c :: t → isWsChar c = false := by
  intro c t h
  injection h with h1 h2
  subst h1
  decide

theorem ws1_cons (X : Str) (hX : ∀ c t, X = c :: t → isWsChar c = false) :
    multispace1 (ε := ε) (' ' :: X) = .ok X [' '] :=
  multispace1_run [' '] X (by decide) (by decide) hX

end HeadFacts

section ObjectRender

theorem propertyP_render_app (p : Property) (hwf : PropertyWF p) (rest : Str) :
    propertyP (renderProp p ++ rest) = .ok rest p := by
  rw [renderProp_append]
  exact propertyP_render p hwf rest

/-- Equation lemma for `objectP` on a cons. -/
theorem objectP_tag {ε α : Type} [ErrM ε] (name : String) (t : Char) (p : P ε α)
    {i2 rest : Str} {v : α} (hbody : p i2 = .ok rest v) :
    objectP name t p (t :: i2) = .ok rest v := by
  simp only [objectP, ctxP, precededP, bindP, charP_cons_eq, cutP, hbody]

theorem wireObjectP_render (w : Wire) (hwf : WireWF w) (rest : Str) :
    wireObjectP (renderWire w ++ rest) = .ok rest w := by
  have hprop := propertyP_render_app w.property hwf.2.2 rest
  have hms3 : multispace1 (ε := PError) (' ' :: (renderProp w.property ++ rest)) =
      .ok (renderProp w.property ++ rest) [' '] :=
    ws1_cons _ (renderProp_head_not_ws _ _)
  have hen := coordinateP_render (ε := PError) w.endPt hwf.2.1
    (' ' :: (renderProp w.property ++ rest)) (floatStop_space _)
  have hms2 : multispace1 (ε := PError)
      (' ' :: (renderVec2 w.endPt ++ (' ' :: (renderProp w.property ++ rest)))) =
      .ok (renderVec2 w.endPt ++ (' ' :: (renderProp w.property ++ rest))) [' '] :=
    ws1_cons _ (renderVec2_head_not_ws _ _)
  have hst := coordinateP_render (ε := PError) w.start hwf.1
    (' ' :: (renderVec2 w.endPt ++ (' ' :: (renderProp w.property ++ rest))))
    (floatStop_space _)
  rw [show renderWire w ++ rest = 'N' :: ' ' :: (renderVec2 w.start ++
    (' ' :: (renderVec2 w.endPt ++ (' ' :: (renderProp w.property ++ rest))))) by
    simp [renderWire]]
  apply objectP_tag
  simp only [bindP, precededP, pmap, ws1_cons _ (renderVec2_head_not_ws w.start _),
    hst, hms2, hen, hms3, hprop]

end ObjectRender

section ObjectRender2

theorem space_not_digit : ∀ (X : Str) c t, (' ' :: X) = c :: t → isDigitChar c = false := by
  intro X c t h
  injection h with h1 h2
  subst h1
  decide

theorem renderRot_digit (r : Rotation) : isDigitChar (renderRot r) = true := by
  cases r <;> decide

theorem renderFlip_digit (fl : Flip) : isDigitChar (renderFlip fl) = true := by
  cases fl <;> decide

theorem lineObjectP_render (l : Line) (hwf : LineWF l) (rest : Str) :
    lineObjectP (renderLine l ++ rest) = .ok rest l := by
  have hprop := propertyP_render_app l.property hwf.2.2.2 rest
  have hms4 : multispace1 (ε := PError) (' ' :: (renderProp l.property ++ rest)) =
      .ok (renderProp l.property ++ rest) [' '] :=
    ws1_cons _ (renderProp_head_not_ws _ _)
  have hen := coordinateP_render (ε := PError) l.endPt hwf.2.2.1
    (' ' :: (renderProp l.property ++ rest)) (floatStop_space _)
  have hms3 : multispace1 (ε := PError)
      (' ' :: (renderVec2 l.endPt ++ (' ' :: (renderProp l.property ++ rest)))) =
      .ok (renderVec2 l.endPt ++ (' ' :: (renderProp l.property ++ rest))) [' '] :=
    ws1_cons _ (renderVec2_head_not_ws _ _)
  have hst := coordinateP_render (ε := PError) l.start hwf.2.1
    (' ' :: (renderVec2 l.endPt ++ (' ' :: (renderProp l.property ++ rest))))
    (floatStop_space _)
  have hms2 : multispace1 (ε := PError)
      (' ' :: (renderVec2 l.start ++ (' ' :: (renderVec2 l.endPt ++
        (' ' :: (renderProp l.property ++ rest)))))) =
      .ok (renderVec2 l.start ++ (' ' :: (renderVec2 l.endPt ++
        (' ' :: (renderProp l.property ++ rest))))) [' '] :=
    ws1_cons _ (renderVec2_head_not_ws _ _)
  have hlay : layerP (ε := PError) (natDigits l.layer ++
      (' ' :: (renderVec2 l.start ++ (' ' :: (renderVec2 l.endPt ++
        (' ' :: (renderProp l.property ++ rest))))))) =
      .ok (' ' :: (renderVec2 l.start ++ (' ' :: (renderVec2 l.endPt ++
        (' ' :: (renderProp l.property ++ rest)))))) l.layer := by
    simp only [layerP, u64P]
    exact uintP_render u64Bound l.layer hwf.1 _ (space_not_digit _)
  rw [show renderLine l ++ rest = 'L' :: ' ' :: (natDigits l.layer ++
    (' ' :: (renderVec2 l.start ++ (' ' :: (renderVec2 l.endPt ++
      (' ' :: (renderProp l.property ++ rest))))))) by simp [renderLine]]
  apply objectP_tag
  simp only [bindP, precededP, pmap, ws1_cons _ (natDigits_head_not_ws l.layer _),
    hlay, hms2, hst, hms3, hen, hms4, hprop]

theorem rectangleObjectP_render (r : Rectangle) (hwf : RectangleWF r) (rest : Str) :
    rectangleObjectP (renderRect r ++ rest) = .ok rest r := by
  have hprop := propertyP_render_app r.property hwf.2.2.2 rest
  have hms4 : multispace1 (ε := PError) (' ' :: (renderProp r.property ++ rest)) =
      .ok (renderProp r.property ++ rest) [' '] :=
    ws1_cons _ (renderProp_head_not_ws _ _)
  have hen := coordinateP_render (ε := PError) r.endPt hwf.2.2.1
    (' ' :: (renderProp r.property ++ rest)) (floatStop_space _)
  have hms3 : multispace1 (ε := PError)
      (' ' :: (renderVec2 r.endPt ++ (' ' :: (renderProp r.property ++ rest)))) =
      .ok (renderVec2 r.endPt ++ (' ' :: (renderProp r.property ++ rest))) [' '] :=
    ws1_cons _ (renderVec2_head_not_ws _ _)
  have hst := coordinateP_render (ε := PError) r.start hwf.2.1
    (' ' :: (renderVec2 r.endPt ++ (' ' :: (renderProp r.property ++ rest))))
    (floatStop_space _)
  have hms2 : multispace1 (ε := PError)
      (' ' :: (renderVec2 r.start ++ (' ' :: (renderVec2 r.endPt ++
        (' ' :: (renderProp r.property ++ rest)))))) =
      .ok (renderVec2 r.start ++ (' ' :: (renderVec2 r.endPt ++
        (' ' :: (renderProp r.property ++ rest))))) [' '] :=
    ws1_cons _ (renderVec2_head_not_ws _ _)
  have hlay : layerP (ε := PError) (natDigits r.layer ++
      (' ' :: (renderVec2 r.start ++ (' ' :: (renderVec2 r.endPt ++
        (' ' :: (renderProp r.property ++ rest))))))) =
      .ok (' ' :: (renderVec2 r.start ++ (' ' :: (renderVec2 r.endPt ++
        (' ' :: (renderProp r.property ++ rest)))))) r.layer := by
    simp only [layerP, u64P]
    exact uintP_render u64Bound r.layer hwf.1 _ (space_not_digit _)
  rw [show renderRect r ++ rest = 'B' :: ' ' :: (natDigits r.layer ++
    (' ' :: (renderVec2 r.start ++ (' ' :: (renderVec2 r.endPt ++
      (' ' :: (renderProp r.property ++ rest))))))) by simp [renderRect]]
  apply objectP_tag
  simp only [bindP, precededP, pmap, ws1_cons _ (natDigits_head_not_ws r.layer _),
    hlay, hms2, hst, hms3, hen, hms4, hprop]

theorem arcObjectP_render (a : Arc) (hwf : ArcWF a) (rest : Str) :
    arcObjectP (renderArc a ++ rest) = .ok rest a := by
  have hprop := propertyP_render_app a.property hwf.2.2.2.2.2 rest
  have hms6 : multispace1 (ε := PError) (' ' :: (renderProp a.property ++ rest)) =
      .ok (renderProp a.property ++ rest) [' '] :=
    ws1_cons _ (renderProp_head_not_ws _ _)
  have hsw := finiteDoubleP_render (ε := PError) a.sweep_angle hwf.2.2.2.2.1
    (' ' :: (renderProp a.property ++ rest)) (floatStop_space _)
  have hms5 : multispace1 (ε := PError)
      (' ' :: (renderDec a.sweep_angle ++ (' ' :: (renderProp a.property ++ rest)))) =
      .ok (renderDec a.sweep_angle ++ (' ' :: (renderProp a.property ++ rest))) [' '] :=
    ws1_cons _ (renderDec_head_not_ws _ _)
  have hsa := finiteDoubleP_render (ε := PError) a.start_angle hwf.2.2.2.1
    (' ' :: (renderDec a.sweep_angle ++ (' ' :: (renderProp a.property ++ rest))))
    (floatStop_space _)
  have hms4 : multispace1 (ε := PError)
      (' ' :: (renderDec a.start_angle ++ (' ' :: (renderDec a.sweep_angle ++
        (' ' :: (renderProp a.property ++ rest)))))) =
      .ok (renderDec a.start_angle ++ (' ' :: (renderDec a.sweep_angle ++
        (' ' :: (renderProp a.property ++ rest))))) [' '] :=
    ws1_cons _ (renderDec_head_not_ws _ _)
  have hrad := finiteDoubleP_render (ε := PError) a.radius hwf.2.2.1
    (' ' :: (renderDec a.start_angle ++ (' ' :: (renderDec a.sweep_angle ++
      (' ' :: (renderProp a.property ++ rest)))))) (floatStop_space _)
  have hms3 : multispace1 (ε := PError)
      (' ' :: (renderDec a.radius ++ (' ' :: (renderDec a.start_angle ++
        (' ' :: (renderDec a.sweep_angle ++ (' ' :: (renderProp a.property ++ rest)))))))) =
      .ok (renderDec a.radius ++ (' ' :: (renderDec a.start_angle ++
        (' ' :: (renderDec a.sweep_angle ++ (' ' :: (renderProp a.property ++ rest))))))) [' '] :=
    ws1_cons _ (renderDec_head_not_ws _ _)
  have hcen := coordinateP_render (ε := PError) a.center hwf.2.1
    (' ' :: (renderDec a.radius ++ (' ' :: (renderDec a.start_angle ++
      (' ' :: (renderDec a.sweep_angle ++ (' ' :: (renderProp a.property ++ rest))))))))
    (floatStop_space _)
  have hms2 : multispace1 (ε := PError)
      (' ' :: (renderVec2 a.center ++ (' ' :: (renderDec a.radius ++
        (' ' :: (renderDec a.start_angle ++ (' ' :: (renderDec a.sweep_angle ++
          (' ' :: (renderProp a.property ++ rest)))))))))) =
      .ok (renderVec2 a.center ++ (' ' :: (renderDec a.radius ++
        (' ' :: (renderDec a.start_angle ++ (' ' :: (renderDec a.sweep_angle ++
          (' ' :: (renderProp a.property ++ rest))))))))) [' '] :=
    ws1_cons _ (renderVec2_head_not_ws _ _)
  have hlay : layerP (ε := PError) (natDigits a.layer ++
      (' ' :: (renderVec2 a.center ++ (' ' :: (renderDec a.radius ++
        (' ' :: (renderDec a.start_angle ++ (' ' :: (renderDec a.sweep_angle ++
          (' ' :: (renderProp a.property ++ rest))))))))))) =
      .ok (' ' :: (renderVec2 a.center ++ (' ' :: (renderDec a.radius ++
        (' ' :: (renderDec a.start_angle ++ (' ' :: (renderDec a.sweep_angle ++
          (' ' :: (renderProp a.property ++ rest)))))))))) a.layer := by
    simp only [layerP, u64P]
    exact uintP_render u64Bound a.layer hwf.1 _ (space_not_digit _)
  rw [show renderArc a ++ rest = 'A' :: ' ' :: (natDigits a.layer ++
    (' ' :: (renderVec2 a.center ++ (' ' :: (renderDec a.radius ++
      (' ' :: (renderDec a.start_angle ++ (' ' :: (renderDec a.sweep_angle ++
        (' ' :: (renderProp a.property ++ rest))))))))))) by simp [renderArc]]
  apply objectP_tag
  simp only [bindP, precededP, pmap, ws1_cons _ (natDigits_head_not_ws a.layer _),
    hlay, hms2, hcen, hms3, hrad, hms4, hsa, hms5, hsw, hms6, hprop]

theorem textObjectP_render (t : Text) (hwf : TextWF t) (rest : Str) :
    textObjectP (renderText t ++ rest) = .ok rest t := by
  have hprop := propertyP_render_app t.property hwf.2.2.2 rest
  have hms6 : multispace1 (ε := PError) (' ' :: (renderProp t.property ++ rest)) =
      .ok (renderProp t.property ++ rest) [' '] :=
    ws1_cons _ (renderProp_head_not_ws _ _)
  have hsz := sizeVecP_render (ε := PError) t.size hwf.2.2.1
    (' ' :: (renderProp t.property ++ rest)) (floatStop_space _)
  have hms5 : multispace1 (ε := PError)
      (' ' :: (renderVec2 t.size ++ (' ' :: (renderProp t.property ++ rest)))) =
      .ok (renderVec2 t.size ++ (' ' :: (renderProp t.property ++ rest))) [' '] :=
    ws1_cons _ (renderVec2_head_not_ws _ _)
  have hfl := flipP_render (ε := PError) t.flip
    (' ' :: (renderVec2 t.size ++ (' ' :: (renderProp t.property ++ rest))))
  have hms4 : multispace1 (ε := PError)
      (' ' :: (renderFlip t.flip :: ' ' :: (renderVec2 t.size ++
        (' ' :: (renderProp t.property ++ rest))))) =
      .ok (renderFlip t.flip :: ' ' :: (renderVec2 t.size ++
        (' ' :: (renderProp t.property ++ rest)))) [' '] :=
    ws1_cons _ (fun c t2 h => by
      injection h with h1 h2
      subst h1
      exact digit_not_ws _ (renderFlip_digit _))
  have hrot := rotationP_render (ε := PError) t.rotation
    (' ' :: (renderFlip t.flip :: ' ' :: (renderVec2 t.size ++
      (' ' :: (renderProp t.property ++ rest)))))
  have hms3 : multispace1 (ε := PError)
      (' ' :: (renderRot t.rotation :: ' ' :: (renderFlip t.flip :: ' ' ::
        (renderVec2 t.size ++ (' ' :: (renderProp t.property ++ rest)))))) =
      .ok (renderRot t.rotation :: ' ' :: (renderFlip t.flip :: ' ' ::
        (renderVec2 t.size ++ (' ' :: (renderProp t.property ++ rest))))) [' '] :=
    ws1_cons _ (fun c t2 h => by
      injection h with h1 h2
      subst h1
      exact digit_not_ws _ (renderRot_digit _))
  have hpos := coordinateP_render (ε := PError) t.position hwf.2.1
    (' ' :: (renderRot t.rotation :: ' ' :: (renderFlip t.flip :: ' ' ::
      (renderVec2 t.size ++ (' ' :: (renderProp t.property ++ rest))))))
    (floatStop_space _)
  have hms2 : multispace1 (ε := PError)
      (' ' :: (renderVec2 t.position ++ (' ' :: (renderRot t.rotation :: ' ' ::
        (renderFlip t.flip :: ' ' :: (renderVec2 t.size ++
          (' ' :: (renderProp t.property ++ rest)))))))) =
      .ok (renderVec2 t.position ++ (' ' :: (renderRot t.rotation :: ' ' ::
        (renderFlip t.flip :: ' ' :: (renderVec2 t.size ++
          (' ' :: (renderProp t.property ++ rest))))))) [' '] :=
    ws1_cons _ (renderVec2_head_not_ws _ _)
  have htext : textP ('\x7b' :: (t.text ++ '\x7d' ::
      (' ' :: (renderVec2 t.position ++ (' ' :: (renderRot t.rotation :: ' ' ::
        (renderFlip t.flip :: ' ' :: (renderVec2 t.size ++
          (' ' :: (renderProp t.property ++ rest)))))))))) =
      .ok (' ' :: (renderVec2 t.position ++ (' ' :: (renderRot t.rotation :: ' ' ::
        (renderFlip t.flip :: ' ' :: (renderVec2 t.size ++
          (' ' :: (renderProp t.property ++ rest)))))))) t.text :=
    textP_render t.text _ hwf.1
  have hms1 : multispace1 (ε := PError) (' ' :: ('\x7b' :: (t.text ++ '\x7d' ::
      (' ' :: (renderVec2 t.position ++ (' ' :: (renderRot t.rotation :: ' ' ::
        (renderFlip t.flip :: ' ' :: (renderVec2 t.size ++
          (' ' :: (renderProp t.property ++ rest))))))))))) =
      .ok ('\x7b' :: (t.text ++ '\x7d' ::
      (' ' :: (renderVec2 t.position ++ (' ' :: (renderRot t.rotation :: ' ' ::
        (renderFlip t.flip :: ' ' :: (renderVec2 t.size ++
          (' ' :: (renderProp t.property ++ rest)))))))))) [' '] :=
    ws1_cons _ (fun c t2 h => by
      injection h with h1 h2
      subst h1
      decide)
  rw [show renderText t ++ rest = 'T' :: ' ' :: ('\x7b' :: (t.text ++ '\x7d' ::
      (' ' :: (renderVec2 t.position ++ (' ' :: (renderRot t.rotation :: ' ' ::
        (renderFlip t.flip :: ' ' :: (renderVec2 t.size ++
          (' ' :: (renderProp t.property ++ rest)))))))))) by simp [renderText]]
  apply objectP_tag
  simp only [bindP, precededP, pmap, hms1, htext, hms2, hpos, hms3, hrot,
    hms4, hfl, hms5, hsz, hms6, hprop]

end ObjectRender2

section PolygonRender

/-- Space-prefixed point blocks, one per element of the polygon's
`length_count` loop. -/
def renderPtsBlock : List Vec2 → Str
  | [] => []
  | v :: vs => ' ' :: (renderVec2 v ++ renderPtsBlock vs)

theorem renderPoints_cons_block (T : Str) :
    ∀ pts : List Vec2, pts ≠ [] → ' ' :: (renderPoints pts ++ T) = renderPtsBlock pts ++ T := by
  intro pts
  induction pts with
  | nil => intro h; cases h rfl
  | cons v vs ih =>
    intro _
    cases hvs : vs with
    | nil => simp [renderPoints, renderPtsBlock]
    | cons v2 vs2 =>
      have ih2 := ih (by rw [hvs]; simp)
      rw [hvs] at ih2
      rw [show renderPoints (v :: v2 :: vs2) =
        renderVec2 v ++ ' ' :: renderPoints (v2 :: vs2) from rfl]
      rw [show renderPtsBlock (v :: v2 :: vs2) =
        ' ' :: (renderVec2 v ++ renderPtsBlock (v2 :: vs2)) from rfl]
      rw [List.append_assoc, List.cons_append, ih2]
      simp

theorem lcLoop_ptsBlock (X : Str) (hX : FloatStop X) :
    ∀ pts : List Vec2, (∀ v ∈ pts, Vec2WF v) →
      lcLoop (precededP space1 (coordinateP (ε := PError))) pts.length
        (renderPtsBlock pts ++ X) = .ok X pts := by
  intro pts
  induction pts with
  | nil =>
    intro _
    simp [lcLoop, renderPtsBlock]
  | cons v vs ih =>
    intro hwf
    have hstop2 : FloatStop (renderPtsBlock vs ++ X) := by
      cases hvs : vs with
      | nil =>
        simp only [renderPtsBlock, List.nil_append]
        exact hX
      | cons v2 vs2 =>
        simp only [renderPtsBlock, List.cons_append]
        exact floatStop_space _
    have hcoord := coordinateP_render (ε := PError) v (hwf v (by simp))
      (renderPtsBlock vs ++ X) hstop2
    have hsp1 : space1 (ε := PError)
        (' ' :: (renderVec2 v ++ (renderPtsBlock vs ++ X))) =
        .ok (renderVec2 v ++ (renderPtsBlock vs ++ X)) [' '] :=
      space1_run [' '] _ (by decide) (by decide) (renderVec2_head_not_sp v _)
    have hel : precededP space1 (coordinateP (ε := PError))
        (' ' :: (renderVec2 v ++ (renderPtsBlock vs ++ X))) =
        .ok (renderPtsBlock vs ++ X) v := by
      simp only [precededP, bindP, hsp1, hcoord]
    have ihh := ih (fun v2 hv2 => hwf v2 (by simp [hv2]))
    show lcLoop _ (vs.length + 1) ((' ' :: (renderVec2 v ++ renderPtsBlock vs)) ++ X) = _
    rw [List.cons_append, List.append_assoc]
    simp only [lcLoop, hel, ihh]

theorem polygonObjectP_render (p : Polygon) (hwf : PolygonWF p) (rest : Str) :
    polygonObjectP (renderPoly p ++ rest) = .ok rest p := by
  obtain ⟨lay, pts, prop⟩ := p
  obtain ⟨hlayb, hcntb, hvwf, hpwf⟩ := hwf
  simp only at hlayb hcntb hvwf hpwf
  have hprop := propertyP_render_app prop hpwf rest
  cases hpts : pts with
  | nil =>
    subst hpts
    have hcnt : usizeP (ε := PError) (natDigits 0 ++
        (' ' :: ' ' :: (renderProp prop ++ rest))) =
        .ok (' ' :: ' ' :: (renderProp prop ++ rest)) 0 := by
      simp only [usizeP]
      exact uintP_render u64Bound 0 (by omega) _ (space_not_digit _)
    have hcl : lengthCountP (usizeP (ε := PError)) (precededP space1 coordinateP)
        (natDigits 0 ++ (' ' :: ' ' :: (renderProp prop ++ rest))) =
        .ok (' ' :: ' ' :: (renderProp prop ++ rest)) [] := by
      simp only [lengthCountP, bindP, hcnt, lcLoop]
    have hms3 : multispace1 (ε := PError) (' ' :: ' ' :: (renderProp prop ++ rest)) =
        .ok (renderProp prop ++ rest) [' ', ' '] :=
      multispace1_run [' ', ' '] _ (by decide) (by decide) (renderProp_head_not_ws _ _)
    have hms2 : multispace1 (ε := PError)
        (' ' :: (natDigits 0 ++ (' ' :: ' ' :: (renderProp prop ++ rest)))) =
        .ok (natDigits 0 ++ (' ' :: ' ' :: (renderProp prop ++ rest))) [' '] :=
      ws1_cons _ (natDigits_head_not_ws _ _)
    have hlay : layerP (ε := PError) (natDigits lay ++
        (' ' :: (natDigits 0 ++ (' ' :: ' ' :: (renderProp prop ++ rest))))) =
        .ok (' ' :: (natDigits 0 ++ (' ' :: ' ' :: (renderProp prop ++ rest)))) lay := by
      simp only [layerP, u64P]
      exact uintP_render u64Bound lay hlayb _ (space_not_digit _)
    rw [show renderPoly ⟨lay, [], prop⟩ ++ rest = 'P' :: ' ' :: (natDigits lay ++
      (' ' :: (natDigits 0 ++ (' ' :: ' ' :: (renderProp prop ++ rest))))) by
      simp [renderPoly, renderPoints]]
    apply objectP_tag
    simp only [precededP] at hcl
    simp only [bindP, precededP, pmap, ws1_cons _ (natDigits_head_not_ws lay _),
      hlay, hms2, hcl, hms3, hprop]
  | cons v vs =>
    subst hpts
    have hblock : ' ' :: (renderPoints (v :: vs) ++ (' ' :: (renderProp prop ++ rest))) =
        renderPtsBlock (v :: vs) ++ (' ' :: (renderProp prop ++ rest)) :=
      renderPoints_cons_block _ (v :: vs) (by simp)
    have hcnt : usizeP (ε := PError) (natDigits (v :: vs).length ++
        (' ' :: (renderPoints (v :: vs) ++ (' ' :: (renderProp prop ++ rest))))) =
        .ok (' ' :: (renderPoints (v :: vs) ++ (' ' :: (renderProp prop ++ rest))))
          (v :: vs).length := by
      simp only [usizeP]
      exact uintP_render u64Bound (v :: vs).length hcntb _ (space_not_digit _)
    have hlc := lcLoop_ptsBlock (' ' :: (renderProp prop ++ rest))
      (floatStop_space _) (v :: vs) hvwf
    have hcl : lengthCountP (usizeP (ε := PError)) (precededP space1 coordinateP)
        (natDigits (v :: vs).length ++
          (' ' :: (renderPoints (v :: vs) ++ (' ' :: (renderProp prop ++ rest))))) =
        .ok (' ' :: (renderProp prop ++ rest)) (v :: vs) := by
      simp only [lengthCountP, bindP, hcnt]
      rw [hblock]
      exact hlc
    have hms3 : multispace1 (ε := PError) (' ' :: (renderProp prop ++ rest)) =
        .ok (renderProp prop ++ rest) [' '] :=
      ws1_cons _ (renderProp_head_not_ws _ _)
    have hms2 : multispace1 (ε := PError)
        (' ' :: (natDigits (v :: vs).length ++
          (' ' :: (renderPoints (v :: vs) ++ (' ' :: (renderProp prop ++ rest)))))) =
        .ok (natDigits (v :: vs).length ++
          (' ' :: (renderPoints (v :: vs) ++ (' ' :: (renderProp prop ++ rest))))) [' '] :=
      ws1_cons _ (natDigits_head_not_ws _ _)
    have hlay : layerP (ε := PError) (natDigits lay ++
        (' ' :: (natDigits (v :: vs).length ++
          (' ' :: (renderPoints (v :: vs) ++ (' ' :: (renderProp prop ++ rest))))))) =
        .ok (' ' :: (natDigits (v :: vs).length ++
          (' ' :: (renderPoints (v :: vs) ++ (' ' :: (renderProp prop ++ rest))))))
          lay := by
      simp only [layerP, u64P]
      exact uintP_render u64Bound lay hlayb _ (space_not_digit _)
    rw [show renderPoly ⟨lay, v :: vs, prop⟩ ++ rest = 'P' :: ' ' :: (natDigits lay ++
      (' ' :: (natDigits (v :: vs).length ++
        (' ' :: (renderPoints (v :: vs) ++ (' ' :: (renderProp prop ++ rest))))))) by
      simp [renderPoly]]
    apply objectP_tag
    simp only [precededP] at hcl
    simp only [bindP, precededP, pmap, ws1_cons _ (natDigits_head_not_ws lay _),
      hlay, hms2, hcl, hms3, hprop]

end PolygonRender

section TopObjectRender

theorem versionObjectP_render (v : Version) (hwf : PropertyWF v.vp) (rest : Str) :
    versionObjectP ('v' :: ' ' :: (renderProp v.vp ++ rest)) = .ok rest v := by
  have hprop := propertyP_render_app v.vp hwf rest
  have hms := ws1_cons (ε := PError) _ (renderProp_head_not_ws v.vp rest)
  have hbody : precededP multispace1 propertyP (' ' :: (renderProp v.vp ++ rest)) =
      .ok rest v.vp := by
    simp only [precededP, bindP, hms, hprop]
  have hobj := objectP_tag "version" 'v' _ hbody
  simp only [versionObjectP, pmap, hobj]

theorem propertyObjectP_render (t : Char) (p : Property) (hwf : PropertyWF p) (rest : Str) :
    propertyObjectP t (t :: ' ' :: (renderProp p ++ rest)) = .ok rest p := by
  have hprop := propertyP_render_app p hwf rest
  have hms := ws1_cons (ε := PError) _ (renderProp_head_not_ws p rest)
  have hbody : precededP multispace1 propertyP (' ' :: (renderProp p ++ rest)) =
      .ok rest p := by
    simp only [precededP, bindP, hms, hprop]
  exact objectP_tag "global property" t _ hbody

theorem opt_embedding_none (sub : P PError Schematic) (rest : Str)
    (hr : ∀ r', rest.dropWhile isWsChar ≠ '[' :: r') :
    optP (precededP multispace1 (embeddingPW sub)) rest = .ok rest none := by
  cases hws : rest.takeWhile isWsChar with
  | nil =>
    have hms : multispace1 (ε := PError) rest = .err (ErrM.fromKind rest .multiSpace) := by
      simp only [multispace1, takeWhile1K]
      rw [if_pos hws]
    simp only [optP, precededP, bindP, hms]
  | cons a b =>
    have hms : multispace1 (ε := PError) rest =
        .ok (rest.dropWhile isWsChar) (rest.takeWhile isWsChar) := by
      simp only [multispace1, takeWhile1K]
      rw [if_neg (by rw [hws]; simp)]
    have hchar : charP (ε := PError) '[' (rest.dropWhile isWsChar) =
        .err (ErrM.fromChar (rest.dropWhile isWsChar) '[') :=
      charP_err_stop (fun t' hh => hr t' hh)
    have hemb : embeddingPW sub (rest.dropWhile isWsChar) =
        .err (ErrM.addCtx (rest.dropWhile isWsChar) "embedded symbol"
          (ErrM.fromChar (rest.dropWhile isWsChar) '[')) := by
      simp only [embeddingPW, objectP, ctxP, precededP, bindP, hchar]
    simp only [optP, precededP, bindP, hms, hemb]

theorem opt_embedding_some (sub : P PError Schematic) (eR : Str) (e : Schematic)
    (rest : Str) (hsub : sub (eR ++ ('\n' :: ']' :: rest)) = .ok ('\n' :: ']' :: rest) e)
    (hhead : ∀ c t, eR ++ ('\n' :: ']' :: rest) = c :: t → isWsChar c = false) :
    optP (precededP multispace1 (embeddingPW sub))
      (('\n' :: '[' :: '\n' :: (eR ++ '\n' :: [']'])) ++ rest) = .ok rest (some e) := by
  have hshape : ('\n' :: '[' :: '\n' :: (eR ++ '\n' :: [']'])) ++ rest =
      '\n' :: '[' :: '\n' :: (eR ++ '\n' :: ']' :: rest) := by
    simp
  rw [hshape]
  have hms1 : multispace1 (ε := PError) ('\n' :: ('[' :: '\n' :: (eR ++ '\n' :: ']' :: rest))) =
      .ok ('[' :: '\n' :: (eR ++ '\n' :: ']' :: rest)) ['\n'] :=
    multispace1_run ['\n'] _ (by decide) (by decide)
      (fun c t hct => by injection hct with h1 h2; subst h1; decide)
  have hms2 : multispace1 (ε := PError) ('\n' :: (eR ++ '\n' :: ']' :: rest)) =
      .ok (eR ++ '\n' :: ']' :: rest) ['\n'] :=
    multispace1_run ['\n'] _ (by decide) (by decide) hhead
  have hms3 : multispace1 (ε := PError) ('\n' :: (']' :: rest)) =
      .ok (']' :: rest) ['\n'] :=
    multispace1_run ['\n'] _ (by decide) (by decide)
      (fun c t hct => by injection hct with h1 h2; subst h1; decide)
  have hterm2 : precededP multispace1 (charP (ε := PError) ']') ('\n' :: (']' :: rest)) =
      .ok rest ']' := by
    simp only [precededP, bindP, hms3, charP_cons_eq]
  have hsub2 : precededP multispace1 sub ('\n' :: (eR ++ '\n' :: ']' :: rest)) =
      .ok ('\n' :: ']' :: rest) e := by
    simp only [precededP, bindP, hms2, hsub]
  have hbody : terminatedP (precededP multispace1 sub)
      (precededP multispace1 (charP ']')) ('\n' :: (eR ++ '\n' :: ']' :: rest)) =
      .ok rest e := by
    simp only [terminatedP, bindP, hsub2, pmap, hterm2]
  have hemb : embeddingPW sub ('[' :: '\n' :: (eR ++ '\n' :: ']' :: rest)) =
      .ok rest e :=
    objectP_tag "embedded symbol" '[' _ hbody
  have hpre : precededP multispace1 (embeddingPW sub)
      ('\n' :: ('[' :: '\n' :: (eR ++ '\n' :: ']' :: rest))) = .ok rest e := by
    simp only [precededP, bindP, hms1, hemb]
  simp only [optP, hpre]

theorem componentPW_render (sub : P PError Schematic) (subR : Schematic → Str)
    (ref : Str) (pos : Vec2) (rot : Rotation) (fl : Flip) (prop : Property)
    (emb : Option Schematic)
    (href : PropWF ref) (hpos : Vec2WF pos) (hprop : PropertyWF prop) (rest : Str)
    (hopt : optP (precededP multispace1 (embeddingPW sub))
      (renderEmbW subR emb ++ rest) = .ok rest emb) :
    componentPW sub (renderCompW subR ⟨ref, pos, rot, fl, prop, emb⟩ ++ rest) =
      .ok rest ⟨ref, pos, rot, fl, prop, emb⟩ := by
  have hpr : propertyP (renderProp prop ++ (renderEmbW subR emb ++ rest)) =
      .ok (renderEmbW subR emb ++ rest) prop :=
    propertyP_render_app prop hprop _
  have hms5 : multispace1 (ε := PError)
      (' ' :: (renderProp prop ++ (renderEmbW subR emb ++ rest))) =
      .ok (renderProp prop ++ (renderEmbW subR emb ++ rest)) [' '] :=
    ws1_cons _ (renderProp_head_not_ws _ _)
  have hfl := flipP_render (ε := PError) fl
    (' ' :: (renderProp prop ++ (renderEmbW subR emb ++ rest)))
  have hms4 : multispace1 (ε := PError)
      (' ' :: (renderFlip fl :: ' ' :: (renderProp prop ++ (renderEmbW subR emb ++ rest)))) =
      .ok (renderFlip fl :: ' ' :: (renderProp prop ++ (renderEmbW subR emb ++ rest))) [' '] :=
    ws1_cons _ (fun c2 t2 h => by
      injection h with h1 h2
      subst h1
      exact digit_not_ws _ (renderFlip_digit _))
  have hrot := rotationP_render (ε := PError) rot
    (' ' :: (renderFlip fl :: ' ' :: (renderProp prop ++ (renderEmbW subR emb ++ rest))))
  have hms3 : multispace1 (ε := PError)
      (' ' :: (renderRot rot :: ' ' :: (renderFlip fl :: ' ' ::
        (renderProp prop ++ (renderEmbW subR emb ++ rest))))) =
      .ok (renderRot rot :: ' ' :: (renderFlip fl :: ' ' ::
        (renderProp prop ++ (renderEmbW subR emb ++ rest)))) [' '] :=
    ws1_cons _ (fun c2 t2 h => by
      injection h with h1 h2
      subst h1
      exact digit_not_ws _ (renderRot_digit _))
  have hposp := coordinateP_render (ε := PError) pos hpos
    (' ' :: (renderRot rot :: ' ' :: (renderFlip fl :: ' ' ::
      (renderProp prop ++ (renderEmbW subR emb ++ rest)))))
    (floatStop_space _)
  have hms2 : multispace1 (ε := PError)
      (' ' :: (renderVec2 pos ++ (' ' :: (renderRot rot :: ' ' :: (renderFlip fl :: ' ' ::
        (renderProp prop ++ (renderEmbW subR emb ++ rest))))))) =
      .ok (renderVec2 pos ++ (' ' :: (renderRot rot :: ' ' :: (renderFlip fl :: ' ' ::
        (renderProp prop ++ (renderEmbW subR emb ++ rest)))))) [' '] :=
    ws1_cons _ (renderVec2_head_not_ws _ _)
  have href2 : referenceP ('\x7b' :: (ref ++ '\x7d' ::
      (' ' :: (renderVec2 pos ++ (' ' :: (renderRot rot :: ' ' :: (renderFlip fl :: ' ' ::
        (renderProp prop ++ (renderEmbW subR emb ++ rest))))))))) =
      .ok (' ' :: (renderVec2 pos ++ (' ' :: (renderRot rot :: ' ' :: (renderFlip fl :: ' ' ::
        (renderProp prop ++ (renderEmbW subR emb ++ rest))))))) ref :=
    referenceP_render ref _ href
  have hms1 : multispace1 (ε := PError) (' ' :: ('\x7b' :: (ref ++ '\x7d' ::
      (' ' :: (renderVec2 pos ++ (' ' :: (renderRot rot :: ' ' :: (renderFlip fl :: ' ' ::
        (renderProp prop ++ (renderEmbW subR emb ++ rest)))))))))) =
      .ok ('\x7b' :: (ref ++ '\x7d' ::
      (' ' :: (renderVec2 pos ++ (' ' :: (renderRot rot :: ' ' :: (renderFlip fl :: ' ' ::
        (renderProp prop ++ (renderEmbW subR emb ++ rest))))))))) [' '] :=
    ws1_cons _ (fun c2 t2 h => by
      injection h with h1 h2
      subst h1
      decide)
  rw [show renderCompW subR ⟨ref, pos, rot, fl, prop, emb⟩ ++ rest =
    'C' :: ' ' :: ('\x7b' :: (ref ++ '\x7d' ::
      (' ' :: (renderVec2 pos ++ (' ' :: (renderRot rot :: ' ' :: (renderFlip fl :: ' ' ::
        (renderProp prop ++ (renderEmbW subR emb ++ rest))))))))) by
    simp [renderCompW]]
  apply objectP_tag
  simp only [precededP] at hopt
  simp only [bindP, precededP, pmap, hms1, href2, hms2, hposp, hms3, hrot, hms4, hfl,
    hms5, hpr, hopt]

end TopObjectRender

section AnyObjectRender

/-- Well-formedness of a parsed object (component embeddings aside). -/
def ObjWF : Object → Prop
  | .vhdlProp p => PropertyWF p
  | .symbolProp p => PropertyWF p
  | .verilogProp p => PropertyWF p
  | .spiceProp p => PropertyWF p
  | .tedaxProp p => PropertyWF p
  | .arc a => ArcWF a
  | .component c => PropWF c.reference ∧ Vec2WF c.position ∧ PropertyWF c.property
  | .line l => LineWF l
  | .polygon p => PolygonWF p
  | .rectangle r => RectangleWF r
  | .text t => TextWF t
  | .wire w => WireWF w

theorem objectP_tag_err {ε α : Type} [ErrM ε] (name : String) (t : Char) (p : P ε α)
    {c : Char} {i : Str} (h : c ≠ t) :
    objectP name t p (c :: i) =
      .err (ErrM.addCtx (c :: i) name (ErrM.fromChar (c :: i) t)) := by
  simp only [objectP, ctxP, precededP, bindP, charP_cons_ne _ h]

theorem propertyObjectP_err_head (t : Char) {c : Char} {i : Str} (h : c ≠ t) :
    propertyObjectP t (c :: i) =
      .err (ErrM.addCtx (c :: i) "global property" (ErrM.fromChar (c :: i) t)) :=
  objectP_tag_err _ _ _ h

theorem arcObjectP_err_head {c : Char} {i : Str} (h : c ≠ 'A') :
    arcObjectP (c :: i) =
      .err (ErrM.addCtx (c :: i) "arc" (ErrM.fromChar (c :: i) 'A')) :=
  objectP_tag_err _ _ _ h

theorem componentPW_err_head (sub : P PError Schematic) {c : Char} {i : Str} (h : c ≠ 'C') :
    componentPW sub (c :: i) =
      .err (ErrM.addCtx (c :: i) "component" (ErrM.fromChar (c :: i) 'C')) :=
  objectP_tag_err _ _ _ h

theorem lineObjectP_err_head {c : Char} {i : Str} (h : c ≠ 'L') :
    lineObjectP (c :: i) =
      .err (ErrM.addCtx (c :: i) "line" (ErrM.fromChar (c :: i) 'L')) :=
  objectP_tag_err _ _ _ h

theorem polygonObjectP_err_head {c : Char} {i : Str} (h : c ≠ 'P') :
    polygonObjectP (c :: i) =
      .err (ErrM.addCtx (c :: i) "polygon" (ErrM.fromChar (c :: i) 'P')) :=
  objectP_tag_err _ _ _ h

theorem rectangleObjectP_err_head {c : Char} {i : Str} (h : c ≠ 'B') :
    rectangleObjectP (c :: i) =
      .err (ErrM.addCtx (c :: i) "rectangle" (ErrM.fromChar (c :: i) 'B')) :=
  objectP_tag_err _ _ _ h

theorem textObjectP_err_head {c : Char} {i : Str} (h : c ≠ 'T') :
    textObjectP (c :: i) =
      .err (ErrM.addCtx (c :: i) "text" (ErrM.fromChar (c :: i) 'T')) :=
  objectP_tag_err _ _ _ h

theorem wireObjectP_err_head {c : Char} {i : Str} (h : c ≠ 'N') :
    wireObjectP (c :: i) =
      .err (ErrM.addCtx (c :: i) "wire" (ErrM.fromChar (c :: i) 'N')) :=
  objectP_tag_err _ _ _ h

theorem anyObjectPW_render (sub : P PError Schematic) (subR : Schematic → Str)
    (rest : Str) (o : Object) (hwf : ObjWF o)
    (hopt : ∀ ref pos rot fl prop emb, o = .component ⟨ref, pos, rot, fl, prop, emb⟩ →
      optP (precededP multispace1 (embeddingPW sub)) (renderEmbW subR emb ++ rest) =
        .ok rest emb) :
    anyObjectPW sub (renderObjW subR o ++ rest) = .ok rest o := by
  cases o with
  | vhdlProp p =>
    have hS := propertyObjectP_render 'G' p hwf rest
    rw [show renderObjW subR (.vhdlProp p) ++ rest = 'G' :: ' ' :: (renderProp p ++ rest) by simp [renderObjW]]
    obtain ⟨body, hbody⟩ : ∃ body, ('G' :: ' ' :: (renderProp p ++ rest)) = 'G' :: body := ⟨_, rfl⟩
    rw [hbody] at hS ⊢

    simp only [anyObjectPW, alt2, pmap, hS]
  | symbolProp p =>
    have hS := propertyObjectP_render 'K' p hwf rest
    rw [show renderObjW subR (.symbolProp p) ++ rest = 'K' :: ' ' :: (renderProp p ++ rest) by simp [renderObjW]]
    obtain ⟨body, hbody⟩ : ∃ body, ('K' :: ' ' :: (renderProp p ++ rest)) = 'K' :: body := ⟨_, rfl⟩
    rw [hbody] at hS ⊢
    have e0 := propertyObjectP_err_head 'G' (c := 'K') (i := body) (by decide)
    simp only [anyObjectPW, alt2, pmap, e0, hS]
  | verilogProp p =>
    have hS := propertyObjectP_render 'V' p hwf rest
    rw [show renderObjW subR (.verilogProp p) ++ rest = 'V' :: ' ' :: (renderProp p ++ rest) by simp [renderObjW]]
    obtain ⟨body, hbody⟩ : ∃ body, ('V' :: ' ' :: (renderProp p ++ rest)) = 'V' :: body := ⟨_, rfl⟩
    rw [hbody] at hS ⊢
    have e0 := propertyObjectP_err_head 'G' (c := 'V') (i := body) (by decide)
    have e1 := propertyObjectP_err_head 'K' (c := 'V') (i := body) (by decide)
    simp only [anyObjectPW, alt2, pmap, e0, e1, hS]
  | spiceProp p =>
    have hS := propertyObjectP_render 'S' p hwf rest
    rw [show renderObjW subR (.spiceProp p) ++ rest = 'S' :: ' ' :: (renderProp p ++ rest) by simp [renderObjW]]
    obtain ⟨body, hbody⟩ : ∃ body, ('S' :: ' ' :: (renderProp p ++ rest)) = 'S' :: body := ⟨_, rfl⟩
    rw [hbody] at hS ⊢
    have e0 := propertyObjectP_err_head 'G' (c := 'S') (i := body) (by decide)
    have e1 := propertyObjectP_err_head 'K' (c := 'S') (i := body) (by decide)
    have e2 := propertyObjectP_err_head 'V' (c := 'S') (i := body) (by decide)
    simp only [anyObjectPW, alt2, pmap, e0, e1, e2, hS]
  | tedaxProp p =>
    have hS := propertyObjectP_render 'E' p hwf rest
    rw [show renderObjW subR (.tedaxProp p) ++ rest = 'E' :: ' ' :: (renderProp p ++ rest) by simp [renderObjW]]
    obtain ⟨body, hbody⟩ : ∃ body, ('E' :: ' ' :: (renderProp p ++ rest)) = 'E' :: body := ⟨_, rfl⟩
    rw [hbody] at hS ⊢
    have e0 := propertyObjectP_err_head 'G' (c := 'E') (i := body) (by decide)
    have e1 := propertyObjectP_err_head 'K' (c := 'E') (i := body) (by decide)
    have e2 := propertyObjectP_err_head 'V' (c := 'E') (i := body) (by decide)
    have e3 := propertyObjectP_err_head 'S' (c := 'E') (i := body) (by decide)
    simp only [anyObjectPW, alt2, pmap, e0, e1, e2, e3, hS]
  | arc x =>
    have hS := arcObjectP_render x hwf rest
    rw [show renderObjW subR (.arc x) ++ rest = renderArc x ++ rest from rfl]
    obtain ⟨body, hbody⟩ : ∃ body, renderArc x ++ rest = 'A' :: body :=
      ⟨_, rfl⟩
    rw [hbody] at hS ⊢
    have e0 := propertyObjectP_err_head 'G' (c := 'A') (i := body) (by decide)
    have e1 := propertyObjectP_err_head 'K' (c := 'A') (i := body) (by decide)
    have e2 := propertyObjectP_err_head 'V' (c := 'A') (i := body) (by decide)
    have e3 := propertyObjectP_err_head 'S' (c := 'A') (i := body) (by decide)
    have e4 := propertyObjectP_err_head 'E' (c := 'A') (i := body) (by decide)
    simp only [anyObjectPW, alt2, pmap, e0, e1, e2, e3, e4, hS]
  | component c =>
    obtain ⟨ref, pos, rot, fl, prop, emb⟩ := c
    have hS := componentPW_render sub subR ref pos rot fl prop emb hwf.1 hwf.2.1 hwf.2.2
      rest (hopt ref pos rot fl prop emb rfl)
    rw [show renderObjW subR (.component ⟨ref, pos, rot, fl, prop, emb⟩) ++ rest =
      renderCompW subR ⟨ref, pos, rot, fl, prop, emb⟩ ++ rest from rfl]
    obtain ⟨body, hbody⟩ : ∃ body,
        renderCompW subR ⟨ref, pos, rot, fl, prop, emb⟩ ++ rest = 'C' :: body :=
      ⟨_, rfl⟩
    rw [hbody] at hS ⊢
    have e0 := propertyObjectP_err_head 'G' (c := 'C') (i := body) (by decide)
    have e1 := propertyObjectP_err_head 'K' (c := 'C') (i := body) (by decide)
    have e2 := propertyObjectP_err_head 'V' (c := 'C') (i := body) (by decide)
    have e3 := propertyObjectP_err_head 'S' (c := 'C') (i := body) (by decide)
    have e4 := propertyObjectP_err_head 'E' (c := 'C') (i := body) (by decide)
    have e5 := arcObjectP_err_head (c := 'C') (i := body) (by decide)
    simp only [anyObjectPW, alt2, pmap, e0, e1, e2, e3, e4, e5, hS]
  | line x =>
    have hS := lineObjectP_render x hwf rest
    rw [show renderObjW subR (.line x) ++ rest = renderLine x ++ rest from rfl]
    obtain ⟨body, hbody⟩ : ∃ body, renderLine x ++ rest = 'L' :: body :=
      ⟨_, rfl⟩
    rw [hbody] at hS ⊢
    have e0 := propertyObjectP_err_head 'G' (c := 'L') (i := body) (by decide)
    have e1 := propertyObjectP_err_head 'K' (c := 'L') (i := body) (by decide)
    have e2 := propertyObjectP_err_head 'V' (c := 'L') (i := body) (by decide)
    have e3 := propertyObjectP_err_head 'S' (c := 'L') (i := body) (by decide)
    have e4 := propertyObjectP_err_head 'E' (c := 'L') (i := body) (by decide)
    have e5 := arcObjectP_err_head (c := 'L') (i := body) (by decide)
    have e6 := componentPW_err_head sub (c := 'L') (i := body) (by decide)
    simp only [anyObjectPW, alt2, pmap, e0, e1, e2, e3, e4, e5, e6, hS]
  | polygon x =>
    have hS := polygonObjectP_render x hwf rest
    rw [show renderObjW subR (.polygon x) ++ rest = renderPoly x ++ rest from rfl]
    obtain ⟨body, hbody⟩ : ∃ body, renderPoly x ++ rest = 'P' :: body :=
      ⟨_, rfl⟩
    rw [hbody] at hS ⊢
    have e0 := propertyObjectP_err_head 'G' (c := 'P') (i := body) (by decide)
    have e1 := propertyObjectP_err_head 'K' (c := 'P') (i := body) (by decide)
    have e2 := propertyObjectP_err_head 'V' (c := 'P') (i := body) (by decide)
    have e3 := propertyObjectP_err_head 'S' (c := 'P') (i := body) (by decide)
    have e4 := propertyObjectP_err_head 'E' (c := 'P') (i := body) (by decide)
    have e5 := arcObjectP_err_head (c := 'P') (i := body) (by decide)
    have e6 := componentPW_err_head sub (c := 'P') (i := body) (by decide)
    have e7 := lineObjectP_err_head (c := 'P') (i := body) (by decide)
    simp only [anyObjectPW, alt2, pmap, e0, e1, e2, e3, e4, e5, e6, e7, hS]
  | rectangle x =>
    have hS := rectangleObjectP_render x hwf rest
    rw [show renderObjW subR (.rectangle x) ++ rest = renderRect x ++ rest from rfl]
    obtain ⟨body, hbody⟩ : ∃ body, renderRect x ++ rest = 'B' :: body :=
      ⟨_, rfl⟩
    rw [hbody] at hS ⊢
    have e0 := propertyObjectP_err_head 'G' (c := 'B') (i := body) (by decide)
    have e1 := propertyObjectP_err_head 'K' (c := 'B') (i := body) (by decide)
    have e2 := propertyObjectP_err_head 'V' (c := 'B') (i := body) (by decide)
    have e3 := propertyObjectP_err_head 'S' (c := 'B') (i := body) (by decide)
    have e4 := propertyObjectP_err_head 'E' (c := 'B') (i := body) (by decide)
    have e5 := arcObjectP_err_head (c := 'B') (i := body) (by decide)
    have e6 := componentPW_err_head sub (c := 'B') (i := body) (by decide)
    have e7 := lineObjectP_err_head (c := 'B') (i := body) (by decide)
    have e8 := polygonObjectP_err_head (c := 'B') (i := body) (by decide)
    simp only [anyObjectPW, alt2, pmap, e0, e1, e2, e3, e4, e5, e6, e7, e8, hS]
  | text x =>
    have hS := textObjectP_render x hwf rest
    rw [show renderObjW subR (.text x) ++ rest = renderText x ++ rest from rfl]
    obtain ⟨body, hbody⟩ : ∃ body, renderText x ++ rest = 'T' :: body :=
      ⟨_, rfl⟩
    rw [hbody] at hS ⊢
    have e0 := propertyObjectP_err_head 'G' (c := 'T') (i := body) (by decide)
    have e1 := propertyObjectP_err_head 'K' (c := 'T') (i := body) (by decide)
    have e2 := propertyObjectP_err_head 'V' (c := 'T') (i := body) (by decide)
    have e3 := propertyObjectP_err_head 'S' (c := 'T') (i := body) (by decide)
    have e4 := propertyObjectP_err_head 'E' (c := 'T') (i := body) (by decide)
    have e5 := arcObjectP_err_head (c := 'T') (i := body) (by decide)
    have e6 := componentPW_err_head sub (c := 'T') (i := body) (by decide)
    have e7 := lineObjectP_err_head (c := 'T') (i := body) (by decide)
    have e8 := polygonObjectP_err_head (c := 'T') (i := body) (by decide)
    have e9 := rectangleObjectP_err_head (c := 'T') (i := body) (by decide)
    simp only [anyObjectPW, alt2, pmap, e0, e1, e2, e3, e4, e5, e6, e7, e8, e9, hS]
  | wire x =>
    have hS := wireObjectP_render x hwf rest
    rw [show renderObjW subR (.wire x) ++ rest = renderWire x ++ rest from rfl]
    obtain ⟨body, hbody⟩ : ∃ body, renderWire x ++ rest = 'N' :: body :=
      ⟨_, rfl⟩
    rw [hbody] at hS ⊢
    have e0 := propertyObjectP_err_head 'G' (c := 'N') (i := body) (by decide)
    have e1 := propertyObjectP_err_head 'K' (c := 'N') (i := body) (by decide)
    have e2 := propertyObjectP_err_head 'V' (c := 'N') (i := body) (by decide)
    have e3 := propertyObjectP_err_head 'S' (c := 'N') (i := body) (by decide)
    have e4 := propertyObjectP_err_head 'E' (c := 'N') (i := body) (by decide)
    have e5 := arcObjectP_err_head (c := 'N') (i := body) (by decide)
    have e6 := componentPW_err_head sub (c := 'N') (i := body) (by decide)
    have e7 := lineObjectP_err_head (c := 'N') (i := body) (by decide)
    have e8 := polygonObjectP_err_head (c := 'N') (i := body) (by decide)
    have e9 := rectangleObjectP_err_head (c := 'N') (i := body) (by decide)
    have e10 := textObjectP_err_head (c := 'N') (i := body) (by decide)
    simp only [anyObjectPW, alt2, pmap, e0, e1, e2, e3, e4, e5, e6, e7, e8, e9, e10, hS]

end AnyObjectRender

section FoldRender

theorem renderObjW_head (subR : Schematic → Str) (o : Object) :
    ∃ c t, renderObjW subR o = c :: t ∧ isWsChar c = false ∧ c ≠ '[' := by
  cases o <;> exact ⟨_, _, rfl, by decide, by decide⟩

theorem objectP_nil_err {ε α : Type} [ErrM ε] (name : String) (t : Char) (p : P ε α) :
    objectP name t p [] = .err (ErrM.addCtx [] name (ErrM.fromChar [] t)) := by
  simp only [objectP, ctxP, precededP, bindP, charP]

theorem anyObjectPW_err_bracket (sub : P PError Schematic) (i : Str) :
    ∃ e, anyObjectPW sub (']' :: i) = .err e := by
  have e0 := propertyObjectP_err_head 'G' (c := ']') (i := i) (by decide)
  have e1 := propertyObjectP_err_head 'K' (c := ']') (i := i) (by decide)
  have e2 := propertyObjectP_err_head 'V' (c := ']') (i := i) (by decide)
  have e3 := propertyObjectP_err_head 'S' (c := ']') (i := i) (by decide)
  have e4 := propertyObjectP_err_head 'E' (c := ']') (i := i) (by decide)
  have e5 := arcObjectP_err_head (c := ']') (i := i) (by decide)
  have e6 := componentPW_err_head sub (c := ']') (i := i) (by decide)
  have e7 := lineObjectP_err_head (c := ']') (i := i) (by decide)
  have e8 := polygonObjectP_err_head (c := ']') (i := i) (by decide)
  have e9 := rectangleObjectP_err_head (c := ']') (i := i) (by decide)
  have e10 := textObjectP_err_head (c := ']') (i := i) (by decide)
  have e11 := wireObjectP_err_head (c := ']') (i := i) (by decide)
  simp only [anyObjectPW, alt2, pmap, e0, e1, e2, e3, e4, e5, e6, e7, e8, e9, e10, e11]
  exact ⟨_, rfl⟩

theorem fold_element_err (sub : P PError Schematic) (rest : Str)
    (hrest : rest = [] ∨ ∃ r', rest = '\n' :: ']' :: r') :
    ∃ e, precededP multispace1 (anyObjectPW sub) rest = .err e := by
  rcases hrest with rfl | ⟨r', rfl⟩
  · exact ⟨_, rfl⟩
  · have hms : multispace1 (ε := PError) ('\n' :: (']' :: r')) = .ok (']' :: r') ['\n'] :=
      multispace1_run ['\n'] _ (by decide) (by decide)
        (fun c t hct => by injection hct with h1 h2; subst h1; decide)
    obtain ⟨e, he⟩ := anyObjectPW_err_bracket sub r'
    refine ⟨e, ?_⟩
    simp only [precededP, bindP, hms, he]

theorem renderObjListW_dropWs (subR : Schematic → Str) (os : List Object) (rest : Str)
    (hrest : rest = [] ∨ ∃ r', rest = '\n' :: ']' :: r') :
    ∀ r2, (renderObjListW subR os ++ rest).dropWhile isWsChar ≠ '[' :: r2 := by
  cases os with
  | nil =>
    simp only [renderObjListW, List.nil_append]
    rcases hrest with rfl | ⟨r', rfl⟩
    · simp
    · intro r2
      rw [List.dropWhile_cons_of_pos (by decide), List.dropWhile_cons_of_neg (by decide)]
      intro hcon
      injection hcon with h1 h2
      cases h1
  | cons o os2 =>
    intro r2
    obtain ⟨c, t, hct, hws, hbr⟩ := renderObjW_head subR o
    show (('\n' :: (renderObjW subR o ++ renderObjListW subR os2)) ++ rest).dropWhile
      isWsChar ≠ '[' :: r2
    rw [List.cons_append, List.dropWhile_cons_of_pos (by decide)]
    rw [List.append_assoc, hct, List.cons_append]
    rw [List.dropWhile_cons_of_neg (by simp [hws])]
    intro hcon
    injection hcon with h1 h2
    exact hbr h1

theorem foldMany0_render_objs (sub : P PError Schematic) (subR : Schematic → Str)
    (rest : Str) (hrest : rest = [] ∨ ∃ r', rest = '\n' :: ']' :: r') :
    ∀ (os : List Object) (acc : Schematic) (fuel : ℕ),
      (∀ o ∈ os, ∀ r2 : Str, (∀ r3, r2.dropWhile isWsChar ≠ '[' :: r3) →
        anyObjectPW sub (renderObjW subR o ++ r2) = .ok r2 o) →
      (renderObjListW subR os ++ rest).length + 1 ≤ fuel →
      foldMany0 (precededP multispace1 (anyObjectPW sub)) Schematic.add_object fuel acc
        (renderObjListW subR os ++ rest) = .ok rest (os.foldl Schematic.add_object acc) := by
  intro os
  induction os with
  | nil =>
    intro acc fuel _ hfuel
    cases fuel with
    | zero => omega
    | succ f =>
      obtain ⟨e, he⟩ := fold_element_err sub rest hrest
      simp only [renderObjListW, List.nil_append] at he ⊢
      simp only [foldMany0, he, List.foldl_nil]
  | cons o os2 ih =>
    intro acc fuel h hfuel
    simp only [renderObjListW, List.cons_append, List.length_cons] at hfuel ⊢
    cases fuel with
    | zero => omega
    | succ f =>
      obtain ⟨c, t, hct, hws, hbr⟩ := renderObjW_head subR o
      have hms : multispace1 (ε := PError)
          ('\n' :: ((renderObjW subR o ++ renderObjListW subR os2) ++ rest)) =
          .ok ((renderObjW subR o ++ renderObjListW subR os2) ++ rest) ['\n'] :=
        multispace1_run ['\n'] ((renderObjW subR o ++ renderObjListW subR os2) ++ rest)
          (by decide) (by decide)
          (fun c2 t2 hct2 => by
            rw [hct, List.cons_append, List.cons_append] at hct2
            injection hct2 with h1 h2
            subst h1
            exact hws)
      have hobj : anyObjectPW sub
          ((renderObjW subR o ++ renderObjListW subR os2) ++ rest) =
          .ok (renderObjListW subR os2 ++ rest) o := by
        rw [List.append_assoc]
        exact h o (by simp) _ (renderObjListW_dropWs subR os2 rest hrest)
      have hel : precededP multispace1 (anyObjectPW sub)
          ('\n' :: ((renderObjW subR o ++ renderObjListW subR os2) ++ rest)) =
          .ok (renderObjListW subR os2 ++ rest) o := by
        simp only [precededP, bindP, hms, hobj]
      have hlen : (renderObjListW subR os2 ++ rest).length ≠
          ('\n' :: ((renderObjW subR o ++ renderObjListW subR os2) ++ rest)).length := by
        simp only [List.length_cons, List.length_append]
        omega
      have ihh := ih (Schematic.add_object acc o) f
        (fun o2 ho2 => h o2 (by simp [ho2]))
        (by
          simp only [List.length_append] at hfuel ⊢
          omega)
      simp only [foldMany0, hel, if_neg hlen, ihh, List.foldl_cons]

end FoldRender

section Reconstruct

theorem foldl_seg_vhdl (g2 : Option Property) (v : Version) (g k vl sp te : Option Property) (ts : List Text) (ls : List Line) (rs : List Rectangle) (ps : List Polygon) (ar : List Arc) (ws : List Wire) (cs : List Component) :
    ((g2.toList.map Object.vhdlProp).foldl Schematic.add_object
      (.mk v g k vl sp te ts ls rs ps ar ws cs)) =
    .mk v (g2.or g) k vl sp te ts ls rs ps ar ws cs := by
  cases g2 <;> rfl

theorem foldl_seg_symbol (k2 : Option Property) (v : Version) (g k vl sp te : Option Property) (ts : List Text) (ls : List Line) (rs : List Rectangle) (ps : List Polygon) (ar : List Arc) (ws : List Wire) (cs : List Component) :
    ((k2.toList.map Object.symbolProp).foldl Schematic.add_object
      (.mk v g k vl sp te ts ls rs ps ar ws cs)) =
    .mk v g (k2.or k) vl sp te ts ls rs ps ar ws cs := by
  cases k2 <;> rfl

theorem foldl_seg_verilog (vl2 : Option Property) (v : Version) (g k vl sp te : Option Property) (ts : List Text) (ls : List Line) (rs : List Rectangle) (ps : List Polygon) (ar : List Arc) (ws : List Wire) (cs : List Component) :
    ((vl2.toList.map Object.verilogProp).foldl Schematic.add_object
      (.mk v g k vl sp te ts ls rs ps ar ws cs)) =
    .mk v g k (vl2.or vl) sp te ts ls rs ps ar ws cs := by
  cases vl2 <;> rfl

theorem foldl_seg_spice (sp2 : Option Property) (v : Version) (g k vl sp te : Option Property) (ts : List Text) (ls : List Line) (rs : List Rectangle) (ps : List Polygon) (ar : List Arc) (ws : List Wire) (cs : List Component) :
    ((sp2.toList.map Object.spiceProp).foldl Schematic.add_object
      (.mk v g k vl sp te ts ls rs ps ar ws cs)) =
    .mk v g k vl (sp2.or sp) te ts ls rs ps ar ws cs := by
  cases sp2 <;> rfl

theorem foldl_seg_tedax (te2 : Option Property) (v : Version) (g k vl sp te : Option Property) (ts : List Text) (ls : List Line) (rs : List Rectangle) (ps : List Polygon) (ar : List Arc) (ws : List Wire) (cs : List Component) :
    ((te2.toList.map Object.tedaxProp).foldl Schematic.add_object
      (.mk v g k vl sp te ts ls rs ps ar ws cs)) =
    .mk v g k vl sp (te2.or te) ts ls rs ps ar ws cs := by
  cases te2 <;> rfl

theorem foldl_seg_text (ts2 : List Text) :
    ∀ (v : Version) (g k vl sp te : Option Property) (ts : List Text) (ls : List Line) (rs : List Rectangle) (ps : List Polygon) (ar : List Arc) (ws : List Wire) (cs : List Component),
    ((ts2.map Object.text).foldl Schematic.add_object
      (.mk v g k vl sp te ts ls rs ps ar ws cs)) =
    .mk v g k vl sp te (ts ++ ts2) ls rs ps ar ws cs := by
  induction ts2 with
  | nil => intro v g k vl sp te ts ls rs ps ar ws cs; simp
  | cons x xs ih =>
    intro v g k vl sp te ts ls rs ps ar ws cs
    simp only [List.map_cons, List.foldl_cons, Schematic.add_object]
    rw [ih]
    simp

theorem foldl_seg_line (ls2 : List Line) :
    ∀ (v : Version) (g k vl sp te : Option Property) (ts : List Text) (ls : List Line) (rs : List Rectangle) (ps : List Polygon) (ar : List Arc) (ws : List Wire) (cs : List Component),
    ((ls2.map Object.line).foldl Schematic.add_object
      (.mk v g k vl sp te ts ls rs ps ar ws cs)) =
    .mk v g k vl sp te ts (ls ++ ls2) rs ps ar ws cs := by
  induction ls2 with
  | nil => intro v g k vl sp te ts ls rs ps ar ws cs; simp
  | cons x xs ih =>
    intro v g k vl sp te ts ls rs ps ar ws cs
    simp only [List.map_cons, List.foldl_cons, Schematic.add_object]
    rw [ih]
    simp

theorem foldl_seg_rect (rs2 : List Rectangle) :
    ∀ (v : Version) (g k vl sp te : Option Property) (ts : List Text) (ls : List Line) (rs : List Rectangle) (ps : List Polygon) (ar : List Arc) (ws : List Wire) (cs : List Component),
    ((rs2.map Object.rectangle).foldl Schematic.add_object
      (.mk v g k vl sp te ts ls rs ps ar ws cs)) =
    .mk v g k vl sp te ts ls (rs ++ rs2) ps ar ws cs := by
  induction rs2 with
  | nil => intro v g k vl sp te ts ls rs ps ar ws cs; simp
  | cons x xs ih =>
    intro v g k vl sp te ts ls rs ps ar ws cs
    simp only [List.map_cons, List.foldl_cons, Schematic.add_object]
    rw [ih]
    simp

theorem foldl_seg_poly (ps2 : List Polygon) :
    ∀ (v : Version) (g k vl sp te : Option Property) (ts : List Text) (ls : List Line) (rs : List Rectangle) (ps : List Polygon) (ar : List Arc) (ws : List Wire) (cs : List Component),
    ((ps2.map Object.polygon).foldl Schematic.add_object
      (.mk v g k vl sp te ts ls rs ps ar ws cs)) =
    .mk v g k vl sp te ts ls rs (ps ++ ps2) ar ws cs := by
  induction ps2 with
  | nil => intro v g k vl sp te ts ls rs ps ar ws cs; simp
  | cons x xs ih =>
    intro v g k vl sp te ts ls rs ps ar ws cs
    simp only [List.map_cons, List.foldl_cons, Schematic.add_object]
    rw [ih]
    simp

theorem foldl_seg_arc (ar2 : List Arc) :
    ∀ (v : Version) (g k vl sp te : Option Property) (ts : List Text) (ls : List Line) (rs : List Rectangle) (ps : List Polygon) (ar : List Arc) (ws : List Wire) (cs : List Component),
    ((ar2.map Object.arc).foldl Schematic.add_object
      (.mk v g k vl sp te ts ls rs ps ar ws cs)) =
    .mk v g k vl sp te ts ls rs ps (ar ++ ar2) ws cs := by
  induction ar2 with
  | nil => intro v g k vl sp te ts ls rs ps ar ws cs; simp
  | cons x xs ih =>
    intro v g k vl sp te ts ls rs ps ar ws cs
    simp only [List.map_cons, List.foldl_cons, Schematic.add_object]
    rw [ih]
    simp

theorem foldl_seg_wire (ws2 : List Wire) :
    ∀ (v : Version) (g k vl sp te : Option Property) (ts : List Text) (ls : List Line) (rs : List Rectangle) (ps : List Polygon) (ar : List Arc) (ws : List Wire) (cs : List Component),
    ((ws2.map Object.wire).foldl Schematic.add_object
      (.mk v g k vl sp te ts ls rs ps ar ws cs)) =
    .mk v g k vl sp te ts ls rs ps ar (ws ++ ws2) cs := by
  induction ws2 with
  | nil => intro v g k vl sp te ts ls rs ps ar ws cs; simp
  | cons x xs ih =>
    intro v g k vl sp te ts ls rs ps ar ws cs
    simp only [List.map_cons, List.foldl_cons, Schematic.add_object]
    rw [ih]
    simp

theorem foldl_seg_comp (cs2 : List Component) :
    ∀ (v : Version) (g k vl sp te : Option Property) (ts : List Text) (ls : List Line) (rs : List Rectangle) (ps : List Polygon) (ar : List Arc) (ws : List Wire) (cs : List Component),
    ((cs2.map Object.component).foldl Schematic.add_object
      (.mk v g k vl sp te ts ls rs ps ar ws cs)) =
    .mk v g k vl sp te ts ls rs ps ar ws (cs ++ cs2) := by
  induction cs2 with
  | nil => intro v g k vl sp te ts ls rs ps ar ws cs; simp
  | cons x xs ih =>
    intro v g k vl sp te ts ls rs ps ar ws cs
    simp only [List.map_cons, List.foldl_cons, Schematic.add_object]
    rw [ih]
    simp

theorem foldl_objList (S : Schematic) :
    (objList S).foldl Schematic.add_object (Schematic.new S.version) = S := by
  cases S with
  | mk v g k vl sp te ts ls rs ps ar ws cs =>
    simp only [objList, Schematic.new, List.foldl_append,
      foldl_seg_vhdl, foldl_seg_symbol, foldl_seg_verilog, foldl_seg_spice, foldl_seg_tedax,
      foldl_seg_text, foldl_seg_line, foldl_seg_rect, foldl_seg_poly, foldl_seg_arc,
      foldl_seg_wire, foldl_seg_comp]
    simp
    rfl

theorem foldl_objList2 (S : Schematic) (v : Version) (hv : S.version = v) :
    (objList S).foldl Schematic.add_object (Schematic.new v) = S := by
  subst hv
  exact foldl_objList S

end Reconstruct

section SchematicRender

theorem SchWF_version {S : Schematic} (h : SchWF S) : PropertyWF S.version.vp := by
  cases h with
  | mk v g k vl sp te ts ls rs ps ar ws cs hv => exact hv

theorem SchWF_objList {S : Schematic} (h : SchWF S) : ∀ o ∈ objList S, ObjWF o := by
  cases h with
  | mk v g k vl sp te ts ls rs ps ar ws cs hv hg hk hvl hsp hte hts hls hrs hps har hws2
      hcs hemb =>
    intro o ho
    simp only [objList, List.mem_append, List.mem_map] at ho
    rcases ho with ((((((((((ho | ho) | ho) | ho) | ho) | ho) | ho) | ho) | ho) | ho) | ho) | ho
    · obtain ⟨x, hx, rfl⟩ := ho
      exact hg x (by simpa using hx)
    · obtain ⟨x, hx, rfl⟩ := ho
      exact hk x (by simpa using hx)
    · obtain ⟨x, hx, rfl⟩ := ho
      exact hvl x (by simpa using hx)
    · obtain ⟨x, hx, rfl⟩ := ho
      exact hsp x (by simpa using hx)
    · obtain ⟨x, hx, rfl⟩ := ho
      exact hte x (by simpa using hx)
    · obtain ⟨x, hx, rfl⟩ := ho
      exact hts x hx
    · obtain ⟨x, hx, rfl⟩ := ho
      exact hls x hx
    · obtain ⟨x, hx, rfl⟩ := ho
      exact hrs x hx
    · obtain ⟨x, hx, rfl⟩ := ho
      exact hps x hx
    · obtain ⟨x, hx, rfl⟩ := ho
      exact har x hx
    · obtain ⟨x, hx, rfl⟩ := ho
      exact hws2 x hx
    · obtain ⟨x, hx, rfl⟩ := ho
      exact hcs x hx

theorem SchWF_emb {S : Schematic} (h : SchWF S) {c : Component} (hc : c ∈ S.components) :
    ∀ e ∈ c.embedding, SchWF e := by
  cases h with
  | mk v g k vl sp te ts ls rs ps ar ws cs hv hg hk hvl hsp hte hts hls hrs hps har hws2
      hcs hemb =>
    exact hemb c hc

theorem renderS_unfold (S : Schematic) : renderS S = renderSW renderS S := by
  have h1 := schSize_pos S
  unfold renderS
  cases hs : schSize S with
  | zero => omega
  | succ f =>
    simp only [renderSF]
    apply renderSW_congr
    intro e he
    have hlt := embedded_schSize_lt he
    rw [hs] at hlt
    exact renderSF_eq_renderS f e (by omega)

theorem renderS_head (S : Schematic) : ∃ t, renderS S = 'v' :: t := by
  rw [renderS_unfold]
  exact ⟨_, rfl⟩

theorem multispace0_cons_nonws {ε : Type} [ErrM ε] (c : Char) (t : Str)
    (hc : isWsChar c = false) :
    multispace0 (ε := ε) (c :: t) = .ok (c :: t) [] := by
  simp only [multispace0, takeWhileP]
  rw [List.takeWhile_cons_of_neg (by simp [hc]), List.dropWhile_cons_of_neg (by simp [hc])]

theorem schematicFuel_render : ∀ fuel (S : Schematic) (rest : Str), SchWF S →
    schSize S ≤ fuel → (rest = [] ∨ ∃ r', rest = '\n' :: ']' :: r') →
    schematicFuel fuel (renderS S ++ rest) = .ok rest S := by
  intro fuel
  induction fuel using Nat.strong_induction_on with
  | _ fuel ih =>
    intro S rest hwf hfuel hrest
    have hpos := schSize_pos S
    cases fuel with
    | zero => omega
    | succ f =>
      have hshape : renderS S ++ rest =
          'v' :: ' ' :: (renderProp S.version.vp ++
            (renderObjListW renderS (objList S) ++ rest)) := by
        rw [renderS_unfold]
        simp [renderSW, List.append_assoc]
      have hms0 : multispace0 (ε := PError)
          ('v' :: ' ' :: (renderProp S.version.vp ++
            (renderObjListW renderS (objList S) ++ rest))) =
          .ok ('v' :: ' ' :: (renderProp S.version.vp ++
            (renderObjListW renderS (objList S) ++ rest))) [] :=
        multispace0_cons_nonws 'v' _ (by decide)
      have hver := versionObjectP_render S.version (SchWF_version hwf)
        (renderObjListW renderS (objList S) ++ rest)
      have hpt : ∀ o ∈ objList S, ∀ r2 : Str,
          (∀ r3, r2.dropWhile isWsChar ≠ '[' :: r3) →
          anyObjectPW (schematicFuel f) (renderObjW renderS o ++ r2) = .ok r2 o := by
        intro o ho r2 hr2
        apply anyObjectPW_render _ renderS r2 o (SchWF_objList hwf o ho)
        intro ref pos rot fl prop emb heq
        cases emb with
        | none =>
          simp only [renderEmbW, List.nil_append]
          exact opt_embedding_none _ r2 hr2
        | some e =>
          have hcmem : (⟨ref, pos, rot, fl, prop, some e⟩ : Component) ∈ S.components := by
            apply component_mem_objList
            rw [← heq]
            exact ho
          have hewf : SchWF e := SchWF_emb hwf hcmem e (by simp)
          have hesize : schSize e < schSize S :=
            embedded_schSize_lt ⟨_, hcmem, rfl⟩
          have hsub : schematicFuel f (renderS e ++ ('\n' :: ']' :: r2)) =
              .ok ('\n' :: ']' :: r2) e :=
            ih f (by omega) e _ hewf (by omega) (Or.inr ⟨r2, rfl⟩)
          obtain ⟨t3, hv3⟩ := renderS_head e
          have hhead : ∀ c2 t2, renderS e ++ ('\n' :: ']' :: r2) = c2 :: t2 →
              isWsChar c2 = false := by
            intro c2 t2 hct
            rw [hv3, List.cons_append] at hct
            injection hct with h1 _
            subst h1
            decide
          have hopt := opt_embedding_some (schematicFuel f) (renderS e) e r2 hsub hhead
          simpa [renderEmbW] using hopt
      have hfold := foldMany0_render_objs (schematicFuel f) renderS rest hrest
        (objList S) (Schematic.new S.version)
        ((renderObjListW renderS (objList S) ++ rest).length + 1) hpt (le_refl _)
      rw [hshape]
      simp only [schematicFuel, schematicPW, bindP, hms0, hver]
      rw [hfold, foldl_objList]

end SchematicRender

section OkInversions

variable {ε α β γ : Type} [ErrM ε]

theorem bindP_ok_inv {p : P ε α} {f : α → P ε β} {i r : Str} {v : β}
    (h : bindP p f i = .ok r v) : ∃ r1 v1, p i = .ok r1 v1 ∧ f v1 r1 = .ok r v := by
  cases hp : p i <;> rw [bindP, hp] at h
  · exact ⟨_, _, rfl, h⟩
  · cases h
  · cases h
  · cases h
  · cases h

theorem pmap_ok_inv {f : α → β} {p : P ε α} {i r : Str} {v : β}
    (h : pmap f p i = .ok r v) : ∃ v1, p i = .ok r v1 ∧ v = f v1 := by
  cases hp : p i <;> rw [pmap, hp] at h
  · injection h with h1 h2
    subst h1
    exact ⟨_, rfl, h2.symm⟩
  · cases h
  · cases h
  · cases h
  · cases h

theorem cutP_ok_inv {p : P ε α} {i r : Str} {v : α}
    (h : cutP p i = .ok r v) : p i = .ok r v := by
  cases hp : p i <;> rw [cutP, hp] at h
  · exact h
  · cases h
  · cases h
  · cases h
  · cases h

theorem ctxP_ok_inv {nm : String} {p : P ε α} {i r : Str} {v : α}
    (h : ctxP nm p i = .ok r v) : p i = .ok r v := by
  cases hp : p i <;> rw [ctxP, hp] at h
  · exact h
  · cases h
  · cases h
  · cases h
  · cases h

theorem precededP_ok_inv {p : P ε α} {q : P ε β} {i r : Str} {v : β}
    (h : precededP p q i = .ok r v) : ∃ r1, q r1 = .ok r v := by
  obtain ⟨r1, v1, _, h2⟩ := bindP_ok_inv h
  exact ⟨r1, h2⟩

theorem terminatedP_ok_inv {p : P ε α} {q : P ε β} {i r : Str} {v : α}
    (h : terminatedP p q i = .ok r v) : ∃ r1, p i = .ok r1 v := by
  obtain ⟨r1, v1, h1, h2⟩ := bindP_ok_inv h
  obtain ⟨v2, _, hv⟩ := pmap_ok_inv h2
  subst hv
  exact ⟨r1, h1⟩

theorem alt2_ok_inv {p q : P ε α} {i r : Str} {v : α}
    (h : alt2 p q i = .ok r v) : p i = .ok r v ∨ q i = .ok r v := by
  cases hp : p i <;> rw [alt2, hp] at h
  · exact Or.inl h
  · cases hq : q i <;> rw [hq] at h
    · exact Or.inr h
    · cases h
    · cases h
    · cases h
    · cases h
  · cases h
  · cases h
  · cases h

theorem optP_ok_inv {p : P ε α} {i r : Str} {v : Option α}
    (h : optP p i = .ok r v) : v = none ∨ ∃ x, v = some x ∧ p i = .ok r x := by
  cases hp : p i <;> rw [optP, hp] at h
  · injection h with h1 h2
    subst h1
    exact Or.inr ⟨_, h2.symm, rfl⟩
  · injection h with h1 h2
    exact Or.inl h2.symm
  · cases h
  · cases h
  · cases h

theorem objectP_ok_inv {nm : String} {t : Char} {p : P ε α} {i r : Str} {v : α}
    (h : objectP nm t p i = .ok r v) : ∃ i2, p i2 = .ok r v := by
  have h1 := ctxP_ok_inv h
  obtain ⟨r1, h2⟩ := precededP_ok_inv h1
  exact ⟨r1, cutP_ok_inv h2⟩

theorem separatedPairP_ok_inv {p : P ε α} {sep : P ε β} {q : P ε γ} {i r : Str}
    {v : α × γ} (h : separatedPairP p sep q i = .ok r v) :
    ∃ r1 r2, p i = .ok r1 v.1 ∧ q r2 = .ok r v.2 := by
  obtain ⟨r1, v1, h1, h2⟩ := bindP_ok_inv h
  obtain ⟨r2, h3⟩ := precededP_ok_inv h2
  obtain ⟨v2, h4, hv⟩ := pmap_ok_inv h3
  subst hv
  exact ⟨r1, r2, h1, h4⟩

end OkInversions

section PropInv

variable {ε β : Type} [ErrM ε]

theorem escLoop_step_esc_short {normal : P ε Char} {escp : P ε β} {control : Char}
    {input : Str} {e : ε} (hnorm : normal [control] = .err e) (n : ℕ) (flag : Bool) :
    escLoop normal escp control input (n + 1) flag [control] =
      .err (ErrM.fromKind input .escaped) := by
  simp only [escLoop, hnorm]
  cases flag <;> simp

theorem escLoop_step_esc_err {normal : P ε Char} {escp : P ε β} {control : Char}
    {input : Str} {t : Str} {e e2 : ε} (hnorm : normal (control :: t) = .err e)
    (hte : t ≠ []) (hes : escp t = .err e2) (n : ℕ) (flag : Bool) :
    escLoop normal escp control input (n + 1) flag (control :: t) =
      .err (ErrM.fromKind (control :: t) .escaped) := by
  have hlen : ¬((control :: t).length ≤ 1) := by
    cases t with
    | nil => exact absurd rfl hte
    | cons a b => simp
  simp only [escLoop, hnorm]
  cases flag <;>
    · rw [if_true, if_neg hlen, hes]

theorem oneOfP_err_of {cs : List Char} {c : Char} {t : Str} (h : c ∉ cs) :
    oneOfP (ε := ε) cs (c :: t) = .err (ErrM.fromKind (c :: t) .oneOf) := by
  simp [oneOfP, h]

theorem escaped_chars_cases {c : Char} (h : c ∈ ESCAPED_CHARS) :
    c = '\\' ∨ c = '\x7b' ∨ c = '\x7d' := by
  simpa [ESCAPED_CHARS] using h

theorem not_escaped_chars {c : Char} (h : c ∉ ESCAPED_CHARS) :
    c ≠ '\\' ∧ c ≠ '\x7b' ∧ c ≠ '\x7d' := by
  simp only [ESCAPED_CHARS, List.mem_cons, List.not_mem_nil, or_false, not_or] at h
  exact h

theorem escLoop_prop_inv : ∀ (fuel : ℕ) (pre i r out : Str),
    (∀ ext, PropWF ext → PropWF (pre ++ ext)) →
    escLoop (ε := ε) (noneOfP ESCAPED_CHARS) (oneOfP ESCAPED_CHARS) '\\' (pre ++ i)
      fuel false i = .ok r out →
    PropWF out := by
  intro fuel
  induction fuel with
  | zero =>
    intro pre i r out happ h
    simp only [escLoop] at h
    cases h
  | succ n ih =>
    intro pre i r out happ h
    cases i with
    | nil =>
      simp only [escLoop] at h
      injection h with h1 h2
      subst h2
      exact happ [] PropWF.nil
    | cons c irest =>
      by_cases hc : c ∈ ESCAPED_CHARS
      · by_cases hcc : c = '\\'
        · subst hcc
          cases irest with
          | nil =>
            rw [escLoop_step_esc_short (noneOfP_err_of hc)] at h
            cases h
          | cons e t2 =>
            by_cases he : e ∈ ESCAPED_CHARS
            · cases t2 with
              | nil =>
                rw [escLoop_step_escape_end (noneOfP_err_of hc) (by simp)
                  (oneOfP_ok_of he)] at h
                injection h with h1 h2
                subst h2
                exact happ ['\\', e] (PropWF.esc e [] (escaped_chars_cases he) PropWF.nil)
              | cons c3 t3 =>
                rw [escLoop_step_escape (noneOfP_err_of hc) (by simp)
                  (oneOfP_ok_of he) (by simp)] at h
                rw [show pre ++ '\\' :: e :: c3 :: t3 =
                  (pre ++ ['\\', e]) ++ c3 :: t3 by simp] at h
                refine ih (pre ++ ['\\', e]) (c3 :: t3) r out ?_ h
                intro ext hext
                rw [List.append_assoc]
                exact happ ('\\' :: e :: ext)
                  (PropWF.esc e ext (escaped_chars_cases he) hext)
            · rw [escLoop_step_esc_err (noneOfP_err_of hc) (by simp)
                (oneOfP_err_of he)] at h
              cases h
        · rw [escLoop_step_stop (noneOfP_err_of hc) hcc] at h
          injection h with h1 h2
          have hlen : (pre ++ c :: irest).length - (c :: irest).length = pre.length := by
            simp [List.length_append]
          rw [hlen, List.take_left] at h2
          subst h2
          have := happ [] PropWF.nil
          simpa using this
      · obtain ⟨h1, h2, h3⟩ := not_escaped_chars hc
        cases irest with
        | nil =>
          rw [escLoop_step_normal_end (noneOfP_ok_of hc)] at h
          injection h with hr hout
          subst hout
          exact happ [c] (PropWF.normal c [] h1 h2 h3 PropWF.nil)
        | cons c2 t2 =>
          rw [escLoop_step_normal (noneOfP_ok_of hc) (by simp) (by simp)] at h
          rw [show pre ++ c :: c2 :: t2 = (pre ++ [c]) ++ c2 :: t2 by simp] at h
          refine ih (pre ++ [c]) (c2 :: t2) r out ?_ h
          intro ext hext
          rw [List.append_assoc]
          exact happ (c :: ext) (PropWF.normal c ext h1 h2 h3 hext)

theorem propertyStringP_ok_wf {i r out : Str}
    (h : propertyStringP (ε := ε) i = .ok r out) : PropWF out := by
  simp only [propertyStringP, escaped0P, ESCAPE_CHAR] at h
  exact escLoop_prop_inv (2 * i.length + 2) [] i r out (fun ext hext => hext) h

end PropInv

section LeafWF

variable {ε α : Type} [ErrM ε]

theorem attrLoop_ok_nil : ∀ (fuel : ℕ) (acc : AttrMap) (i r : Str) (a : AttrMap),
    attrLoop fuel acc i = .ok r a → r = [] := by
  intro fuel
  induction fuel with
  | zero =>
    intro acc i r a h
    simp only [attrLoop] at h
    cases h
  | succ n ih =>
    intro acc i r a h
    simp only [attrLoop] at h
    by_cases hi : i = []
    · rw [if_pos hi] at h
      injection h with h1 h2
      subst hi
      exact h1.symm
    · rw [if_neg hi] at h
      cases hstep : attrStep i <;> rw [hstep] at h
      · rename_i rest v
        cases v with
        | some kv => exact ih _ _ _ _ h
        | none => exact ih _ _ _ _ h
      · cases h
      · cases h
      · cases h
      · cases h

theorem braceEnclosed_ctx_propstr_ok_wf {nm : String} {i r out : Str}
    (h : braceEnclosed (ε := ε) (ctxP nm propertyStringP) i = .ok r out) : PropWF out := by
  unfold braceEnclosed at h
  obtain ⟨r1, h2⟩ := precededP_ok_inv h
  have h3 := cutP_ok_inv h2
  obtain ⟨r2, h4⟩ := terminatedP_ok_inv h3
  exact propertyStringP_ok_wf (ctxP_ok_inv h4)

theorem propertyP_ok_wf {i r : Str} {p : Property} (h : propertyP i = .ok r p) :
    PropertyWF p := by
  simp only [propertyP] at h
  cases hbe : braceEnclosed (ε := PError) (ctxP "property" propertyStringP) i <;>
    rw [hbe] at h
  · rename_i rest span
    have h2 : (match attributesP span with
        | PRes.ok restA attrs =>
            PRes.ok rest (Property.mk (span.take (span.length - restA.length)) attrs)
        | PRes.err e => PRes.err e
        | PRes.fail e => PRes.fail e
        | PRes.panic => PRes.panic
        | PRes.fuelOut => PRes.fuelOut) = PRes.ok r p := h
    cases hat : attributesP span <;> rw [hat] at h2
    · rename_i restA attrs
      injection h2 with h1 hp2
      have hwf := braceEnclosed_ctx_propstr_ok_wf hbe
      have hnil : restA = [] := attrLoop_ok_nil _ _ _ _ _ hat
      subst hnil
      rw [← hp2]
      constructor
      · simpa [List.take_length] using hwf
      · simpa [List.take_length] using hat
    · cases h2
    · cases h2
    · cases h2
    · cases h2
  · cases h
  · cases h
  · cases h
  · cases h

theorem textP_ok_wf {i r out : Str} (h : textP i = .ok r out) : PropWF out :=
  braceEnclosed_ctx_propstr_ok_wf h

theorem referenceP_ok_wf {i r out : Str} (h : referenceP i = .ok r out) : PropWF out :=
  braceEnclosed_ctx_propstr_ok_wf h

theorem finiteDoubleP_ok_wf {i r : Str} {q : Dec}
    (h : finiteDoubleP (ε := ε) i = .ok r q) : DecWF q := by
  simp only [finiteDoubleP] at h
  split at h
  · split at h
    · rename_i q2 hpf
      injection h with h1 h2
      subst h2
      exact rustParseF64_finite_wf _ _ hpf
    · cases h
    · cases h
  · cases h
  · cases h
  · cases h
  · cases h

theorem vec2P_ok_wf {i r : Str} {v : Vec2} (h : vec2P (ε := ε) i = .ok r v) :
    Vec2WF v := by
  simp only [vec2P] at h
  obtain ⟨v1, h1, hv⟩ := pmap_ok_inv h
  subst hv
  obtain ⟨r1, r2, ha, hb⟩ := separatedPairP_ok_inv h1
  exact ⟨finiteDoubleP_ok_wf ha, finiteDoubleP_ok_wf hb⟩

theorem coordinateP_ok_wf {i r : Str} {v : Vec2}
    (h : coordinateP (ε := ε) i = .ok r v) : Vec2WF v :=
  vec2P_ok_wf (ctxP_ok_inv h)

theorem sizeVecP_ok_wf {i r : Str} {v : Vec2}
    (h : sizeVecP (ε := ε) i = .ok r v) : Vec2WF v :=
  vec2P_ok_wf (ctxP_ok_inv h)

theorem uintP_ok_bound {bound : ℕ} {i r : Str} {n : ℕ}
    (h : uintP (ε := ε) bound i = .ok r n) : n ≤ bound := by
  obtain ⟨h1, h2, h3, h4⟩ := uintP_ok_iff.mp h
  subst h3
  exact h2

theorem lcLoop_ok_elts {p : P ε α} {Q : α → Prop}
    (hp : ∀ i r v, p i = .ok r v → Q v) :
    ∀ (n : ℕ) (i r : Str) (xs : List α),
      lcLoop p n i = .ok r xs → ∀ x ∈ xs, Q x := by
  intro n
  induction n with
  | zero =>
    intro i r xs h x hx
    simp only [lcLoop] at h
    injection h with h1 h2
    subst h2
    cases hx
  | succ m ih =>
    intro i r xs h x hx
    simp only [lcLoop] at h
    cases hpi : p i <;> rw [hpi] at h
    · rename_i rest y
      have h2 : (match lcLoop p m rest with
          | PRes.ok r2 xs2 => PRes.ok r2 (y :: xs2)
          | PRes.err e => PRes.err e
          | PRes.fail e => PRes.fail e
          | PRes.panic => PRes.panic
          | PRes.fuelOut => PRes.fuelOut) = PRes.ok r xs := h
      cases hl : lcLoop p m rest <;> rw [hl] at h2
      · rename_i r2 ys
        injection h2 with h1 h2e
        subst h2e
        rcases List.mem_cons.mp hx with rfl | hx2
        · exact hp _ _ _ hpi
        · exact ih _ _ _ hl x hx2
      · cases h2
      · cases h2
      · cases h2
      · cases h2
    · cases h
    · cases h
    · cases h
    · cases h

end LeafWF

section ObjectWFInv

theorem propertyObjectP_ok_wf {t : Char} {i r : Str} {p : Property}
    (h : propertyObjectP t i = .ok r p) : PropertyWF p := by
  obtain ⟨i0, h0⟩ := objectP_ok_inv h
  obtain ⟨r1, h1⟩ := precededP_ok_inv h0
  exact propertyP_ok_wf h1

theorem versionObjectP_ok_wf {i r : Str} {v : Version}
    (h : versionObjectP i = .ok r v) : PropertyWF v.vp := by
  obtain ⟨p, h0, hv⟩ := pmap_ok_inv h
  subst hv
  obtain ⟨i0, h1⟩ := objectP_ok_inv h0
  obtain ⟨r1, h2⟩ := precededP_ok_inv h1
  exact propertyP_ok_wf h2

theorem arcObjectP_ok_wf {i r : Str} {a : Arc} (h : arcObjectP i = .ok r a) :
    ArcWF a := by
  obtain ⟨i0, h0⟩ := objectP_ok_inv h
  obtain ⟨r1, layer, h1, h0⟩ := bindP_ok_inv h0
  obtain ⟨r2, center, h2, h0⟩ := bindP_ok_inv h0
  obtain ⟨r3, radius, h3, h0⟩ := bindP_ok_inv h0
  obtain ⟨r4, sa, h4, h0⟩ := bindP_ok_inv h0
  obtain ⟨r5, sw, h5, h0⟩ := bindP_ok_inv h0
  obtain ⟨prop, h6, ha⟩ := pmap_ok_inv h0
  subst ha
  obtain ⟨_, hl⟩ := precededP_ok_inv h1
  obtain ⟨_, hc⟩ := precededP_ok_inv h2
  obtain ⟨_, hr⟩ := precededP_ok_inv h3
  obtain ⟨_, hs⟩ := precededP_ok_inv h4
  obtain ⟨_, hw⟩ := precededP_ok_inv h5
  obtain ⟨_, hp⟩ := precededP_ok_inv h6
  exact ⟨uintP_ok_bound hl, coordinateP_ok_wf hc, finiteDoubleP_ok_wf hr,
    finiteDoubleP_ok_wf hs, finiteDoubleP_ok_wf hw, propertyP_ok_wf hp⟩

theorem lineObjectP_ok_wf {i r : Str} {l : Line} (h : lineObjectP i = .ok r l) :
    LineWF l := by
  obtain ⟨i0, h0⟩ := objectP_ok_inv h
  obtain ⟨r1, layer, h1, h0⟩ := bindP_ok_inv h0
  obtain ⟨r2, st, h2, h0⟩ := bindP_ok_inv h0
  obtain ⟨r3, en, h3, h0⟩ := bindP_ok_inv h0
  obtain ⟨prop, h4, hl2⟩ := pmap_ok_inv h0
  subst hl2
  obtain ⟨_, hl⟩ := precededP_ok_inv h1
  obtain ⟨_, hs⟩ := precededP_ok_inv h2
  obtain ⟨_, he⟩ := precededP_ok_inv h3
  obtain ⟨_, hp⟩ := precededP_ok_inv h4
  exact ⟨uintP_ok_bound hl, coordinateP_ok_wf hs, coordinateP_ok_wf he,
    propertyP_ok_wf hp⟩

theorem rectangleObjectP_ok_wf {i r : Str} {b : Rectangle}
    (h : rectangleObjectP i = .ok r b) : RectangleWF b := by
  obtain ⟨i0, h0⟩ := objectP_ok_inv h
  obtain ⟨r1, layer, h1, h0⟩ := bindP_ok_inv h0
  obtain ⟨r2, st, h2, h0⟩ := bindP_ok_inv h0
  obtain ⟨r3, en, h3, h0⟩ := bindP_ok_inv h0
  obtain ⟨prop, h4, hb⟩ := pmap_ok_inv h0
  subst hb
  obtain ⟨_, hl⟩ := precededP_ok_inv h1
  obtain ⟨_, hs⟩ := precededP_ok_inv h2
  obtain ⟨_, he⟩ := precededP_ok_inv h3
  obtain ⟨_, hp⟩ := precededP_ok_inv h4
  exact ⟨uintP_ok_bound hl, coordinateP_ok_wf hs, coordinateP_ok_wf he,
    propertyP_ok_wf hp⟩

theorem textObjectP_ok_wf {i r : Str} {t : Text} (h : textObjectP i = .ok r t) :
    TextWF t := by
  obtain ⟨i0, h0⟩ := objectP_ok_inv h
  obtain ⟨r1, tx, h1, h0⟩ := bindP_ok_inv h0
  obtain ⟨r2, pos, h2, h0⟩ := bindP_ok_inv h0
  obtain ⟨r3, rot, h3, h0⟩ := bindP_ok_inv h0
  obtain ⟨r4, fl, h4, h0⟩ := bindP_ok_inv h0
  obtain ⟨r5, sz, h5, h0⟩ := bindP_ok_inv h0
  obtain ⟨prop, h6, ht⟩ := pmap_ok_inv h0
  subst ht
  obtain ⟨_, htx⟩ := precededP_ok_inv h1
  obtain ⟨_, hpos⟩ := precededP_ok_inv h2
  obtain ⟨_, hsz⟩ := precededP_ok_inv h5
  obtain ⟨_, hp⟩ := precededP_ok_inv h6
  exact ⟨textP_ok_wf htx, coordinateP_ok_wf hpos, sizeVecP_ok_wf hsz,
    propertyP_ok_wf hp⟩

theorem wireObjectP_ok_wf {i r : Str} {w : Wire} (h : wireObjectP i = .ok r w) :
    WireWF w := by
  obtain ⟨i0, h0⟩ := objectP_ok_inv h
  obtain ⟨r1, st, h1, h0⟩ := bindP_ok_inv h0
  obtain ⟨r2, en, h2, h0⟩ := bindP_ok_inv h0
  obtain ⟨prop, h3, hw⟩ := pmap_ok_inv h0
  subst hw
  obtain ⟨_, hs⟩ := precededP_ok_inv h1
  obtain ⟨_, he⟩ := precededP_ok_inv h2
  obtain ⟨_, hp⟩ := precededP_ok_inv h3
  exact ⟨coordinateP_ok_wf hs, coordinateP_ok_wf he, propertyP_ok_wf hp⟩

theorem polygonObjectP_ok_wf {i r : Str} {pg : Polygon}
    (h : polygonObjectP i = .ok r pg) : PolygonWF pg := by
  obtain ⟨i0, h0⟩ := objectP_ok_inv h
  obtain ⟨r1, layer, h1, h0⟩ := bindP_ok_inv h0
  obtain ⟨r2, pts, h2, h0⟩ := bindP_ok_inv h0
  obtain ⟨prop, h3, hpg⟩ := pmap_ok_inv h0
  subst hpg
  obtain ⟨_, hl⟩ := precededP_ok_inv h1
  obtain ⟨i2, hlc⟩ := precededP_ok_inv h2
  obtain ⟨_, hp⟩ := precededP_ok_inv h3
  obtain ⟨rn, n, hn, hloop⟩ := bindP_ok_inv hlc
  have hlen := lcLoop_ok_length hloop
  have hbound := uintP_ok_bound hn
  refine ⟨uintP_ok_bound hl, by rw [hlen]; exact hbound, ?_, propertyP_ok_wf hp⟩
  refine lcLoop_ok_elts ?_ n rn _ pts hloop
  intro i3 r3 v3 hv3
  obtain ⟨r4, hco⟩ := precededP_ok_inv hv3
  exact coordinateP_ok_wf hco

theorem componentPW_ok_wf {sub : P PError Schematic} {i r : Str} {c : Component}
    (h : componentPW sub i = .ok r c) :
    (PropWF c.reference ∧ Vec2WF c.position ∧ PropertyWF c.property) ∧
    (∀ e ∈ c.embedding, ∃ i2 r2, sub i2 = .ok r2 e) := by
  obtain ⟨i0, h0⟩ := objectP_ok_inv h
  obtain ⟨r1, ref, h1, h0⟩ := bindP_ok_inv h0
  obtain ⟨r2, pos, h2, h0⟩ := bindP_ok_inv h0
  obtain ⟨r3, rot, h3, h0⟩ := bindP_ok_inv h0
  obtain ⟨r4, fl, h4, h0⟩ := bindP_ok_inv h0
  obtain ⟨r5, prop, h5, h0⟩ := bindP_ok_inv h0
  obtain ⟨emb, h6, hc⟩ := pmap_ok_inv h0
  subst hc
  obtain ⟨_, href⟩ := precededP_ok_inv h1
  obtain ⟨_, hpos⟩ := precededP_ok_inv h2
  obtain ⟨_, hprop⟩ := precededP_ok_inv h5
  refine ⟨⟨referenceP_ok_wf href, coordinateP_ok_wf hpos, propertyP_ok_wf hprop⟩, ?_⟩
  intro e he
  rcases optP_ok_inv h6 with hnone | ⟨x, hx, hopt⟩
  · subst hnone
    simp at he
  · subst hx
    rw [Option.mem_def] at he
    injection he with hex
    subst hex
    obtain ⟨i3, hgo⟩ := precededP_ok_inv hopt
    obtain ⟨i4, hterm⟩ := objectP_ok_inv hgo
    obtain ⟨r6, hpre⟩ := terminatedP_ok_inv hterm
    obtain ⟨i5, hsub⟩ := precededP_ok_inv hpre
    exact ⟨_, _, hsub⟩

theorem anyObjectPW_ok_wf {sub : P PError Schematic} {i r : Str} {o : Object}
    (hsub : ∀ i2 r2 e, sub i2 = .ok r2 e → SchWF e)
    (h : anyObjectPW sub i = .ok r o) :
    ObjWF o ∧ ∀ c, o = .component c → ∀ e ∈ c.embedding, SchWF e := by
  simp only [anyObjectPW] at h
  rcases alt2_ok_inv h with h | h
  · obtain ⟨p1, hp, ho⟩ := pmap_ok_inv h
    subst ho
    exact ⟨propertyObjectP_ok_wf hp, fun c hc => by cases hc⟩
  rcases alt2_ok_inv h with h | h
  · obtain ⟨p1, hp, ho⟩ := pmap_ok_inv h
    subst ho
    exact ⟨propertyObjectP_ok_wf hp, fun c hc => by cases hc⟩
  rcases alt2_ok_inv h with h | h
  · obtain ⟨p1, hp, ho⟩ := pmap_ok_inv h
    subst ho
    exact ⟨propertyObjectP_ok_wf hp, fun c hc => by cases hc⟩
  rcases alt2_ok_inv h with h | h
  · obtain ⟨p1, hp, ho⟩ := pmap_ok_inv h
    subst ho
    exact ⟨propertyObjectP_ok_wf hp, fun c hc => by cases hc⟩
  rcases alt2_ok_inv h with h | h
  · obtain ⟨p1, hp, ho⟩ := pmap_ok_inv h
    subst ho
    exact ⟨propertyObjectP_ok_wf hp, fun c hc => by cases hc⟩
  rcases alt2_ok_inv h with h | h
  · obtain ⟨p1, hp, ho⟩ := pmap_ok_inv h
    subst ho
    exact ⟨arcObjectP_ok_wf hp, fun c hc => by cases hc⟩
  rcases alt2_ok_inv h with h | h
  · obtain ⟨c1, hp, ho⟩ := pmap_ok_inv h
    subst ho
    obtain ⟨hwfc, hembp⟩ := componentPW_ok_wf hp
    refine ⟨hwfc, ?_⟩
    intro c2 hc2
    injection hc2 with hc3
    subst hc3
    intro e he
    obtain ⟨i2, r2, hs⟩ := hembp e he
    exact hsub _ _ _ hs
  rcases alt2_ok_inv h with h | h
  · obtain ⟨p1, hp, ho⟩ := pmap_ok_inv h
    subst ho
    exact ⟨lineObjectP_ok_wf hp, fun c hc => by cases hc⟩
  rcases alt2_ok_inv h with h | h
  · obtain ⟨p1, hp, ho⟩ := pmap_ok_inv h
    subst ho
    exact ⟨polygonObjectP_ok_wf hp, fun c hc => by cases hc⟩
  rcases alt2_ok_inv h with h | h
  · obtain ⟨p1, hp, ho⟩ := pmap_ok_inv h
    subst ho
    exact ⟨rectangleObjectP_ok_wf hp, fun c hc => by cases hc⟩
  rcases alt2_ok_inv h with h | h
  · obtain ⟨p1, hp, ho⟩ := pmap_ok_inv h
    subst ho
    exact ⟨textObjectP_ok_wf hp, fun c hc => by cases hc⟩
  · obtain ⟨p1, hp, ho⟩ := pmap_ok_inv h
    subst ho
    exact ⟨wireObjectP_ok_wf hp, fun c hc => by cases hc⟩

end ObjectWFInv

section FoldWF

theorem foldMany0_ok_elts {ε α σ : Type} [ErrM ε] {p : P ε α} {f : σ → α → σ}
    {Q : α → Prop} (hp : ∀ i r v, p i = .ok r v → Q v) :
    ∀ {fuel : ℕ} {acc : σ} {input r : Str} {res : σ},
      foldMany0 p f fuel acc input = .ok r res →
      ∃ xs : List α, res = xs.foldl f acc ∧ ∀ x ∈ xs, Q x := by
  intro fuel
  induction fuel with
  | zero =>
    intro acc input r res h
    simp only [foldMany0] at h
    cases h
  | succ n ih =>
    intro acc input r res h
    simp only [foldMany0] at h
    cases hpi : p input <;> rw [hpi] at h
    · rename_i rest x
      have h2 : (if rest.length = input.length
          then (PRes.err (ErrM.fromKind input .many) : PRes ε σ)
          else foldMany0 p f n (f acc x) rest) = .ok r res := h
      by_cases hlen : rest.length = input.length
      · rw [if_pos hlen] at h2
        cases h2
      · rw [if_neg hlen] at h2
        obtain ⟨xs, hres, hall⟩ := ih h2
        refine ⟨x :: xs, by simpa using hres, ?_⟩
        intro y hy
        rcases List.mem_cons.mp hy with rfl | hy2
        · exact hp _ _ _ hpi
        · exact hall y hy2
    · injection h with h1 h2
      subst h2
      exact ⟨[], rfl, by simp⟩
    · cases h
    · cases h
    · cases h

theorem new_WF {v : Version} (hv : PropertyWF v.vp) : SchWF (Schematic.new v) :=
  SchWF.mk v none none none none none [] [] [] [] [] [] [] hv
    (by simp) (by simp) (by simp) (by simp) (by simp) (by simp) (by simp)
    (by simp) (by simp) (by simp) (by simp) (by simp) (by simp)

theorem add_object_WF {S : Schematic} (h : SchWF S) {o : Object} (ho : ObjWF o)
    (hoe : ∀ c, o = .component c → ∀ e ∈ c.embedding, SchWF e) :
    SchWF (S.add_object o) := by
  cases h with
  | mk v g k vl sp te ts ls rs ps ar ws cs hv hg hk hvl hsp hte hts hls hrs hps har
      hws2 hcs hemb =>
    cases o with
    | vhdlProp p =>
      exact SchWF.mk v (some p) k vl sp te ts ls rs ps ar ws cs
        hv
        (by
          intro q hq
          simp only [Option.mem_def, Option.some.injEq] at hq
          subst hq
          exact ho)
        hk
        hvl
        hsp
        hte
        hts
        hls
        hrs
        hps
        har
        hws2
        hcs
        hemb
    | symbolProp p =>
      exact SchWF.mk v g (some p) vl sp te ts ls rs ps ar ws cs
        hv
        hg
        (by
          intro q hq
          simp only [Option.mem_def, Option.some.injEq] at hq
          subst hq
          exact ho)
        hvl
        hsp
        hte
        hts
        hls
        hrs
        hps
        har
        hws2
        hcs
        hemb
    | verilogProp p =>
      exact SchWF.mk v g k (some p) sp te ts ls rs ps ar ws cs
        hv
        hg
        hk
        (by
          intro q hq
          simp only [Option.mem_def, Option.some.injEq] at hq
          subst hq
          exact ho)
        hsp
        hte
        hts
        hls
        hrs
        hps
        har
        hws2
        hcs
        hemb
    | spiceProp p =>
      exact SchWF.mk v g k vl (some p) te ts ls rs ps ar ws cs
        hv
        hg
        hk
        hvl
        (by
          intro q hq
          simp only [Option.mem_def, Option.some.injEq] at hq
          subst hq
          exact ho)
        hte
        hts
        hls
        hrs
        hps
        har
        hws2
        hcs
        hemb
    | tedaxProp p =>
      exact SchWF.mk v g k vl sp (some p) ts ls rs ps ar ws cs
        hv
        hg
        hk
        hvl
        hsp
        (by
          intro q hq
          simp only [Option.mem_def, Option.some.injEq] at hq
          subst hq
          exact ho)
        hts
        hls
        hrs
        hps
        har
        hws2
        hcs
        hemb
    | arc x =>
      exact SchWF.mk v g k vl sp te ts ls rs ps (ar ++ [x]) ws cs
        hv
        hg
        hk
        hvl
        hsp
        hte
        hts
        hls
        hrs
        hps
        (by
          intro y hy
          rcases List.mem_append.mp hy with hy2 | hy2
          · exact har y hy2
          · simp only [List.mem_singleton] at hy2
            subst hy2
            exact ho)
        hws2
        hcs
        hemb
    | line x =>
      exact SchWF.mk v g k vl sp te ts (ls ++ [x]) rs ps ar ws cs
        hv
        hg
        hk
        hvl
        hsp
        hte
        hts
        (by
          intro y hy
          rcases List.mem_append.mp hy with hy2 | hy2
          · exact hls y hy2
          · simp only [List.mem_singleton] at hy2
            subst hy2
            exact ho)
        hrs
        hps
        har
        hws2
        hcs
        hemb
    | polygon x =>
      exact SchWF.mk v g k vl sp te ts ls rs (ps ++ [x]) ar ws cs
        hv
        hg
        hk
        hvl
        hsp
        hte
        hts
        hls
        hrs
        (by
          intro y hy
          rcases List.mem_append.mp hy with hy2 | hy2
          · exact hps y hy2
          · simp only [List.mem_singleton] at hy2
            subst hy2
            exact ho)
        har
        hws2
        hcs
        hemb
    | rectangle x =>
      exact SchWF.mk v g k vl sp te ts ls (rs ++ [x]) ps ar ws cs
        hv
        hg
        hk
        hvl
        hsp
        hte
        hts
        hls
        (by
          intro y hy
          rcases List.mem_append.mp hy with hy2 | hy2
          · exact hrs y hy2
          · simp only [List.mem_singleton] at hy2
            subst hy2
            exact ho)
        hps
        har
        hws2
        hcs
        hemb
    | text x =>
      exact SchWF.mk v g k vl sp te (ts ++ [x]) ls rs ps ar ws cs
        hv
        hg
        hk
        hvl
        hsp
        hte
        (by
          intro y hy
          rcases List.mem_append.mp hy with hy2 | hy2
          · exact hts y hy2
          · simp only [List.mem_singleton] at hy2
            subst hy2
            exact ho)
        hls
        hrs
        hps
        har
        hws2
        hcs
        hemb
    | wire x =>
      exact SchWF.mk v g k vl sp te ts ls rs ps ar (ws ++ [x]) cs
        hv
        hg
        hk
        hvl
        hsp
        hte
        hts
        hls
        hrs
        hps
        har
        (by
          intro y hy
          rcases List.mem_append.mp hy with hy2 | hy2
          · exact hws2 y hy2
          · simp only [List.mem_singleton] at hy2
            subst hy2
            exact ho)
        hcs
        hemb
    | component x =>
      refine SchWF.mk v g k vl sp te ts ls rs ps ar ws (cs ++ [x])
        hv hg hk hvl hsp hte hts hls hrs hps har hws2 ?_ ?_
      · intro c2 hc2
        rcases List.mem_append.mp hc2 with h2 | h2
        · exact hcs c2 h2
        · simp only [List.mem_singleton] at h2
          subst h2
          exact ho
      · intro c2 hc2
        rcases List.mem_append.mp hc2 with h2 | h2
        · exact hemb c2 h2
        · simp only [List.mem_singleton] at h2
          subst h2
          exact hoe _ rfl

theorem foldl_add_WF : ∀ (os : List Object) (acc : Schematic), SchWF acc →
    (∀ o ∈ os, ObjWF o ∧ ∀ c, o = .component c → ∀ e ∈ c.embedding, SchWF e) →
    SchWF (os.foldl Schematic.add_object acc) := by
  intro os
  induction os with
  | nil =>
    intro acc hacc h
    simpa using hacc
  | cons o os2 ih =>
    intro acc hacc h
    simp only [List.foldl_cons]
    refine ih _ (add_object_WF hacc (h o (by simp)).1 (h o (by simp)).2) ?_
    intro o2 ho2
    exact h o2 (by simp [ho2])

theorem schematicFuel_ok_wf : ∀ (fuel : ℕ) (i r : Str) (S : Schematic),
    schematicFuel fuel i = .ok r S → SchWF S := by
  intro fuel
  induction fuel with
  | zero =>
    intro i r S h
    simp only [schematicFuel] at h
    cases h
  | succ f ih =>
    intro i r S h
    simp only [schematicFuel, schematicPW] at h
    obtain ⟨r1, v1, h1, h⟩ := bindP_ok_inv h
    obtain ⟨r2, v2, h2, h⟩ := bindP_ok_inv h
    have hv := versionObjectP_ok_wf h2
    have hp : ∀ i2 r3 o, precededP multispace1 (anyObjectPW (schematicFuel f)) i2 =
        .ok r3 o → ObjWF o ∧ ∀ c, o = .component c → ∀ e ∈ c.embedding, SchWF e := by
      intro i2 r3 o hpo
      obtain ⟨r4, hao⟩ := precededP_ok_inv hpo
      exact anyObjectPW_ok_wf (fun i3 r5 e he => ih i3 r5 e he) hao
    obtain ⟨xs, hres, hall⟩ := foldMany0_ok_elts hp h
    subst hres
    exact foldl_add_WF xs _ (new_WF hv) hall

theorem schematicFullP_ok_wf {input : Str} {S : Schematic}
    (h : schematicFullP input = .ok S) : SchWF S := by
  simp only [schematicFullP] at h
  cases ht : terminatedP schematicP (precededP multispace0 eofP) input <;> rw [ht] at h
  · rename_i r v
    injection h with h1
    subst h1
    obtain ⟨r1, hs⟩ := terminatedP_ok_inv ht
    exact schematicFuel_ok_wf _ _ _ _ hs
  · cases h
  · cases h
  · cases h
  · cases h

end FoldWF

section FuelBound

theorem renderObjListW_append (sub : Schematic → Str) (l1 l2 : List Object) :
    renderObjListW sub (l1 ++ l2) = renderObjListW sub l1 ++ renderObjListW sub l2 := by
  induction l1 with
  | nil => simp [renderObjListW]
  | cons o t ih => simp [renderObjListW, ih]

theorem objList_split (v : Version) (g k vl sp te : Option Property) (ts : List Text)
    (ls : List Line) (rs : List Rectangle) (ps : List Polygon) (ar : List Arc)
    (ws : List Wire) (cs : List Component) :
    objList (.mk v g k vl sp te ts ls rs ps ar ws cs) =
    (g.toList.map Object.vhdlProp ++ k.toList.map Object.symbolProp ++
      vl.toList.map Object.verilogProp ++ sp.toList.map Object.spiceProp ++
      te.toList.map Object.tedaxProp ++ ts.map Object.text ++ ls.map Object.line ++
      rs.map Object.rectangle ++ ps.map Object.polygon ++ ar.map Object.arc ++
      ws.map Object.wire) ++ cs.map Object.component := by
  simp [objList, List.append_assoc]

theorem compSize_le_renderCompW (sub : Schematic → Str) (c : Component)
    (hemb : ∀ e ∈ c.embedding, schSize e ≤ (sub e).length) :
    compSize c ≤ (renderCompW sub c).length := by
  cases c with
  | mk ref pos rot fl prop emb =>
    cases emb with
    | none =>
      simp only [compSize, renderCompW, List.length_cons, List.length_append]
      omega
    | some e =>
      have he := hemb e (by simp)
      simp only [compSize, renderCompW, renderEmbW, List.length_cons, List.length_append]
      omega

theorem compsSize_le_render (sub : Schematic → Str) : ∀ (cs : List Component),
    (∀ c ∈ cs, compSize c ≤ (renderCompW sub c).length) →
    compsSize cs ≤ (renderObjListW sub (cs.map Object.component)).length := by
  intro cs
  induction cs with
  | nil =>
    intro _
    simp [compsSize, renderObjListW]
  | cons c cs2 ih =>
    intro h
    have h1 := h c (by simp)
    have h2 := ih (fun c2 hc2 => h c2 (by simp [hc2]))
    simp only [compsSize, List.map_cons, renderObjListW, List.length_cons,
      List.length_append, renderObjW]
    omega

theorem schSize_le_renderS_aux : ∀ (n : ℕ) (S : Schematic), schSize S ≤ n →
    schSize S ≤ (renderS S).length := by
  intro n
  induction n using Nat.strong_induction_on with
  | _ n ih =>
    intro S hS
    cases S with
    | mk v g k vl sp te ts ls rs ps ar ws cs =>
      have hcomp : ∀ c ∈ cs, compSize c ≤ (renderCompW renderS c).length := by
        intro c hc
        apply compSize_le_renderCompW
        intro e he
        have hlt : schSize e <
            schSize (Schematic.mk v g k vl sp te ts ls rs ps ar ws cs) :=
          embedded_schSize_lt ⟨c, hc, he⟩
        exact ih (schSize e) (by omega) e (le_refl _)
      have hsum := compsSize_le_render renderS cs hcomp
      rw [renderS_unfold]
      simp only [renderSW]
      rw [objList_split, renderObjListW_append]
      simp only [List.length_append, List.length_cons]
      have hsch : schSize (Schematic.mk v g k vl sp te ts ls rs ps ar ws cs) =
          1 + compsSize cs := by
        simp [schSize]
      omega

theorem schSize_le_renderS (S : Schematic) : schSize S ≤ (renderS S).length :=
  schSize_le_renderS_aux (schSize S) S (le_refl _)

theorem schematicFullP_render (S : Schematic) (hwf : SchWF S) :
    schematicFullP (renderS S) = .ok S := by
  have h1 := schematicFuel_render ((renderS S).length + 1) S [] hwf
    (by have := schSize_le_renderS S; omega) (Or.inl rfl)
  rw [List.append_nil] at h1
  have hsp : schematicP (renderS S) = .ok [] S := h1
  simp only [schematicFullP, terminatedP, bindP, hsp]
  rfl

end FuelBound

section ClaimC1

/-- Concrete schematic used to exercise the round trip: the parse of
`"v {a=1}\nN 0 0 1 1.5 {}"`. -/
def c1Schem : Schematic :=
  .mk ⟨⟨chars "a=1", [(chars "a", chars "1")]⟩⟩ none none none none none
    [] [] [] [] []
    [⟨⟨⟨0, 0⟩, ⟨0, 0⟩⟩, ⟨⟨1, 0⟩, ⟨15, 1⟩⟩, ⟨[], []⟩⟩]
    []

/-- C1: every schematic produced by a successful `schematic_full` parse
renders (via the `Display` implementation) to a text that `schematic_full`
parses again, yielding the same schematic (same version, same five
singleton property slots, same seven object sequences). -/
theorem c1_round_trip (input : Str) (S : Schematic)
    (h : schematicFullP input = .ok S) : schematicFullP (renderS S) = .ok S :=
  schematicFullP_render S (schematicFullP_ok_wf h)

/-- Witness: the round trip at the concrete schematic parsed from
`"v {a=1}\nN 0 0 1 1.5 {}"`. -/
theorem c1_round_trip_witness :
    schematicFullP (chars "v \x7ba=1\x7d\nN 0 0 1 1.5 \x7b\x7d") = .ok c1Schem ∧
    schematicFullP (renderS c1Schem) = .ok c1Schem :=
  ⟨rfl, c1_round_trip (chars "v \x7ba=1\x7d\nN 0 0 1 1.5 \x7b\x7d") c1Schem rfl⟩

end ClaimC1

end Xschem
